import Mathlib

/-!
Verification of the papercraft editor's document model, tessellator,
serialization code tables and Pepakura importer against its specification.

Shallow embedding conventions, stated once for the whole development:

* Machine integers (`u32`, `usize`) are modelled as `Nat`; the mesh sizes the
  claims quantify over never approach `2^32`, and no claim exercises wrap-around.
* `f32` scalar data that only flows through exact arithmetic (sums, means,
  divisions by counts, page-layout additions and comparisons) is modelled as
  `ℚ` (the exact-real semantics of the floating-point program).
* Floating-point functions whose value is transcendental (plane projection,
  `atan2`, `sin`/`cos`, vector normalization, the radians→degrees conversion)
  are kept as *parameters* of the embedding, bundled in a `Geom` structure:
  every theorem below holds for every instantiation of those parameters, so in
  particular for the real floating-point ones.  Concrete witnesses instantiate
  them with trivial computable functions.
* Rust panics (out-of-bounds indexing, `Option::unwrap`) are modelled either by
  an `Option` result or by a total function together with well-formedness
  hypotheses that exclude the panicking inputs; each such spot is marked.
-/

namespace Craft

/-! ## EdgeStatus, TabStyle, FoldStyle (src/paper/craft.rs) -/

/-- Per-edge mutable state (craft.rs `EdgeStatus`). -/
inductive EdgeStatus where
  | Hidden : EdgeStatus
  | Joined : EdgeStatus
  | Cut : Bool → EdgeStatus
deriving DecidableEq, Repr

/-- craft.rs `TabStyle`. -/
inductive TabStyle where
  | Textured | HalfTextured | White | None
deriving DecidableEq, Repr

/-- craft.rs `FoldStyle`. -/
inductive FoldStyle where
  | Full | FullAndOut | Out | In | InAndOut | None
deriving DecidableEq, Repr

/-! ### Serialization code tables (craft.rs, `impl Serialize/Deserialize`)

The serializers write a small integer; the deserializers accept exactly the
integers of the table and reject every other value.  The wire value is a JSON
integer, modelled as `Nat` (all codes are non-negative). -/

/-- craft.rs `impl Serialize for EdgeStatus`. -/
def serializeEdgeStatus : EdgeStatus → Nat
  | .Hidden => 0
  | .Joined => 1
  | .Cut false => 2
  | .Cut true => 3

/-- craft.rs `impl Deserialize for EdgeStatus`: any integer outside 0..3 is an error. -/
def deserializeEdgeStatus : Nat → Option EdgeStatus
  | 0 => some .Hidden
  | 1 => some .Joined
  | 2 => some (.Cut false)
  | 3 => some (.Cut true)
  | _ => none

/-- craft.rs `impl Serialize for TabStyle`. -/
def serializeTabStyle : TabStyle → Nat
  | .Textured => 0
  | .HalfTextured => 1
  | .White => 2
  | .None => 3

/-- craft.rs `impl Deserialize for TabStyle`. -/
def deserializeTabStyle : Nat → Option TabStyle
  | 0 => some .Textured
  | 1 => some .HalfTextured
  | 2 => some .White
  | 3 => some .None
  | _ => none

/-- craft.rs `impl Serialize for FoldStyle`. -/
def serializeFoldStyle : FoldStyle → Nat
  | .Full => 0
  | .FullAndOut => 1
  | .Out => 2
  | .In => 3
  | .InAndOut => 4
  | .None => 5

/-- craft.rs `impl Deserialize for FoldStyle`. -/
def deserializeFoldStyle : Nat → Option FoldStyle
  | 0 => some .Full
  | 1 => some .FullAndOut
  | 2 => some .Out
  | 3 => some .In
  | 4 => some .InAndOut
  | 5 => some .None
  | _ => none

end Craft

/-- C8: EdgeStatus serializes as Hidden=0, Joined=1, Cut(false)=2, Cut(true)=3,
TabStyle as 0..3 and FoldStyle as 0..5 in declaration order; deserialization of
each field rejects every integer outside its code table; hence
serialize-then-deserialize is the identity on these three fields. -/
theorem c8_enum_code_tables :
    (Craft.serializeEdgeStatus .Hidden = 0 ∧
     Craft.serializeEdgeStatus .Joined = 1 ∧
     Craft.serializeEdgeStatus (.Cut false) = 2 ∧
     Craft.serializeEdgeStatus (.Cut true) = 3) ∧
    (Craft.serializeTabStyle .Textured = 0 ∧
     Craft.serializeTabStyle .HalfTextured = 1 ∧
     Craft.serializeTabStyle .White = 2 ∧
     Craft.serializeTabStyle .None = 3) ∧
    (Craft.serializeFoldStyle .Full = 0 ∧
     Craft.serializeFoldStyle .FullAndOut = 1 ∧
     Craft.serializeFoldStyle .Out = 2 ∧
     Craft.serializeFoldStyle .In = 3 ∧
     Craft.serializeFoldStyle .InAndOut = 4 ∧
     Craft.serializeFoldStyle .None = 5) ∧
    (∀ s, Craft.deserializeEdgeStatus (Craft.serializeEdgeStatus s) = some s) ∧
    (∀ t, Craft.deserializeTabStyle (Craft.serializeTabStyle t) = some t) ∧
    (∀ f, Craft.deserializeFoldStyle (Craft.serializeFoldStyle f) = some f) ∧
    (∀ n, 3 < n → Craft.deserializeEdgeStatus n = none) ∧
    (∀ n, 3 < n → Craft.deserializeTabStyle n = none) ∧
    (∀ n, 5 < n → Craft.deserializeFoldStyle n = none) := by
  refine ⟨⟨rfl, rfl, rfl, rfl⟩, ⟨rfl, rfl, rfl, rfl⟩, ⟨rfl, rfl, rfl, rfl, rfl, rfl⟩,
    ?_, ?_, ?_, ?_, ?_, ?_⟩
  · rintro (_ | _ | b) <;> first | rfl | (cases b <;> rfl)
  · rintro (_ | _ | _ | _) <;> rfl
  · rintro (_ | _ | _ | _ | _ | _) <;> rfl
  · intro n h
    match n, h with
    | n + 4, _ => rfl
  · intro n h
    match n, h with
    | n + 4, _ => rfl
  · intro n h
    match n, h with
    | n + 6, _ => rfl

/-- C8 witness: the universally quantified parts of `c8_enum_code_tables`
evaluated at concrete inputs. -/
theorem c8_enum_code_tables_witness :
    Craft.deserializeEdgeStatus (Craft.serializeEdgeStatus (.Cut true)) =
      some (.Cut true) ∧
    Craft.deserializeFoldStyle 7 = none := by
  refine ⟨c8_enum_code_tables.2.2.2.1 (.Cut true), c8_enum_code_tables.2.2.2.2.2.2.2.2 7 ?_⟩
  decide

/-! ## Polygon tessellator (src/tessellate.rs)

`tessellate` projects the 3D input points into the face plane and then
ear-clips the resulting 2D polygon.  The numeric ingredients (the projection
built from the accumulated cross-product normal, the interior-angle measure
used to rank ear candidates, and the point-in-triangle test) are `f32`
computations; they are abstracted as parameters `TessGeom`, and the theorems
hold for every instantiation.  Everything the claim C6 speaks about (triangle
counts and index validity) is independent of these parameters. -/

namespace Tess

/-- The floating-point ingredients of tessellate.rs, as parameters:
`mkProj ps` is the projection into the plane of the whole polygon `ps`
(normal accumulation, `plane_x`, `plane_y`, dot products); `inner a b c` is
the value `Rad(PI) - (c - b).angle(b - a)` ranked by `<`; `pit p a b c` is
`point_in_triangle(p, a, b, c)`. -/
structure TessGeom (Q P A : Type) where
  mkProj : List Q → Q → P
  inner : P → P → P → A
  pit : P → P → P → P → Bool

variable {Q P A : Type} [LinearOrder A] [Inhabited P]

/-- One pass of the candidate scan of tessellate.rs (the `for i in 0..ps.len()`
loop): keep the index of the smallest interior angle among vertices accepted as
ears; a candidate is examined only when its angle beats the current minimum,
and accepted only if no other remaining point lies inside its triangle. -/
def selectEar (g : TessGeom Q P A) (ps : List (Nat × P)) : Option (Nat × A) :=
  (List.range ps.length).foldl
    (fun minAngle i =>
      let a := (ps.getD i default).2
      let b := (ps.getD ((i + 1) % ps.length) default).2
      let c := (ps.getD ((i + 2) % ps.length) default).2
      let innerAngle := g.inner a b c
      if (minAngle.map (fun x => decide (innerAngle < x.2))).getD true then
        if !((List.range ps.length).any (fun iOther =>
              iOther ≠ i && iOther ≠ (i + 1) % ps.length &&
              iOther ≠ (i + 2) % ps.length &&
              g.pit (ps.getD iOther default).2 a b c)) then
          some (i, innerAngle)
        else minAngle
      else minAngle)
    none

/-- The ear-clipping loop of tessellate.rs (`while ps.len() >= 3`): pick the
ear (falling back to index 0 when the scan found none), emit the original
indices of its triangle, remove the middle vertex, repeat. -/
def tessLoop (g : TessGeom Q P A) (ps : List (Nat × P)) : List (Nat × Nat × Nat) :=
  if h : 3 ≤ ps.length then
    let i := ((selectEar g ps).map (fun x => x.1)).getD 0
    let t0 := i % ps.length
    let t1 := (i + 1) % ps.length
    let t2 := (i + 2) % ps.length
    ((ps.getD t0 default).1, (ps.getD t1 default).1, (ps.getD t2 default).1) ::
      tessLoop g (ps.eraseIdx t1)
  else []
termination_by ps.length
decreasing_by
  have hlen : t1 < ps.length := Nat.mod_lt _ (by omega)
  simp [List.length_eraseIdx, hlen]
  omega

/-- tessellate.rs `tessellate`: fewer than 3 points gives no triangles, exactly
3 points the single triangle `(0,1,2)`, otherwise project into the plane and
ear-clip.  (`ps.enum` keeps each point's original index exactly as the
`enumerate` in the source.) -/
def tessellate (g : TessGeom Q P A) (ps : List Q) : List (Nat × Nat × Nat) :=
  if ps.length < 3 then []
  else if ps.length = 3 then [(0, 1, 2)]
  else
    let proj := g.mkProj ps
    tessLoop g (ps.enum.map (fun x => (x.1, proj x.2)))

end Tess

namespace Tess

variable {Q P A : Type} [LinearOrder A] [Inhabited P]

theorem tessLoop_nil (g : TessGeom Q P A) (ps : List (Nat × P)) (h : ps.length < 3) :
    tessLoop g ps = [] := by
  rw [tessLoop, dif_neg (by omega)]

theorem tessLoop_length (g : TessGeom Q P A) (n : Nat) :
    ∀ ps : List (Nat × P), ps.length ≤ n → 3 ≤ ps.length →
      (tessLoop g ps).length = ps.length - 2 := by
  induction n with
  | zero => intro ps h h3; omega
  | succ n ih =>
    intro ps h h3
    rw [tessLoop, dif_pos h3]
    have ht1 : (((selectEar g ps).map fun x => x.1).getD 0 + 1) % ps.length < ps.length :=
      Nat.mod_lt _ (by omega)
    have herase :
        (ps.eraseIdx ((((selectEar g ps).map fun x => x.1).getD 0 + 1) % ps.length)).length =
          ps.length - 1 := by
      rw [List.length_eraseIdx]
      simp [ht1]
    by_cases h4 : 3 ≤ ps.length - 1
    · have := ih (ps.eraseIdx ((((selectEar g ps).map fun x => x.1).getD 0 + 1) % ps.length))
        (by omega) (by omega)
      simp only [List.length_cons, this, herase]
      omega
    · have h5 : ps.length = 3 := by omega
      simp only [List.length_cons]
      rw [tessLoop_nil g _ (by rw [herase]; omega)]
      simp [h5]

theorem tessLoop_mem (g : TessGeom Q P A) (n : Nat) :
    ∀ ps : List (Nat × P), ps.length ≤ n → ∀ t ∈ tessLoop g ps,
      (∃ p ∈ ps, p.1 = t.1) ∧ (∃ p ∈ ps, p.1 = t.2.1) ∧ (∃ p ∈ ps, p.1 = t.2.2) := by
  induction n with
  | zero =>
    intro ps h t ht
    rw [tessLoop] at ht
    rw [dif_neg (by omega)] at ht
    simp at ht
  | succ n ih =>
    intro ps h t ht
    by_cases h3 : 3 ≤ ps.length
    · rw [tessLoop, dif_pos h3] at ht
      simp only [List.mem_cons] at ht
      have hpos : 0 < ps.length := by omega
      rcases ht with ht | ht
      · subst ht
        refine ⟨⟨ps.getD (_ % ps.length) default, ?_, rfl⟩,
                ⟨ps.getD (_ % ps.length) default, ?_, rfl⟩,
                ⟨ps.getD (_ % ps.length) default, ?_, rfl⟩⟩ <;>
          · rw [List.getD_eq_getElem ps default (Nat.mod_lt _ hpos)]
            exact List.getElem_mem _
      · have ht1 : (((selectEar g ps).map fun x => x.1).getD 0 + 1) % ps.length < ps.length :=
          Nat.mod_lt _ hpos
        have herase :
            (ps.eraseIdx
              ((((selectEar g ps).map fun x => x.1).getD 0 + 1) % ps.length)).length =
              ps.length - 1 := by
          rw [List.length_eraseIdx]
          simp [ht1]
        have hm := ih (ps.eraseIdx ((((selectEar g ps).map fun x => x.1).getD 0 + 1) % ps.length))
          (by omega) t ht
        have hsub := List.eraseIdx_sublist ps
          ((((selectEar g ps).map fun x => x.1).getD 0 + 1) % ps.length)
        exact ⟨hm.1.imp (fun p hp => ⟨hsub.mem hp.1, hp.2⟩),
               hm.2.1.imp (fun p hp => ⟨hsub.mem hp.1, hp.2⟩),
               hm.2.2.imp (fun p hp => ⟨hsub.mem hp.1, hp.2⟩)⟩
    · rw [tessLoop_nil g ps (by omega)] at ht
      simp at ht

theorem mem_tessellate_fst_lt (g : TessGeom Q P A) (ps : List Q)
    (h3 : 3 < ps.length) (t : Nat × Nat × Nat) (ht : t ∈ tessellate g ps) :
    t.1 < ps.length ∧ t.2.1 < ps.length ∧ t.2.2 < ps.length := by
  rw [tessellate, if_neg (by omega), if_neg (by omega)] at ht
  have hlen : (ps.enum.map (fun x => (x.1, g.mkProj ps x.2))).length = ps.length := by
    simp
  have hm := tessLoop_mem g (ps.enum.map (fun x => (x.1, g.mkProj ps x.2))).length
    _ le_rfl t ht
  have hfst : ∀ p ∈ ps.enum.map (fun x => (x.1, g.mkProj ps x.2)), p.1 < ps.length := by
    intro p hp
    rcases List.mem_map.1 hp with ⟨q, hq, rfl⟩
    have : q.1 ∈ ps.enum.map Prod.fst := List.mem_map_of_mem _ hq
    rw [List.enum_map_fst] at this
    exact List.mem_range.1 this
  obtain ⟨⟨p0, hp0, he0⟩, ⟨p1, hp1, he1⟩, ⟨p2, hp2, he2⟩⟩ := hm
  exact ⟨he0 ▸ hfst p0 hp0, he1 ▸ hfst p1 hp1, he2 ▸ hfst p2 hp2⟩

end Tess

/-- C6: tessellate on fewer than 3 points returns no triangles; on exactly 3
points it returns exactly the single triangle `(0,1,2)`; and for every list of
`N ≥ 3` points it (terminates, being a total Lean function, and) returns
exactly `N - 2` triangles, every component of which is a valid index `< N` of
the original point list.  Holds for every instantiation of the floating-point
parameters. -/
theorem c6_tessellate_count_and_validity {Q P A : Type} [LinearOrder A] [Inhabited P]
    (g : Tess.TessGeom Q P A) (ps : List Q) :
    (ps.length < 3 → Tess.tessellate g ps = []) ∧
    (ps.length = 3 → Tess.tessellate g ps = [(0, 1, 2)]) ∧
    (3 ≤ ps.length →
      (Tess.tessellate g ps).length = ps.length - 2 ∧
      ∀ t ∈ Tess.tessellate g ps,
        t.1 < ps.length ∧ t.2.1 < ps.length ∧ t.2.2 < ps.length) := by
  refine ⟨?_, ?_, ?_⟩
  · intro h
    rw [Tess.tessellate, if_pos h]
  · intro h
    rw [Tess.tessellate, if_neg (by omega), if_pos h]
  · intro h3
    rcases eq_or_lt_of_le h3 with heq | hlt
    · constructor
      · rw [Tess.tessellate, if_neg (by omega), if_pos heq.symm]
        simp [← heq]
      · intro t ht
        rw [Tess.tessellate, if_neg (by omega), if_pos heq.symm] at ht
        simp only [List.mem_singleton] at ht
        subst ht
        rw [← heq]
        exact ⟨by decide, by decide, by decide⟩
    · constructor
      · rw [Tess.tessellate, if_neg (by omega), if_neg (by omega)]
        have hlen : (ps.enum.map (fun x => (x.1, g.mkProj ps x.2))).length = ps.length := by
          simp
        rw [Tess.tessLoop_length g (ps.enum.map (fun x => (x.1, g.mkProj ps x.2))).length _
          le_rfl (by omega), hlen]
      · exact Tess.mem_tessellate_fst_lt g ps hlt

/-- A trivial computable instantiation of the tessellator's floating-point
parameters, used only to evaluate witnesses. -/
def unitTessGeom : Tess.TessGeom Unit Unit Unit where
  mkProj := fun _ _ => ()
  inner := fun _ _ _ => ()
  pit := fun _ _ _ _ => false

/-- C6 witness: the theorem applied at concrete inputs of length 2, 3 and 5. -/
theorem c6_tessellate_count_and_validity_witness :
    Tess.tessellate unitTessGeom [(), ()] = [] ∧
    Tess.tessellate unitTessGeom [(), (), ()] = [(0, 1, 2)] ∧
    (Tess.tessellate unitTessGeom [(), (), (), (), ()]).length = 3 := by
  refine ⟨(c6_tessellate_count_and_validity unitTessGeom [(), ()]).1 (by decide),
          (c6_tessellate_count_and_validity unitTessGeom [(), (), ()]).2.1 (by decide),
          ?_⟩
  have h := ((c6_tessellate_count_and_validity unitTessGeom
    [(), (), (), (), ()]).2.2 (by decide)).1
  simpa using h

/-! ## Pepakura importer (src/paper/model/import/pepakura/importer.rs)

Only the option-derivation logic the claim C9 speaks about is embedded: the
`fold_line_hide_angle` handling of `PepakuraImporter::new` and the flap
averaging of `build_options`.  Flap widths/angles are `f32` data modelled as
`ℚ` (the sums, divisions and comparisons involved are the exact-real semantics
of the float program); the radians→degrees conversion `Deg::from(Rad(x))`
multiplies by the transcendental `180/π` and is therefore a parameter
`radToDeg`.  The `.pdo` data structures come from a parsing module (`data.rs`)
that is not under src/; the record shapes below carry exactly the fields the
importer code reads. -/

namespace Pepakura

/-- A glue flap attached to one face-vertex: width and two angles (the angles
are stored as radians, their `.0` payloads summed by `build_options`). -/
structure Flap where
  width : ℚ
  angle1 : ℚ
  angle2 : ℚ

/-- One vertex-in-face record; the importer's averaging only reads its flap. -/
structure VertInFace where
  flap : Option Flap

/-- One Pepakura face: its per-vertex records. -/
structure PdoFace where
  verts : List VertInFace

/-- One Pepakura object: its faces. -/
structure PdoObject where
  faces : List PdoFace

/-- The project settings read by `PepakuraImporter::new`.  The stored
fold-line-hide angle is a non-negative integer (the parsing module is not
under src/; real projects store an angle in `0..=180`). -/
structure Settings where
  fold_line_hide_angle : Option Nat

/-- The parts of a parsed `.pdo` project that the embedded logic reads. -/
structure Pdo where
  objects : List PdoObject
  settings : Settings
  unfold_scale : Option ℚ

/-- The option fields written by the importer.  The importer belongs to a
newer revision of the code than the craft.rs under src/ (it says `flap_width`
and `flap_angle` where craft.rs says `tab_width`/`tab_angle`); field names
follow the importer. -/
structure ImportOptions where
  hidden_line_angle : ℚ
  scale : ℚ
  flap_width : ℚ
  flap_angle : ℚ
deriving DecidableEq, Repr

/-- `f32::round`: round to the nearest integer, ties away from zero. -/
def fround (q : ℚ) : ℚ :=
  if 0 ≤ q then (⌊q + 1/2⌋ : ℤ) else (-⌊-q + 1/2⌋ : ℤ)

/-- importer.rs `PepakuraImporter::new`, restricted to the option fields of
this embedding: page size and margins are copied from settings (not modelled);
`hidden_line_angle` is set to `180 - a` when the settings store a
fold-line-hide angle `a`; `scale` comes from the unfold metadata when present.
The `180 - a` is machine-integer subtraction; for `a ≤ 180` (every real
project) it agrees with the `ℚ` subtraction used here. -/
def newOptions (pdo : Pdo) : ImportOptions :=
  let o0 : ImportOptions :=
    { hidden_line_angle := 0, scale := 1, flap_width := 5, flap_angle := 45 }
  let o1 :=
    match pdo.settings.fold_line_hide_angle with
    | some a => { o0 with hidden_line_angle := (180 : ℚ) - a }
    | none => o0
  match pdo.unfold_scale with
  | some s => { o1 with scale := s }
  | none => o1

/-- The flap accumulation loop of importer.rs `build_options`: for every flap
of every face-vertex of every object, add its width to the width sum, add one
to the count, and add both stored angles to the angle sum.
Returns `(flap_count, flap_width_sum, flap_angle_sum)`. -/
def flapAccum (pdo : Pdo) : Nat × ℚ × ℚ :=
  pdo.objects.foldl
    (fun acc obj =>
      obj.faces.foldl
        (fun acc face =>
          face.verts.foldl
            (fun acc vert =>
              match vert.flap with
              | some flap =>
                  (acc.1 + 1, acc.2.1 + flap.width, acc.2.2 + flap.angle1 + flap.angle2)
              | none => acc)
            acc)
        acc)
    (0, 0, 0)

/-- importer.rs `build_options`: starting from the options computed by `new`,
if the project contains at least one flap, set the document flap width to the
rounded mean of all flap widths and the document flap angle to the rounded
degrees-value of `flap_angle_sum / 2 / flap_count`.  (`page_cols`/`pages`
come from the relocation pass and are outside this claim.) -/
def build_options (radToDeg : ℚ → ℚ) (pdo : Pdo) : ImportOptions :=
  let options := newOptions pdo
  let acc := flapAccum pdo
  if 0 < acc.1 then
    { options with
        flap_width := fround (acc.2.1 / acc.1),
        flap_angle := fround (radToDeg (acc.2.2 / 2 / acc.1)) }
  else options

end Pepakura

/-- C9 counterexample: a project with two flaps of widths 1 and 2 (and zero
angles).  The claim says the document flap width is the straight mean of the
flap widths, 3/2; the importer stores the rounded value 2. -/
theorem c9_pepakura_mean_counterexample :
    (Pepakura.build_options id
      { objects := [{ faces := [{ verts :=
          [{ flap := some { width := 1, angle1 := 0, angle2 := 0 } },
           { flap := some { width := 2, angle1 := 0, angle2 := 0 } }] }] }],
        settings := { fold_line_hide_angle := none },
        unfold_scale := none }).flap_width = 2 ∧
    ((1 : ℚ) + 2) / 2 = 3 / 2 ∧ (2 : ℚ) ≠ 3 / 2 := by
  refine ⟨?_, by norm_num, by norm_num⟩
  norm_num [Pepakura.build_options, Pepakura.newOptions, Pepakura.flapAccum, Pepakura.fround]

/-- C9 amended: when the project stores a fold-line-hide angle `a ≤ 180` the
imported `hidden_line_angle` is `180 - a` degrees; when the project contains at
least one flap, the document flap width is the straight mean of all flap widths
*rounded to the nearest integer* (ties away from zero), and the document flap
angle is the sum of the two stored angles over all flaps, divided by twice the
flap count, *converted from radians to degrees and rounded to the nearest
integer*.  Holds for every radians→degrees conversion function. -/
theorem c9_pepakura_option_derivation (radToDeg : ℚ → ℚ) (pdo : Pepakura.Pdo) :
    (∀ a : Nat, pdo.settings.fold_line_hide_angle = some a → a ≤ 180 →
      (Pepakura.build_options radToDeg pdo).hidden_line_angle = (180 : ℚ) - a) ∧
    (0 < (Pepakura.flapAccum pdo).1 →
      (Pepakura.build_options radToDeg pdo).flap_width =
        Pepakura.fround ((Pepakura.flapAccum pdo).2.1 / (Pepakura.flapAccum pdo).1) ∧
      (Pepakura.build_options radToDeg pdo).flap_angle =
        Pepakura.fround (radToDeg
          ((Pepakura.flapAccum pdo).2.2 / 2 / (Pepakura.flapAccum pdo).1))) := by
  constructor
  · intro a ha h180
    by_cases h : 0 < (Pepakura.flapAccum pdo).1 <;>
      simp only [Pepakura.build_options, Pepakura.newOptions, ha, h, if_pos, if_neg,
        if_true, if_false] <;>
      cases hu : pdo.unfold_scale <;> simp [hu, h]
  · intro h
    constructor <;> simp [Pepakura.build_options, h]

/-- C9 witness: the amended theorem applied to a concrete one-flap project
(width 3, angles 1/2 and 1/2, hide angle 30) with the identity as the
radians→degrees conversion: hidden line angle 150, flap width 3, flap angle
`round((1/2 + 1/2) / 2) = 1`. -/
theorem c9_pepakura_option_derivation_witness :
    (Pepakura.build_options id
      { objects := [{ faces := [{ verts :=
          [{ flap := some { width := 3, angle1 := 1/2, angle2 := 1/2 } }] }] }],
        settings := { fold_line_hide_angle := some 30 },
        unfold_scale := none }).hidden_line_angle = 150 ∧
    (Pepakura.build_options id
      { objects := [{ faces := [{ verts :=
          [{ flap := some { width := 3, angle1 := 1/2, angle2 := 1/2 } }] }] }],
        settings := { fold_line_hide_angle := some 30 },
        unfold_scale := none }).flap_width = 3 ∧
    (Pepakura.build_options id
      { objects := [{ faces := [{ verts :=
          [{ flap := some { width := 3, angle1 := 1/2, angle2 := 1/2 } }] }] }],
        settings := { fold_line_hide_angle := some 30 },
        unfold_scale := none }).flap_angle = 1 := by
  have h := c9_pepakura_option_derivation id
    { objects := [{ faces := [{ verts :=
        [{ flap := some { width := 3, angle1 := 1/2, angle2 := 1/2 } }] }] }],
      settings := { fold_line_hide_angle := some 30 },
      unfold_scale := none }
  have hacc : (Pepakura.flapAccum
      { objects := [{ faces := [{ verts :=
          [{ flap := some { width := 3, angle1 := 1/2, angle2 := 1/2 } }] }] }],
        settings := { fold_line_hide_angle := some 30 },
        unfold_scale := none }) = (1, 3, 1) := by
    norm_num [Pepakura.flapAccum]
  obtain ⟨hw, hang⟩ := h.2 (by rw [hacc]; norm_num)
  refine ⟨?_, ?_, ?_⟩
  · have := h.1 30 rfl (by norm_num)
    rw [this]; norm_num
  · rw [hw, hacc]; norm_num [Pepakura.fround]
  · rw [hang, hacc]; norm_num [Pepakura.fround]

/-! ## Mesh model and face-graph traversal (src/paper/model.rs, src/paper/craft.rs)

The mesh is immutable: faces (each a list of edge indices; the vertex data,
materials and positions play no role in the claims below) and edges (each the
one or two incident faces).  Indices are `Nat`.  Out-of-bounds indexing, which
panics in Rust, is modelled by `getD` with a default plus well-formedness
hypotheses (`WFModel`) excluding it.

`traverse_faces_ex` of craft.rs is an explicit-stack depth-first walk: pop a
face, visit it, and for every crossable edge of the face push each not yet
visited incident face (pushes go on top of the stack, so the last push is
popped first, exactly as the Rust `Vec`).  It is embedded with fuel
(`faces.length + 1` always suffices, as proved below) and returns the visited
faces in visit order, each paired with its accumulated traversal state. -/

namespace Craft

/-- model.rs `Edge`: the one or two incident faces. -/
structure Edge where
  f0 : Nat
  f1 : Option Nat
deriving DecidableEq, Repr

/-- model.rs `Face`, reduced to its edge list (3 entries in a real mesh). -/
structure Face where
  edges : List Nat
deriving DecidableEq, Repr

/-- model.rs `Model`, reduced to faces and edges. -/
structure Model where
  faces : List Face
  edges : List Edge
deriving DecidableEq, Repr

def defaultFace : Face := ⟨[]⟩

def defaultEdge : Edge := ⟨0, none⟩

/-- The faces incident to an edge in the order the traversal iterates them
(`once(fa).chain(fb)`). -/
def Edge.faceList (e : Edge) : List Nat := e.f0 :: e.f1.toList

/-- Well-formedness of a mesh: all indices in range and the face/edge
incidence lists mutually consistent (each edge is listed by the faces it names,
and each edge named by a face has that face as `f0` or `f1`).  The mesh
builder of model.rs establishes exactly this. -/
structure WFModel (md : Model) : Prop where
  edgesLt : ∀ f, f < md.faces.length →
    ∀ ie ∈ (md.faces.getD f defaultFace).edges, ie < md.edges.length
  f0Lt : ∀ ie, ie < md.edges.length →
    (md.edges.getD ie defaultEdge).f0 < md.faces.length
  f1Lt : ∀ ie, ie < md.edges.length →
    ∀ g ∈ (md.edges.getD ie defaultEdge).f1.toList, g < md.faces.length
  f0Mem : ∀ ie, ie < md.edges.length →
    ie ∈ (md.faces.getD (md.edges.getD ie defaultEdge).f0 defaultFace).edges
  f1Mem : ∀ ie, ie < md.edges.length →
    ∀ g ∈ (md.edges.getD ie defaultEdge).f1.toList,
      ie ∈ (md.faces.getD g defaultFace).edges
  incident : ∀ f, f < md.faces.length →
    ∀ ie ∈ (md.faces.getD f defaultFace).edges,
      (md.edges.getD ie defaultEdge).f0 = f ∨ (md.edges.getD ie defaultEdge).f1 = some f

/-- craft.rs `Papercraft::edge_status` (the per-edge status array lookup). -/
def edgeStatus (sts : List EdgeStatus) (ie : Nat) : EdgeStatus :=
  sts.getD ie (.Cut false)

/-- craft.rs `NormalTraverseFace::cross_edge` and
`NoMatrixTraverseFace::cross_edge`, which have the same body: a `Cut` edge is
never crossed, `Joined` and `Hidden` edges are crossed. -/
def crossNormal (sts : List EdgeStatus) (ie : Nat) : Bool :=
  match edgeStatus sts ie with
  | .Cut _ => false
  | .Joined => true
  | .Hidden => true

/-- craft.rs `FlatTraverseFace::cross_edge` (same body in
`FlatTraverseFaceWithMatrixUnscaled`): `Joined` and `Cut` edges are not
crossed, only `Hidden` edges are. -/
def crossFlat (sts : List EdgeStatus) (ie : Nat) : Bool :=
  match edgeStatus sts ie with
  | .Joined => false
  | .Cut _ => false
  | .Hidden => true

/-- A traversal policy: which edges may be crossed, and the state carried from
a face to the next across an edge (craft.rs trait `TraverseFacePolicy`;
`nextState st ie f nf` receives the edge and both faces). -/
structure TravPolicy (S : Type) where
  cross : Nat → Bool
  nextState : S → Nat → Nat → Nat → S

/-- The candidate (edge, next-face) pairs produced by visiting one face: for
each crossable edge of the face, in order, each incident face of that edge, in
order.  This is the flattening of the two nested `for` loops of
`traverse_faces_ex`. -/
def faceCandidates (md : Model) (cross : Nat → Bool) (face : Face) : List (Nat × Nat) :=
  face.edges.foldr
    (fun ie acc =>
      if cross ie then
        ((md.edges.getD ie defaultEdge).faceList.map (fun nf => (ie, nf))) ++ acc
      else acc)
    []

/-- Push every candidate face not yet visited: prepend it to the stack (so the
last push is popped first, as with a Rust `Vec`) and mark it visited. -/
def pushCands {S : Type} (pol : TravPolicy S) (st : S) (iFace : Nat)
    (cands : List (Nat × Nat)) (sv : List (Nat × S) × List Nat) :
    List (Nat × S) × List Nat :=
  cands.foldl
    (fun sv c =>
      if c.2 ∈ sv.2 then sv
      else ((c.2, pol.nextState st c.1 iFace c.2) :: sv.1, c.2 :: sv.2))
    sv

/-- The main loop of craft.rs `traverse_faces_ex`, with fuel.  `out`
accumulates the visited faces (most recent first) with their states. -/
def dfsLoop (md : Model) {S : Type} (pol : TravPolicy S) :
    Nat → List (Nat × S) → List Nat → List (Nat × S) → List (Nat × S)
  | 0, _, _, out => out.reverse
  | fuel + 1, stack, visited, out =>
    match stack with
    | [] => out.reverse
    | (f, st) :: rest =>
      let sv := pushCands pol st f
        (faceCandidates md pol.cross (md.faces.getD f defaultFace)) (rest, visited)
      dfsLoop md pol fuel sv.1 sv.2 ((f, st) :: out)

/-- craft.rs `traverse_faces_ex`: the visited faces in visit order with their
accumulated states.  `faces.length + 1` fuel always suffices (`dfsLoop_spec`). -/
def traverseFacesEx (md : Model) {S : Type} (pol : TravPolicy S)
    (root : Nat) (s0 : S) : List (Nat × S) :=
  dfsLoop md pol (md.faces.length + 1) [(root, s0)] [root] []

/-- The membership-only traversal (craft.rs policies with `State = ()`). -/
def traverseFaces (md : Model) (cross : Nat → Bool) (root : Nat) : List Nat :=
  (traverseFacesEx md ⟨cross, fun _ _ _ _ => ()⟩ root ()).map Prod.fst

/-- One traversal step: `g` is incident to a crossable edge of `f`. -/
def Adj (md : Model) (cross : Nat → Bool) (f g : Nat) : Prop :=
  ∃ ie ∈ (md.faces.getD f defaultFace).edges,
    cross ie = true ∧ g ∈ (md.edges.getD ie defaultEdge).faceList

/-- Reachability by traversal steps. -/
def Reach (md : Model) (cross : Nat → Bool) : Nat → Nat → Prop :=
  Relation.ReflTransGen (Adj md cross)

end Craft

namespace Craft

theorem mem_faceCandidates (md : Model) (cross : Nat → Bool) (face : Face)
    (ie nf : Nat) :
    (ie, nf) ∈ faceCandidates md cross face ↔
      ie ∈ face.edges ∧ cross ie = true ∧
        nf ∈ (md.edges.getD ie defaultEdge).faceList := by
  rw [faceCandidates]
  induction face.edges with
  | nil => simp
  | cons e es ih =>
    by_cases hc : cross e
    · simp only [List.foldr_cons, if_pos hc, List.mem_append, List.mem_map, ih,
        List.mem_cons]
      constructor
      · rintro (⟨nfx, hmem, heq⟩ | ⟨h1, h2, h3⟩)
        · injection heq with h1 h2
          subst h1
          subst h2
          exact ⟨Or.inl rfl, hc, hmem⟩
        · exact ⟨Or.inr h1, h2, h3⟩
      · rintro ⟨h1 | h1, h2, h3⟩
        · subst h1
          exact Or.inl ⟨nf, h3, rfl⟩
        · exact Or.inr ⟨h1, h2, h3⟩
    · simp only [List.foldr_cons, if_neg hc, ih, List.mem_cons]
      constructor
      · rintro ⟨h1, h2, h3⟩
        exact ⟨Or.inr h1, h2, h3⟩
      · rintro ⟨h1 | h1, h2, h3⟩
        · subst h1; exact absurd h2 (by simpa using hc)
        · exact ⟨h1, h2, h3⟩

theorem pushCands_spec {S : Type} (pol : TravPolicy S) (st : S) (iFace : Nat) :
    ∀ (cands : List (Nat × Nat)) (stack : List (Nat × S)) (visited : List Nat),
    ∃ pre : List (Nat × S),
      pushCands pol st iFace cands (stack, visited) =
        (pre ++ stack, pre.map Prod.fst ++ visited) ∧
      (∀ p ∈ pre, ∃ c ∈ cands, c.2 = p.1) ∧
      (∀ p ∈ pre, p.1 ∉ visited) ∧
      (pre.map Prod.fst).Nodup ∧
      (∀ c ∈ cands, c.2 ∈ pre.map Prod.fst ++ visited) := by
  intro cands
  induction cands with
  | nil =>
    intro stack visited
    exact ⟨[], rfl, by simp, by simp, by simp, by simp⟩
  | cons c cs ih =>
    intro stack visited
    by_cases hv : c.2 ∈ visited
    · obtain ⟨pre, heq, hfrom, hfresh, hnd, hall⟩ := ih stack visited
      refine ⟨pre, ?_, ?_, hfresh, hnd, ?_⟩
      · rw [pushCands, List.foldl_cons, if_pos hv]
        exact heq
      · exact fun p hp => (hfrom p hp).imp (fun c' hc' => ⟨List.mem_cons_of_mem _ hc'.1, hc'.2⟩)
      · intro c' hc'
        rcases List.mem_cons.1 hc' with rfl | hc'
        · exact List.mem_append_right _ hv
        · exact hall c' hc'
    · obtain ⟨pre, heq, hfrom, hfresh, hnd, hall⟩ :=
        ih ((c.2, pol.nextState st c.1 iFace c.2) :: stack) (c.2 :: visited)
      refine ⟨pre ++ [(c.2, pol.nextState st c.1 iFace c.2)], ?_, ?_, ?_, ?_, ?_⟩
      · rw [pushCands, List.foldl_cons, if_neg hv]
        rw [pushCands] at heq
        rw [heq]
        simp
      · intro p hp
        rcases List.mem_append.1 hp with hp | hp
        · exact (hfrom p hp).imp (fun c' hc' => ⟨List.mem_cons_of_mem _ hc'.1, hc'.2⟩)
        · simp only [List.mem_singleton] at hp
          subst hp
          exact ⟨c, List.mem_cons_self _ _, rfl⟩
      · intro p hp
        rcases List.mem_append.1 hp with hp | hp
        · have := hfresh p hp
          intro hmem
          exact this (List.mem_cons_of_mem _ hmem)
        · simp only [List.mem_singleton] at hp
          subst hp
          exact hv
      · rw [List.map_append]
        refine List.Nodup.append hnd (by simp) ?_
        intro a ha hb
        simp only [List.map_cons, List.map_nil, List.mem_singleton] at hb
        subst hb
        rcases List.mem_map.1 ha with ⟨p, hp, hpe⟩
        exact hfresh p hp (by rw [hpe]; exact List.mem_cons_self _ _)
      · intro c' hc'
        rcases List.mem_cons.1 hc' with rfl | hc'
        · simp
        · have := hall c' hc'
          simp only [List.mem_append] at this ⊢
          rcases this with h | h
          · exact Or.inl (by simp [h])
          · rcases List.mem_cons.1 h with h | h
            · exact Or.inl (by simp [h])
            · exact Or.inr h

theorem length_le_of_nodup_lt {l : List Nat} {N : Nat} (hnd : l.Nodup)
    (hlt : ∀ x ∈ l, x < N) : l.length ≤ N := by
  have h1 : l.toFinset.card = l.length := List.toFinset_card_of_nodup hnd
  have h2 : l.toFinset ⊆ Finset.range N := by
    intro x hx
    rw [List.mem_toFinset] at hx
    exact Finset.mem_range.2 (hlt x hx)
  have := Finset.card_le_card h2
  rw [h1, Finset.card_range] at this
  exact this

end Craft

namespace Craft

theorem dfsLoop_spec (md : Model) {S : Type} (pol : TravPolicy S)
    (hwf : WFModel md) (P : Nat → Prop)
    (Pstep : ∀ f g, P f → Adj md pol.cross f g → P g) :
    ∀ (fuel : Nat) (stack : List (Nat × S)) (visited : List Nat) (out : List (Nat × S)),
      (out.map Prod.fst).Nodup →
      (stack.map Prod.fst).Nodup →
      List.Disjoint (out.map Prod.fst) (stack.map Prod.fst) →
      visited.Nodup →
      (∀ x, x ∈ visited ↔ x ∈ out.map Prod.fst ∨ x ∈ stack.map Prod.fst) →
      (∀ v ∈ visited, v < md.faces.length) →
      (∀ v ∈ visited, P v) →
      (∀ x ∈ out.map Prod.fst, ∀ g, Adj md pol.cross x g → g ∈ visited) →
      stack.length + (md.faces.length - visited.length) < fuel →
      ((dfsLoop md pol fuel stack visited out).map Prod.fst).Nodup ∧
      (∀ x, (x ∈ out.map Prod.fst ∨ x ∈ stack.map Prod.fst) →
        x ∈ (dfsLoop md pol fuel stack visited out).map Prod.fst) ∧
      (∀ x ∈ (dfsLoop md pol fuel stack visited out).map Prod.fst, P x) ∧
      (∀ x ∈ (dfsLoop md pol fuel stack visited out).map Prod.fst,
        ∀ g, Adj md pol.cross x g →
          g ∈ (dfsLoop md pol fuel stack visited out).map Prod.fst) := by
  intro fuel
  induction fuel with
  | zero =>
    intro stack visited out _ _ _ _ _ _ _ _ hfuel
    omega
  | succ fuel ih =>
    intro stack visited out hndo hnds hdisj hndv hvis hlt hP hclosed hfuel
    match stack with
    | [] =>
      have hres : dfsLoop md pol (fuel + 1) [] visited out = out.reverse := rfl
      rw [hres]
      have hmemrev : ∀ x : Nat, x ∈ (out.reverse.map Prod.fst) ↔ x ∈ out.map Prod.fst := by
        intro x
        rw [List.map_reverse, List.mem_reverse]
      refine ⟨?_, ?_, ?_, ?_⟩
      · rw [List.map_reverse]
        exact List.nodup_reverse.2 hndo
      · intro x hx
        rw [hmemrev]
        rcases hx with hx | hx
        · exact hx
        · simp at hx
      · intro x hx
        rw [hmemrev] at hx
        exact hP x ((hvis x).2 (Or.inl hx))
      · intro x hx g hadj
        rw [hmemrev] at hx ⊢
        have := hclosed x hx g hadj
        rcases (hvis g).1 this with h | h
        · exact h
        · simp at h
    | (f, st) :: rest =>
      obtain ⟨pre, hpush, hfrom, hfresh, hndpre, hall⟩ :=
        pushCands_spec pol st f
          (faceCandidates md pol.cross (md.faces.getD f defaultFace)) rest visited
      have hres : dfsLoop md pol (fuel + 1) ((f, st) :: rest) visited out =
          dfsLoop md pol fuel (pre ++ rest) (pre.map Prod.fst ++ visited)
            ((f, st) :: out) := by
        rw [dfsLoop, hpush]
      rw [hres]
      -- facts about the popped face f
      have hfstack : f ∈ ((f, st) :: rest).map Prod.fst := by simp
      have hfvis : f ∈ visited := (hvis f).2 (Or.inr hfstack)
      have hfN : f < md.faces.length := hlt f hfvis
      have hfP : P f := hP f hfvis
      have hrest_sub : ∀ x ∈ rest.map Prod.fst, x ∈ visited := by
        intro x hx
        exact (hvis x).2 (Or.inr (by simp [hx]))
      have hout_sub : ∀ x ∈ out.map Prod.fst, x ∈ visited := by
        intro x hx
        exact (hvis x).2 (Or.inl hx)
      have hfnotrest : f ∉ rest.map Prod.fst := by
        have : (((f, st) :: rest).map Prod.fst).Nodup := hnds
        simp only [List.map_cons] at this
        exact (List.nodup_cons.1 this).1
      have hfnotout : f ∉ out.map Prod.fst := by
        intro hmem
        exact hdisj hmem hfstack
      -- every p in pre is a traversal step from f
      have hpre_adj : ∀ p ∈ pre, Adj md pol.cross f p.1 := by
        intro p hp
        obtain ⟨c, hc, hce⟩ := hfrom p hp
        have := (mem_faceCandidates md pol.cross _ c.1 c.2).1 (by
          have : c = (c.1, c.2) := rfl
          rw [← this]; exact hc)
        exact ⟨c.1, this.1, this.2.1, by rw [hce] at this; exact this.2.2⟩
      have hpre_lt : ∀ p ∈ pre, p.1 < md.faces.length := by
        intro p hp
        obtain ⟨ie, hie, _, hmem⟩ := hpre_adj p hp
        have hielt := hwf.edgesLt f hfN ie hie
        rcases List.mem_cons.1 hmem with h | h
        · rw [h]
          exact hwf.f0Lt ie hielt
        · match hmem2 : (md.edges.getD ie defaultEdge).f1 with
          | some g =>
            rw [hmem2] at h
            simp only [Option.toList_some, List.mem_singleton] at h
            rw [h]
            exact hwf.f1Lt ie hielt g (by rw [hmem2]; simp)
          | none =>
            rw [hmem2] at h
            simp at h
      have hpre_fresh : ∀ x ∈ pre.map Prod.fst, x ∉ visited := by
        intro x hx
        rcases List.mem_map.1 hx with ⟨p, hp, hpe⟩
        rw [← hpe]
        exact hfresh p hp
      -- the new hypotheses for the recursive call
      have hndo2 : (((f, st) :: out).map Prod.fst).Nodup := by
        simp only [List.map_cons]
        exact List.nodup_cons.2 ⟨hfnotout, hndo⟩
      have hnds2 : ((pre ++ rest).map Prod.fst).Nodup := by
        rw [List.map_append]
        refine List.Nodup.append hndpre ?_ ?_
        · have : (((f, st) :: rest).map Prod.fst).Nodup := hnds
          simp only [List.map_cons] at this
          exact (List.nodup_cons.1 this).2
        · intro a ha hb
          exact hpre_fresh a ha (hrest_sub a hb)
      have hdisj2 : List.Disjoint (((f, st) :: out).map Prod.fst)
          ((pre ++ rest).map Prod.fst) := by
        intro a ha hb
        rw [List.map_append, List.mem_append] at hb
        simp only [List.map_cons, List.mem_cons] at ha
        rcases ha with rfl | ha
        · rcases hb with hb | hb
          · exact hpre_fresh a hb hfvis
          · exact hfnotrest hb
        · rcases hb with hb | hb
          · exact hpre_fresh a hb (hout_sub a ha)
          · exact hdisj ha (by simp [hb])
      have hndv2 : (pre.map Prod.fst ++ visited).Nodup :=
        List.Nodup.append hndpre hndv hpre_fresh
      have hvis2 : ∀ x, x ∈ pre.map Prod.fst ++ visited ↔
          x ∈ ((f, st) :: out).map Prod.fst ∨ x ∈ (pre ++ rest).map Prod.fst := by
        intro x
        simp only [List.mem_append, List.map_cons, List.mem_cons, List.map_append]
        constructor
        · rintro (hx | hx)
          · exact Or.inr (Or.inl hx)
          · rcases (hvis x).1 hx with h | h
            · exact Or.inl (Or.inr h)
            · simp only [List.map_cons, List.mem_cons] at h
              rcases h with h | h
              · exact Or.inl (Or.inl h)
              · exact Or.inr (Or.inr h)
        · rintro ((rfl | hx) | (hx | hx))
          · exact Or.inr hfvis
          · exact Or.inr (hout_sub x hx)
          · exact Or.inl hx
          · exact Or.inr (hrest_sub x hx)
      have hlt2 : ∀ v ∈ pre.map Prod.fst ++ visited, v < md.faces.length := by
        intro v hv
        rcases List.mem_append.1 hv with hv | hv
        · rcases List.mem_map.1 hv with ⟨p, hp, hpe⟩
          rw [← hpe]
          exact hpre_lt p hp
        · exact hlt v hv
      have hP2 : ∀ v ∈ pre.map Prod.fst ++ visited, P v := by
        intro v hv
        rcases List.mem_append.1 hv with hv | hv
        · rcases List.mem_map.1 hv with ⟨p, hp, hpe⟩
          rw [← hpe]
          exact Pstep f p.1 hfP (hpre_adj p hp)
        · exact hP v hv
      have hclosed2 : ∀ x ∈ ((f, st) :: out).map Prod.fst,
          ∀ g, Adj md pol.cross x g → g ∈ pre.map Prod.fst ++ visited := by
        intro x hx g hadj
        simp only [List.map_cons, List.mem_cons] at hx
        rcases hx with rfl | hx
        · obtain ⟨ie, hie, hcr, hmem⟩ := hadj
          exact hall (ie, g) ((mem_faceCandidates md pol.cross _ ie g).2 ⟨hie, hcr, hmem⟩)
        · exact List.mem_append_right _ (hclosed x hx g hadj)
      have hfuel2 : (pre ++ rest).length +
          (md.faces.length - (pre.map Prod.fst ++ visited).length) < fuel := by
        have hle : (pre.map Prod.fst ++ visited).length ≤ md.faces.length :=
          length_le_of_nodup_lt hndv2 hlt2
        simp only [List.length_append, List.length_map] at hle ⊢
        simp only [List.length_cons] at hfuel
        omega
      obtain ⟨r1, r2, r3, r4⟩ := ih (pre ++ rest) (pre.map Prod.fst ++ visited)
        ((f, st) :: out) hndo2 hnds2 hdisj2 hndv2 hvis2 hlt2 hP2 hclosed2 hfuel2
      refine ⟨r1, ?_, r3, r4⟩
      intro x hx
      apply r2
      rcases hx with hx | hx
      · exact Or.inl (by simp only [List.map_cons]; exact List.mem_cons_of_mem _ hx)
      · simp only [List.map_cons, List.mem_cons] at hx
        rcases hx with rfl | hx
        · exact Or.inl (by simp)
        · exact Or.inr (by rw [List.map_append, List.mem_append]; exact Or.inr hx)

end Craft

namespace Craft

/-- The visit list of the traversal is duplicate-free and contains exactly the
faces reachable from the root by crossable-edge steps. -/
theorem traverseFacesEx_spec (md : Model) {S : Type} (pol : TravPolicy S)
    (root : Nat) (s0 : S) (hwf : WFModel md) (hroot : root < md.faces.length) :
    ((traverseFacesEx md pol root s0).map Prod.fst).Nodup ∧
    ∀ g, g ∈ (traverseFacesEx md pol root s0).map Prod.fst ↔
      Reach md pol.cross root g := by
  have hN : 1 ≤ md.faces.length := by omega
  obtain ⟨r1, r2, r3, r4⟩ := dfsLoop_spec md pol hwf (Reach md pol.cross root)
    (fun f g hf hadj => Relation.ReflTransGen.tail hf hadj)
    (md.faces.length + 1) [(root, s0)] [root] []
    (by simp) (by simp) (by simp [List.Disjoint]) (by simp)
    (by intro x; simp)
    (by intro v hv; simp only [List.mem_singleton] at hv; rw [hv]; exact hroot)
    (by
      intro v hv
      simp only [List.mem_singleton] at hv
      rw [hv]
      exact Relation.ReflTransGen.refl)
    (by simp)
    (by simp only [List.length_cons, List.length_nil, List.length_singleton]; omega)
  have hrootmem : root ∈ (traverseFacesEx md pol root s0).map Prod.fst := by
    apply r2
    simp [traverseFacesEx]
  refine ⟨r1, fun g => ⟨fun hg => r3 g hg, fun hreach => ?_⟩⟩
  induction hreach with
  | refl => exact hrootmem
  | tail hxy hadj ih => exact r4 _ ih _ hadj

/-- Membership-only form, for `traverse_faces_no_matrix` and the Flat policy. -/
theorem mem_traverseFaces (md : Model) (cross : Nat → Bool) (root : Nat)
    (hwf : WFModel md) (hroot : root < md.faces.length) :
    ∀ g, g ∈ traverseFaces md cross root ↔ Reach md cross root g :=
  (traverseFacesEx_spec md ⟨cross, fun _ _ _ _ => ()⟩ root () hwf hroot).2

theorem traverseFaces_nodup (md : Model) (cross : Nat → Bool) (root : Nat)
    (hwf : WFModel md) (hroot : root < md.faces.length) :
    (traverseFaces md cross root).Nodup :=
  (traverseFacesEx_spec md ⟨cross, fun _ _ _ _ => ()⟩ root () hwf hroot).1

/-- A traversal step out of an in-range face lands on an in-range face. -/
theorem adj_lt (md : Model) (cross : Nat → Bool) (hwf : WFModel md)
    {f g : Nat} (hf : f < md.faces.length) (h : Adj md cross f g) :
    g < md.faces.length := by
  obtain ⟨ie, hie, _, hmem⟩ := h
  have hielt := hwf.edgesLt f hf ie hie
  rcases List.mem_cons.1 hmem with h | h
  · rw [h]
    exact hwf.f0Lt ie hielt
  · match hmem2 : (md.edges.getD ie defaultEdge).f1 with
    | some g2 =>
      rw [hmem2] at h
      simp only [Option.toList_some, List.mem_singleton] at h
      rw [h]
      exact hwf.f1Lt ie hielt g2 (by rw [hmem2]; simp)
    | none =>
      rw [hmem2] at h
      simp at h

theorem reach_lt (md : Model) (cross : Nat → Bool) (hwf : WFModel md)
    {f g : Nat} (hf : f < md.faces.length) (h : Reach md cross f g) :
    g < md.faces.length := by
  induction h with
  | refl => exact hf
  | tail hxy hadj ih => exact adj_lt md cross hwf ih hadj

/-- Traversal steps are symmetric on a well-formed mesh: the edge crossed from
`f` to `g` is listed by both faces, and both faces are incident to it. -/
theorem adj_symm (md : Model) (cross : Nat → Bool) (hwf : WFModel md)
    {f g : Nat} (hf : f < md.faces.length) (h : Adj md cross f g) :
    Adj md cross g f := by
  obtain ⟨ie, hie, hcr, hmem⟩ := h
  have hielt := hwf.edgesLt f hf ie hie
  have hfmem : f ∈ (md.edges.getD ie defaultEdge).faceList := by
    rcases hwf.incident f hf ie hie with h0 | h1
    · rw [Edge.faceList, ← h0]
      exact List.mem_cons_self _ _
    · rw [Edge.faceList, h1]
      simp
  have hgedges : ie ∈ (md.faces.getD g defaultFace).edges := by
    rcases List.mem_cons.1 hmem with h | h
    · rw [h]
      exact hwf.f0Mem ie hielt
    · match hmem2 : (md.edges.getD ie defaultEdge).f1 with
      | some g2 =>
        rw [hmem2] at h
        simp only [Option.toList_some, List.mem_singleton] at h
        rw [h]
        exact hwf.f1Mem ie hielt g2 (by rw [hmem2]; simp)
      | none =>
        rw [hmem2] at h
        simp at h
  exact ⟨ie, hgedges, hcr, hfmem⟩

theorem reach_symm (md : Model) (cross : Nat → Bool) (hwf : WFModel md)
    {f g : Nat} (hf : f < md.faces.length) (h : Reach md cross f g) :
    Reach md cross g f := by
  induction h with
  | refl => exact Relation.ReflTransGen.refl
  | tail hxy hadj ih =>
    have hx := reach_lt md cross hwf hf hxy
    exact Relation.ReflTransGen.trans
      (Relation.ReflTransGen.single (adj_symm md cross hwf hx hadj)) ih

theorem Reach.trans' (md : Model) (cross : Nat → Bool)
    {f g h : Nat} (h1 : Reach md cross f g) (h2 : Reach md cross g h) :
    Reach md cross f h :=
  Relation.ReflTransGen.trans h1 h2

/-- Reachability is monotone in the crossing predicate. -/
theorem Reach.mono (md : Model) (cross cross' : Nat → Bool)
    (hmono : ∀ ie, cross ie = true → cross' ie = true)
    {f g : Nat} (h : Reach md cross f g) : Reach md cross' f g := by
  induction h with
  | refl => exact Relation.ReflTransGen.refl
  | tail hxy hadj ih =>
    obtain ⟨ie, hie, hcr, hmem⟩ := hadj
    exact Relation.ReflTransGen.tail ih ⟨ie, hie, hmono ie hcr, hmem⟩

end Craft
namespace Craft

/-- Toggling one two-faced edge `e` (between faces `a` and `b`) from
non-crossable to crossable extends reachability in exactly one way: a path in
the larger graph either avoids `e`, or splits at `e` into an old-graph path to
one endpoint and an old-graph path onward from the other endpoint.
Instantiated in both directions: cutting a `Joined` edge (old graph = larger)
and joining a `Cut` edge (new graph = larger). -/
theorem reach_toggle_edge (md : Model) (cross cross' : Nat → Bool)
    (e a b : Nat) (hee : e < md.edges.length)
    (hwf : WFModel md)
    (ha : (md.edges.getD e defaultEdge).f0 = a)
    (hb : (md.edges.getD e defaultEdge).f1 = some b)
    (hcre : cross e = false) (hcre' : cross' e = true)
    (hsame : ∀ ie, ie ≠ e → cross' ie = cross ie)
    (x y : Nat) (hx : x < md.faces.length) :
    Reach md cross' x y ↔
      Reach md cross x y ∨
      (Reach md cross x a ∧ Reach md cross b y) ∨
      (Reach md cross x b ∧ Reach md cross a y) := by
  have hmono : ∀ ie, cross ie = true → cross' ie = true := by
    intro ie hie
    by_cases hiee : ie = e
    · rw [hiee, hcre] at hie
      exact absurd hie (by simp)
    · rw [hsame ie hiee]
      exact hie
  have hfacelist : (md.edges.getD e defaultEdge).faceList = [a, b] := by
    rw [Edge.faceList, ha, hb]
    rfl
  have hamem : e ∈ (md.faces.getD a defaultFace).edges := by
    have := hwf.f0Mem e hee
    rw [ha] at this
    exact this
  have hbmem : e ∈ (md.faces.getD b defaultFace).edges := by
    exact hwf.f1Mem e hee b (by rw [hb]; simp)
  constructor
  · intro h
    induction h with
    | refl => exact Or.inl Relation.ReflTransGen.refl
    | @tail m y hxm hadj ih =>
      obtain ⟨ie, hie, hcr, hmem⟩ := hadj
      by_cases hiee : ie = e
      · subst hiee
        -- the crossing face m is one of the two endpoints of e
        have hm : m < md.faces.length := reach_lt md cross' hwf hx hxm
        have hmab : m = a ∨ m = b := by
          rcases hwf.incident m hm ie hie with h0 | h1
          · rw [ha] at h0
            exact Or.inl h0.symm
          · rw [hb] at h1
            injection h1 with h1
            exact Or.inr h1.symm
        rw [hfacelist] at hmem
        rcases List.mem_cons.1 hmem with rfl | hmem
        · -- the step lands on a
          rcases ih with hr | ⟨hr1, _⟩ | ⟨hr1, _⟩
          · rcases hmab with rfl | rfl
            · exact Or.inl hr
            · exact Or.inr (Or.inr ⟨hr, Relation.ReflTransGen.refl⟩)
          · exact Or.inl hr1
          · exact Or.inr (Or.inr ⟨hr1, Relation.ReflTransGen.refl⟩)
        · simp only [List.mem_singleton] at hmem
          subst hmem
          -- the step lands on b
          rcases ih with hr | ⟨hr1, _⟩ | ⟨hr1, _⟩
          · rcases hmab with rfl | rfl
            · exact Or.inr (Or.inl ⟨hr, Relation.ReflTransGen.refl⟩)
            · exact Or.inl hr
          · exact Or.inr (Or.inl ⟨hr1, Relation.ReflTransGen.refl⟩)
          · exact Or.inl hr1
      · have hstep : Adj md cross m y :=
          ⟨ie, hie, by rw [← hsame ie hiee]; exact hcr, hmem⟩
        rcases ih with hr | ⟨hr1, hr2⟩ | ⟨hr1, hr2⟩
        · exact Or.inl (Relation.ReflTransGen.tail hr hstep)
        · exact Or.inr (Or.inl ⟨hr1, Relation.ReflTransGen.tail hr2 hstep⟩)
        · exact Or.inr (Or.inr ⟨hr1, Relation.ReflTransGen.tail hr2 hstep⟩)
  · intro h
    have hab : Adj md cross' a b := ⟨e, hamem, hcre', by rw [hfacelist]; simp⟩
    have hba : Adj md cross' b a := ⟨e, hbmem, hcre', by rw [hfacelist]; simp⟩
    rcases h with hr | ⟨hr1, hr2⟩ | ⟨hr1, hr2⟩
    · exact Reach.mono md cross cross' hmono hr
    · exact Relation.ReflTransGen.trans
        (Relation.ReflTransGen.tail (Reach.mono md cross cross' hmono hr1) hab)
        (Reach.mono md cross cross' hmono hr2)
    · exact Relation.ReflTransGen.trans
        (Relation.ReflTransGen.tail (Reach.mono md cross cross' hmono hr1) hba)
        (Reach.mono md cross cross' hmono hr2)

end Craft

/-! ## The Papercraft document model (src/paper/craft.rs)

The document state: the mesh, the options, the per-edge status array and the
islands.  2D locations are exact pairs of rationals; rotation angles and 2×3
matrices are abstract types `R` and `M` bundled with the floating-point
operations on them in `Geom` (every theorem holds for every instantiation).
The memoization caches of craft.rs (`flat_face_tab_limit`,
`face_to_face_edge_matrix_unscaled`) are pure functions of the immutable mesh
consulted opportunistically; they are semantically the identity and are
omitted.  The slot-map of islands is embedded as an association list with a
fresh-key counter: insertion appends with a fresh key, removal deletes the
key.  (A real slot-map may reuse freed slots; no claim depends on the identity
of keys, and the undo code deliberately avoids relying on them.) -/

namespace Craft

/-- 2D vectors, exact. -/
abbrev Vec2 : Type := ℚ × ℚ

/-- craft.rs `PaperOptions`, numeric fields exact. -/
structure PaperOptions where
  scale : ℚ
  page_size : ℚ × ℚ
  resolution : Nat
  pages : Nat
  page_cols : Nat
  margin : ℚ × ℚ × ℚ × ℚ
  texture : Bool
  tex_filter : Bool
  tab_style : TabStyle
  fold_style : FoldStyle
  tab_width : ℚ
  tab_angle : ℚ
  fold_line_len : ℚ
  shadow_tab_alpha : ℚ
  fold_line_width : ℚ
  hidden_line_angle : ℚ
  show_self_promotion : Bool
  show_page_number : Bool
deriving DecidableEq, Repr

/-- craft.rs `impl Default for PaperOptions`. -/
def defaultOptions : PaperOptions where
  scale := 1
  page_size := (210, 297)
  resolution := 300
  pages := 1
  page_cols := 2
  margin := (10, 10, 10, 10)
  texture := true
  tex_filter := true
  tab_style := .Textured
  fold_style := .Full
  tab_width := 5
  tab_angle := 45
  fold_line_len := 4
  shadow_tab_alpha := 0
  fold_line_width := 1/10
  hidden_line_angle := 0
  show_self_promotion := true
  show_page_number := true

/-- craft.rs `PAGE_SEP` (fixed 10 mm inter-page separation). -/
def PAGE_SEP : ℚ := 10

/-- `f32 as i32`: truncation toward zero (exact for the in-range values the
claims exercise). -/
def qtrunc (q : ℚ) : ℤ := q.num / q.den

/-- craft.rs `PageOffset`. -/
structure PageOffset where
  page : Nat
  offset : Vec2
deriving DecidableEq, Repr

/-- craft.rs `PaperOptions::page_position`.  (`page / page_cols` is machine
integer division; a zero `page_cols` would panic in Rust, while `Nat`
division yields 0 — the claims only use validated options with
`page_cols ≥ 1`.) -/
def pagePosition (o : PaperOptions) (page : Nat) : Vec2 :=
  let row := page / o.page_cols
  let col := page % o.page_cols
  ((col : ℚ) * (o.page_size.1 + PAGE_SEP), (row : ℚ) * (o.page_size.2 + PAGE_SEP))

/-- craft.rs `PaperOptions::global_to_page`: column clamped to
`[0, page_cols]`, row clamped to `≥ 0`. -/
def globalToPage (o : PaperOptions) (pos : Vec2) : PageOffset :=
  let col := ((qtrunc (pos.1 / (o.page_size.1 + PAGE_SEP))).toNat).min o.page_cols
  let row := (qtrunc (pos.2 / (o.page_size.2 + PAGE_SEP))).toNat
  let page := row * o.page_cols + col
  let zero := pagePosition o page
  { page := page, offset := (pos.1 - zero.1, pos.2 - zero.2) }

/-- craft.rs `PaperOptions::page_to_global`. -/
def pageToGlobal (o : PaperOptions) (po : PageOffset) : Vec2 :=
  let zero := pagePosition o po.page
  (zero.1 + po.offset.1, zero.2 + po.offset.2)

/-- An island: anchor (root) face, rotation and location (craft.rs `Island`).
The cached composed matrix is recomputed from `rot`/`loc` after every
mutation and is derived data, so it is not stored. -/
structure Island (R : Type) where
  root : Nat
  rot : R
  loc : Vec2
deriving DecidableEq, Repr

/-- craft.rs `JoinResult`. -/
structure JoinResult (R : Type) where
  iEdge : Nat
  iIsland : Nat
  prevRoot : Nat
  prevRot : R
  prevLoc : Vec2
deriving DecidableEq, Repr

/-- The abstract floating-point geometry: rotation angles `R`, 2×3 matrices
`M`, and the transcendental functions of craft.rs on them.  Everything proved
below holds for every instantiation of this structure. -/
structure Geom (R M : Type) where
  /-- `Matrix3::one()`. -/
  mOne : M
  /-- matrix multiplication. -/
  mMul : M → M → M
  /-- `face_to_face_edge_matrix_unscaled(edge, face_a, face_b)`: a pure
  function of the immutable mesh (its memoization is transparent). -/
  edgeMxU : Nat → Nat → Nat → M
  /-- multiply only the translation column by the document scale
  (`face_to_face_edge_matrix`). -/
  scaleMxTranslation : ℚ → M → M
  /-- `Vector2::new(mx[2][0], mx[2][1])`. -/
  mxLoc : M → Vec2
  /-- `Rad(mx[0][1].atan2(mx[0][0]))`. -/
  mxRot : M → R
  /-- `translation(loc) * rotation(rot)` (`Island::recompute_matrix`). -/
  islandMx : R → Vec2 → M
  /-- the cut-offset vector `v`: both edge endpoints projected through the new
  root's plane and the placement matrix, normalized to the offset length
  (`edge_cut`, offset branch); arguments: placement matrix, edge, scale,
  offset. -/
  cutVec : M → Nat → ℚ → ℚ → Vec2
  /-- angle addition. -/
  radd : R → R → R
  /-- `Rad::normalize`. -/
  rnormalize : R → R
  /-- `center + Matrix2::from_angle(angle) * (loc - center)`
  (`Island::rotate`); arguments: angle, loc, center. -/
  rotatePoint : R → Vec2 → Vec2 → Vec2
  /-- `island_best_bounding_box`: the 60-angle scan minimizing the inflated
  box height; a pure function of the mesh, statuses, options and island. -/
  bestBBox : Model → List EdgeStatus → PaperOptions → Island R → R × (Vec2 × Vec2)

/-- craft.rs `Papercraft`: one mesh, options, the parallel status array, and
the islands slot-map (association list plus fresh-key counter here). -/
structure Papercraft (R : Type) where
  model : Model
  options : PaperOptions
  edges : List EdgeStatus
  islands : List (Nat × Island R)
  nextKey : Nat
deriving DecidableEq, Repr

/-- craft.rs `Island::translate` (matrix recomputation is implicit). -/
def Island.translate {R : Type} (i : Island R) (d : Vec2) : Island R :=
  { i with loc := (i.loc.1 + d.1, i.loc.2 + d.2) }

/-- craft.rs `Island::reset_transformation`. -/
def Island.resetTransformation {R : Type} (i : Island R)
    (root : Nat) (rot : R) (loc : Vec2) : Island R :=
  { i with root := root, rot := rot, loc := loc }

/-- craft.rs `Island::rotate`: normalize the summed angle, rotate the location
about the pivot. -/
def Island.rotate {R M : Type} (G : Geom R M) (i : Island R)
    (angle : R) (center : Vec2) : Island R :=
  { i with
      rot := G.rnormalize (G.radd i.rot angle),
      loc := G.rotatePoint angle i.loc center }

/-- craft.rs `Papercraft::contains_face`: walk the island with the no-matrix
policy looking for the face.  (The source breaks out of the traversal at the
first hit; the visited set is the same.) -/
def containsFace {R : Type} (md : Model) (sts : List EdgeStatus)
    (island : Island R) (f : Nat) : Bool :=
  f ∈ traverseFaces md (crossNormal sts) island.root

/-- craft.rs `Papercraft::island_face_count`: count the faces visited by the
no-matrix traversal. -/
def islandFaceCount {R : Type} (md : Model) (sts : List EdgeStatus)
    (island : Island R) : Nat :=
  (traverseFaces md (crossNormal sts) island.root).length

/-- craft.rs `Papercraft::get_flat_faces`: the faces visited by the Flat
policy traversal from the given face (the source collects them in a set; the
returned list is duplicate-free). -/
def getFlatFaces (md : Model) (sts : List EdgeStatus) (f : Nat) : List Nat :=
  traverseFaces md (crossFlat sts) f

/-- craft.rs `Papercraft::island_by_face`: the first island (in slot order)
containing the face; `none` models the `panic!("Island not found")`. -/
def islandByFace {R : Type} (pc : Papercraft R) (f : Nat) :
    Option (Nat × Island R) :=
  pc.islands.find? (fun ki => containsFace pc.model pc.edges ki.2 f)

/-- craft.rs `Papercraft::island_by_root`. -/
def islandByRoot {R : Type} (pc : Papercraft R) (f : Nat) :
    Option (Nat × Island R) :=
  pc.islands.find? (fun ki => ki.2.root = f)

/-- Replace the island stored under a key (slot-map indexed assignment). -/
def setIsland {R : Type} (islands : List (Nat × Island R)) (k : Nat)
    (isl : Island R) : List (Nat × Island R) :=
  islands.map (fun ki => if ki.1 = k then (k, isl) else ki)

/-- slot-map `remove`. -/
def removeIsland {R : Type} (islands : List (Nat × Island R)) (k : Nat) :
    List (Nat × Island R) :=
  islands.filter (fun ki => ki.1 ≠ k)

/-- craft.rs `Papercraft::compare_islands`: `true` means island `a` loses (is
the one removed or repositioned).  With a priority face, an island containing
it wins outright; otherwise the island with fewer faces loses, with the
numerically larger root losing ties. -/
def compareIslands {R : Type} (pc : Papercraft R) (a b : Island R)
    (priorityFace : Option Nat) : Bool :=
  let byWeight : Bool :=
    let weightA := islandFaceCount pc.model pc.edges a
    let weightB := islandFaceCount pc.model pc.edges b
    if weightB > weightA then true
    else if weightB < weightA then false
    else decide (a.root > b.root)
  match priorityFace with
  | some f =>
      if containsFace pc.model pc.edges a f then false
      else if containsFace pc.model pc.edges b f then true
      else byWeight
  | none => byWeight

end Craft

namespace Craft

/-- craft.rs `Papercraft::edge_toggle_tab`: a no-op on rim edges (no second
face) and on edges not currently `Cut`; otherwise flip the tab-side boolean. -/
def edgeToggleTab {R : Type} (pc : Papercraft R) (ie : Nat) : Papercraft R :=
  match (pc.model.edges.getD ie defaultEdge).f1 with
  | none => pc
  | some _ =>
    match edgeStatus pc.edges ie with
    | .Cut x => { pc with edges := pc.edges.set ie (.Cut (!x)) }
    | _ => pc

/-- The `data_found` scan of craft.rs `edge_cut`: fold over the island's
visit-order list; on visiting face `a` record `(state, b, a)`, on visiting
face `b` record `(state, a, b)` (the later visit wins, as in the source). -/
def findCutData {S : Type} (res : List (Nat × S)) (fa fb : Nat) :
    Option (S × Nat × Nat) :=
  res.foldl
    (fun acc p =>
      if p.1 = fa then some (p.2, fb, fa)
      else if p.1 = fb then some (p.2, fa, fb)
      else acc)
    none

/-- craft.rs `Papercraft::edge_cut`: a no-op unless the edge is `Joined` with
two incident faces.  Mark the edge `Cut(false)`; walk the island containing
face `a` (with the matrix-accumulating Normal policy, on the already-mutated
statuses) to find which of the two faces is still reached and take the *other*
one as the new island's root; place the new island by composing the reached
face's accumulated matrix with the face-to-face edge matrix; if an offset is
supplied, nudge the loser of the island comparison perpendicular to the cut
edge; insert the new island.  `none` models the panics (`island_by_face`,
`data_found.unwrap()`), impossible under the state invariant. -/
def edgeCut {R M : Type} (G : Geom R M) (pc : Papercraft R) (ie : Nat)
    (offset : Option ℚ) : Option (Papercraft R) :=
  match edgeStatus pc.edges ie with
  | .Joined =>
    let edge := pc.model.edges.getD ie defaultEdge
    match edge.f1 with
    | some fb =>
      let fa := edge.f0
      match islandByFace pc fa with
      | none => none
      | some (iIsland, island) =>
        let edges' := pc.edges.set ie (.Cut false)
        let pcCut := { pc with edges := edges' }
        let res := traverseFacesEx pc.model
          ⟨crossNormal edges',
            fun st ie2 f nf =>
              G.mMul st (G.scaleMxTranslation pc.options.scale (G.edgeMxU ie2 f nf))⟩
          island.root (G.islandMx island.rot island.loc)
        match findCutData res fa fb with
        | none => none
        | some (faceMx, newRoot, iFaceOld) =>
          let medge := G.scaleMxTranslation pc.options.scale (G.edgeMxU ie iFaceOld newRoot)
          let mx := G.mMul faceMx medge
          let newIsland : Island R :=
            { root := newRoot, loc := G.mxLoc mx, rot := G.mxRot mx }
          match offset with
          | some offsetOnCut =>
            let sign : ℚ := if edge.f0 = newRoot then -1 else 1
            let v := G.cutVec mx ie pc.options.scale offsetOnCut
            let w : Vec2 := (sign * (-v.2), sign * v.1)
            if compareIslands pcCut island newIsland none then
              some { pcCut with
                islands := (setIsland pcCut.islands iIsland
                  (island.translate (-w.1, -w.2))) ++ [(pc.nextKey, newIsland)],
                nextKey := pc.nextKey + 1 }
            else
              some { pcCut with
                islands := pcCut.islands ++ [(pc.nextKey, newIsland.translate w)],
                nextKey := pc.nextKey + 1 }
          | none =>
            some { pcCut with
              islands := pcCut.islands ++ [(pc.nextKey, newIsland)],
              nextKey := pc.nextKey + 1 }
    | none => some pc
  | _ => some pc

/-- craft.rs `Papercraft::edge_join`: a no-op (empty renames) unless the edge
is `Cut` with two incident faces in *different* islands.  Remove the island of
face `b`; look up the island of face `a`; the island comparison decides which
of the two keeps its placement (the surviving slot is overwritten with the
winner's values); record a `JoinResult` mapping the removed key to the
surviving one with the loser's root/rotation/location; mark the edge `Joined`.
`none` models the `island_by_face` panics. -/
def edgeJoin {R : Type} (pc : Papercraft R) (ie : Nat)
    (priorityFace : Option Nat) :
    Option (Papercraft R × List (Nat × JoinResult R)) :=
  match edgeStatus pc.edges ie with
  | .Cut _ =>
    let edge := pc.model.edges.getD ie defaultEdge
    match edge.f1 with
    | some fb =>
      let fa := edge.f0
      match islandByFace pc fb with
      | none => none
      | some (iIslandB, islandB0) =>
        if containsFace pc.model pc.edges islandB0 fa then
          some (pc, [])
        else
          let islands1 := removeIsland pc.islands iIslandB
          let pc1 := { pc with islands := islands1 }
          match islandByFace pc1 fa with
          | none => none
          | some (iIslandA, islandA) =>
            let swap := compareIslands pc1 islandA islandB0 priorityFace
            let islands2 := if swap then setIsland islands1 iIslandA islandB0 else islands1
            let islandB := if swap then islandA else islandB0
            let jr : JoinResult R :=
              { iEdge := ie, iIsland := iIslandA, prevRoot := islandB.root,
                prevRot := islandB.rot, prevLoc := islandB.loc }
            some ({ pc with islands := islands2, edges := pc.edges.set ie .Joined },
                  [(iIslandB, jr)])
    | none => some (pc, [])
  | _ => some (pc, [])

/-- craft.rs `Papercraft::set_options`: re-express every island location as an
offset from its nearest page corner under the old options, swap in the new
options, scale the offset by the scale ratio and map it back under the new
page geometry.  Returns the previous options. -/
def setOptionsMapIsland {R : Type} (oldO newO : PaperOptions)
    (ki : Nat × Island R) : Nat × Island R :=
  let scale := newO.scale / oldO.scale
  let po := globalToPage oldO ki.2.loc
  let loc := pageToGlobal newO
    { po with offset := (po.offset.1 * scale, po.offset.2 * scale) }
  (ki.1, { ki.2 with loc := loc })

def setOptionsPc {R : Type} (pc : Papercraft R) (o : PaperOptions) :
    Papercraft R × PaperOptions :=
  ({ pc with options := o, islands := (pc.islands.map (setOptionsMapIsland pc.options o)) }, pc.options)

end Craft

namespace Craft

theorem edgeStatus_set_ne (sts : List EdgeStatus) (ie ie2 : Nat) (s : EdgeStatus)
    (h : ie ≠ ie2) : edgeStatus (sts.set ie s) ie2 = edgeStatus sts ie2 := by
  simp [edgeStatus, List.getD_eq_getElem?_getD, List.getElem?_set_ne h]

theorem edgeStatus_set_self (sts : List EdgeStatus) (ie : Nat) (s : EdgeStatus)
    (h : ie < sts.length) : edgeStatus (sts.set ie s) ie = s := by
  simp [edgeStatus, List.getD_eq_getElem?_getD, List.getElem?_set_self, h]

end Craft

/-- C10: `edge_toggle_tab` leaves the whole document (in particular the entire
per-edge status array) unchanged when the edge is a rim edge (no second
incident face) or its current status is not `Cut`; on a two-faced `Cut(b)`
edge it flips exactly that edge's tab side to `Cut(!b)` and leaves the status
of every other edge unchanged. -/
theorem c10_edge_toggle_tab_frame {R : Type} (pc : Craft.Papercraft R) (ie : Nat) :
    ((pc.model.edges.getD ie Craft.defaultEdge).f1 = none →
      Craft.edgeToggleTab pc ie = pc) ∧
    ((∀ b, Craft.edgeStatus pc.edges ie ≠ .Cut b) →
      Craft.edgeToggleTab pc ie = pc) ∧
    (∀ fb b, (pc.model.edges.getD ie Craft.defaultEdge).f1 = some fb →
      Craft.edgeStatus pc.edges ie = .Cut b → ie < pc.edges.length →
      Craft.edgeStatus (Craft.edgeToggleTab pc ie).edges ie = .Cut (!b) ∧
      (∀ ie2, ie2 ≠ ie →
        Craft.edgeStatus (Craft.edgeToggleTab pc ie).edges ie2 =
          Craft.edgeStatus pc.edges ie2)) := by
  refine ⟨?_, ?_, ?_⟩
  · intro h
    rw [Craft.edgeToggleTab, h]
  · intro h
    rw [Craft.edgeToggleTab]
    match hf : (pc.model.edges.getD ie Craft.defaultEdge).f1 with
    | none => rfl
    | some fb =>
      match hs : Craft.edgeStatus pc.edges ie with
      | .Cut x => exact absurd hs (h x)
      | .Joined => rfl
      | .Hidden => rfl
  · intro fb b hf hs hlt
    have hres : (Craft.edgeToggleTab pc ie).edges = pc.edges.set ie (.Cut (!b)) := by
      rw [Craft.edgeToggleTab, hf, hs]
    rw [hres]
    exact ⟨Craft.edgeStatus_set_self pc.edges ie _ hlt,
      fun ie2 h2 => Craft.edgeStatus_set_ne pc.edges ie ie2 _ (fun he => h2 he.symm)⟩

/-- A trivial instantiation of the abstract geometry, used only to evaluate
witnesses and counterexamples (the discrete facts being checked hold for every
instantiation). -/
def unitGeom : Craft.Geom Unit Unit where
  mOne := ()
  mMul := fun _ _ => ()
  edgeMxU := fun _ _ _ => ()
  scaleMxTranslation := fun _ _ => ()
  mxLoc := fun _ => (0, 0)
  mxRot := fun _ => ()
  islandMx := fun _ _ => ()
  cutVec := fun _ _ _ _ => (0, 0)
  radd := fun _ _ => ()
  rnormalize := fun _ => ()
  rotatePoint := fun _ l _ => l
  bestBBox := fun _ _ _ _ => ((), ((0, 0), (0, 0)))

/-- A two-triangle mesh: faces 0 and 1 share edge 0; edges 1..4 are the rims
(two per face). -/
def twoFaceModel : Craft.Model where
  faces := [⟨[0, 1, 2]⟩, ⟨[0, 3, 4]⟩]
  edges := [⟨0, some 1⟩, ⟨0, none⟩, ⟨0, none⟩, ⟨1, none⟩, ⟨1, none⟩]

/-- C10 witness: the theorem applied to a concrete document (the shared edge
`Cut(false)` is flipped to `Cut(true)`; a rim edge is left alone). -/
theorem c10_edge_toggle_tab_frame_witness :
    Craft.edgeStatus (Craft.edgeToggleTab
      (R := Unit)
      { model := twoFaceModel,
        options := Craft.defaultOptions,
        edges := [.Cut false, .Cut false, .Cut false, .Cut false, .Cut false],
        islands := [(0, ⟨0, (), (0, 0)⟩), (1, ⟨1, (), (3, 0)⟩)],
        nextKey := 2 } 0).edges 0 = .Cut true ∧
    Craft.edgeToggleTab
      (R := Unit)
      { model := twoFaceModel,
        options := Craft.defaultOptions,
        edges := [.Cut false, .Cut false, .Cut false, .Cut false, .Cut false],
        islands := [(0, ⟨0, (), (0, 0)⟩), (1, ⟨1, (), (3, 0)⟩)],
        nextKey := 2 } 1 =
      { model := twoFaceModel,
        options := Craft.defaultOptions,
        edges := [.Cut false, .Cut false, .Cut false, .Cut false, .Cut false],
        islands := [(0, ⟨0, (), (0, 0)⟩), (1, ⟨1, (), (3, 0)⟩)],
        nextKey := 2 } := by
  constructor
  · have h := (c10_edge_toggle_tab_frame
      (R := Unit)
      { model := twoFaceModel,
        options := Craft.defaultOptions,
        edges := [.Cut false, .Cut false, .Cut false, .Cut false, .Cut false],
        islands := [(0, ⟨0, (), (0, 0)⟩), (1, ⟨1, (), (3, 0)⟩)],
        nextKey := 2 } 0).2.2 1 false (by decide) (by decide) (by decide)
    simpa using h.1
  · exact (c10_edge_toggle_tab_frame _ 1).1 (by decide)

namespace Craft

/-- The crossing rule the *specification's words* ascribe to the Flat policy
(crosses `Joined` or `Cut` edges but never `Hidden`).  Used only to compare
against the code's rule `crossFlat`, which is its opposite. -/
def crossFlatSpec (sts : List EdgeStatus) (ie : Nat) : Bool :=
  match edgeStatus sts ie with
  | .Joined => true
  | .Cut _ => true
  | .Hidden => false

end Craft

/-- C1 counterexample: two faces sharing a `Joined` edge.  Under the claim's
crossing rule (Joined or Cut edges crossable) face 1 is reachable from face 0,
but the code's `get_flat_faces(0)` does not contain face 1 — the source's
`FlatTraverseFace::cross_edge` crosses only `Hidden` edges. -/
theorem c1_flat_policy_counterexample :
    Craft.edgeStatus [.Joined, .Cut false, .Cut false, .Cut false, .Cut false] 0 =
      .Joined ∧
    Craft.Reach twoFaceModel
      (Craft.crossFlatSpec [.Joined, .Cut false, .Cut false, .Cut false, .Cut false])
      0 1 ∧
    1 ∉ Craft.getFlatFaces twoFaceModel
      [.Joined, .Cut false, .Cut false, .Cut false, .Cut false] 0 := by
  refine ⟨rfl, Relation.ReflTransGen.single ⟨0, by decide, rfl, by decide⟩, by decide⟩

/-- C1 amended: the Flat traversal policy used by `get_flat_faces` may cross
an edge exactly when that edge's status is `Hidden`, and never crosses a
`Joined` or `Cut` edge; for every face `f` of a well-formed mesh,
`get_flat_faces(f)` is the set of faces reachable from `f` crossing only
`Hidden` edges. -/
theorem c1_flat_traversal_hidden_only (md : Craft.Model)
    (sts : List Craft.EdgeStatus) (hwf : Craft.WFModel md)
    (f : Nat) (hf : f < md.faces.length) :
    (∀ ie, Craft.crossFlat sts ie = true ↔ Craft.edgeStatus sts ie = .Hidden) ∧
    (∀ g, g ∈ Craft.getFlatFaces md sts f ↔
      Craft.Reach md (Craft.crossFlat sts) f g) := by
  constructor
  · intro ie
    rw [Craft.crossFlat]
    match Craft.edgeStatus sts ie with
    | .Hidden => simp
    | .Joined => simp
    | .Cut b => simp
  · exact Craft.mem_traverseFaces md (Craft.crossFlat sts) f hwf hf

/-- C1 witness: the amended theorem applied to the two-face mesh with the
shared edge `Hidden` — face 1 belongs to `get_flat_faces(0)`, matching
single-step reachability across the hidden edge. -/
theorem c1_flat_traversal_hidden_only_witness :
    1 ∈ Craft.getFlatFaces twoFaceModel
      [.Hidden, .Cut false, .Cut false, .Cut false, .Cut false] 0 ∧
    Craft.crossFlat [.Hidden, .Cut false, .Cut false, .Cut false, .Cut false] 0 = true := by
  have h := c1_flat_traversal_hidden_only twoFaceModel
    [.Hidden, .Cut false, .Cut false, .Cut false, .Cut false]
    ⟨by decide, by decide, by decide, by decide, by decide, by decide⟩
    0 (by decide)
  refine ⟨(h.2 1).2 (Relation.ReflTransGen.single ⟨0, by decide, ?_, by decide⟩), rfl⟩
  rfl

/-- C5: the island-comparison rule (`compare_islands`, the single decision
procedure used by `edge_join` and the `edge_cut` offset nudge; `true` means
island `a` is the one removed/repositioned, `false` that `a` is kept).  If a
priority face is supplied and exactly one of the two islands contains it, that
island is kept; otherwise (no priority face, or a priority face contained in
neither island — the islands compared by the callers are always disjoint) the
island with fewer faces loses, and on equal counts the island with the
numerically smaller root face is kept. -/
theorem c5_island_comparison {R : Type} (pc : Craft.Papercraft R)
    (a b : Craft.Island R) (f : Nat) :
    (Craft.containsFace pc.model pc.edges a f = true →
      Craft.containsFace pc.model pc.edges b f = false →
      Craft.compareIslands pc a b (some f) = false) ∧
    (Craft.containsFace pc.model pc.edges a f = false →
      Craft.containsFace pc.model pc.edges b f = true →
      Craft.compareIslands pc a b (some f) = true) ∧
    (∀ pf : Option Nat,
      (pf = none ∨
        (pf = some f ∧ Craft.containsFace pc.model pc.edges a f = false ∧
          Craft.containsFace pc.model pc.edges b f = false)) →
      (Craft.compareIslands pc a b pf = true ↔
        Craft.islandFaceCount pc.model pc.edges a <
          Craft.islandFaceCount pc.model pc.edges b ∨
        (Craft.islandFaceCount pc.model pc.edges a =
            Craft.islandFaceCount pc.model pc.edges b ∧
          b.root < a.root))) := by
  have hweight :
      (if Craft.islandFaceCount pc.model pc.edges b >
            Craft.islandFaceCount pc.model pc.edges a then true
        else if Craft.islandFaceCount pc.model pc.edges b <
            Craft.islandFaceCount pc.model pc.edges a then false
        else decide (a.root > b.root)) = true ↔
      Craft.islandFaceCount pc.model pc.edges a <
        Craft.islandFaceCount pc.model pc.edges b ∨
      (Craft.islandFaceCount pc.model pc.edges a =
          Craft.islandFaceCount pc.model pc.edges b ∧
        b.root < a.root) := by
    by_cases h1 : Craft.islandFaceCount pc.model pc.edges a <
        Craft.islandFaceCount pc.model pc.edges b
    · simp only [gt_iff_lt, if_pos h1]
      simp [h1]
    · by_cases h2 : Craft.islandFaceCount pc.model pc.edges b <
          Craft.islandFaceCount pc.model pc.edges a
      · simp only [gt_iff_lt, if_neg h1, if_pos h2]
        simp only [Bool.false_eq_true, false_iff]
        omega
      · simp only [gt_iff_lt, if_neg h1, if_neg h2]
        simp only [decide_eq_true_eq, gt_iff_lt]
        omega
  refine ⟨?_, ?_, ?_⟩
  · intro ha hb
    rw [Craft.compareIslands]
    simp [ha]
  · intro ha hb
    rw [Craft.compareIslands]
    simp [ha, hb]
  · rintro pf (rfl | ⟨rfl, ha, hb⟩)
    · rw [Craft.compareIslands]
      exact hweight
    · rw [Craft.compareIslands]
      simp only [ha, hb, Bool.false_eq_true, if_false]
      exact hweight

/-- C5 witness: two single-face islands of the two-face mesh (all edges cut);
face counts tie and the smaller root (island `a`, root 0) is kept; with
priority face 0 (contained only in `a`) `a` is kept as well. -/
theorem c5_island_comparison_witness :
    Craft.compareIslands
      (R := Unit)
      { model := twoFaceModel,
        options := Craft.defaultOptions,
        edges := [.Cut false, .Cut false, .Cut false, .Cut false, .Cut false],
        islands := [(0, ⟨0, (), (0, 0)⟩), (1, ⟨1, (), (3, 0)⟩)],
        nextKey := 2 } ⟨0, (), (0, 0)⟩ ⟨1, (), (3, 0)⟩ none = false ∧
    Craft.compareIslands
      (R := Unit)
      { model := twoFaceModel,
        options := Craft.defaultOptions,
        edges := [.Cut false, .Cut false, .Cut false, .Cut false, .Cut false],
        islands := [(0, ⟨0, (), (0, 0)⟩), (1, ⟨1, (), (3, 0)⟩)],
        nextKey := 2 } ⟨0, (), (0, 0)⟩ ⟨1, (), (3, 0)⟩ (some 0) = false := by
  constructor
  · have h := (c5_island_comparison
      (R := Unit)
      { model := twoFaceModel,
        options := Craft.defaultOptions,
        edges := [.Cut false, .Cut false, .Cut false, .Cut false, .Cut false],
        islands := [(0, ⟨0, (), (0, 0)⟩), (1, ⟨1, (), (3, 0)⟩)],
        nextKey := 2 } ⟨0, (), (0, 0)⟩ ⟨1, (), (3, 0)⟩ 0).2.2 none (Or.inl rfl)
    rw [← Bool.not_eq_true]
    intro hcontra
    have := h.1 hcontra
    revert this
    decide
  · exact (c5_island_comparison _ _ _ 0).1 (by decide) (by decide)

/-! ### The document state invariant and its preservation -/

namespace Craft

/-- The inductive state invariant of a Papercraft document: a well-formed
mesh, a status array parallel to the edge array, duplicate-free island keys
below the fresh-key counter, in-range island roots, every face covered by
exactly one island (the central partition invariant), and every `Joined`
edge a *bridge* (cutting it disconnects its two faces) — which is exactly
what `edge_join` guarantees by refusing to join two faces already in one
island. -/
structure Inv {R : Type} (pc : Papercraft R) : Prop where
  wf : WFModel pc.model
  lenEq : pc.edges.length = pc.model.edges.length
  keysNodup : (pc.islands.map Prod.fst).Nodup
  keysLt : ∀ k ∈ pc.islands.map Prod.fst, k < pc.nextKey
  rootsLt : ∀ ki ∈ pc.islands, ki.2.root < pc.model.faces.length
  cover : ∀ f, f < pc.model.faces.length →
    (pc.islands.filter (fun ki => containsFace pc.model pc.edges ki.2 f)).length = 1
  bridge : ∀ ie, ie < pc.edges.length → edgeStatus pc.edges ie = .Joined →
    ∀ fb ∈ (pc.model.edges.getD ie defaultEdge).f1.toList,
      fb ∉ traverseFaces pc.model
        (crossNormal (pc.edges.set ie (.Cut false)))
        (pc.model.edges.getD ie defaultEdge).f0

theorem containsFace_iff {R : Type} (md : Model) (sts : List EdgeStatus)
    (isl : Island R) (f : Nat) (hwf : WFModel md)
    (hroot : isl.root < md.faces.length) :
    containsFace md sts isl f = true ↔ Reach md (crossNormal sts) isl.root f := by
  rw [containsFace, decide_eq_true_eq]
  exact mem_traverseFaces md (crossNormal sts) isl.root hwf hroot f

theorem containsFace_self {R : Type} (md : Model) (sts : List EdgeStatus)
    (isl : Island R) (hwf : WFModel md) (hroot : isl.root < md.faces.length) :
    containsFace md sts isl isl.root = true :=
  (containsFace_iff md sts isl isl.root hwf hroot).2 Relation.ReflTransGen.refl

theorem containsFace_translate {R : Type} (md : Model) (sts : List EdgeStatus)
    (isl : Island R) (d : Vec2) (f : Nat) :
    containsFace md sts (isl.translate d) f = containsFace md sts isl f := rfl

theorem containsFace_reset {R : Type} (md : Model) (sts : List EdgeStatus)
    (isl : Island R) (root : Nat) (rot : R) (loc : Vec2) (f : Nat) :
    containsFace md sts (isl.resetTransformation root rot loc) f =
      containsFace md sts (⟨root, rot, loc⟩ : Island R) f := rfl

/-- On a duplicate-free list, the filter has length 1 exactly when one element
satisfies the predicate and every satisfying element equals it. -/
theorem filter_length_one_iff {α : Type} (l : List α) (hnd : l.Nodup)
    (p : α → Bool) :
    (l.filter p).length = 1 ↔
      ∃ a ∈ l, p a = true ∧ ∀ b ∈ l, p b = true → b = a := by
  constructor
  · intro h
    obtain ⟨a, ha⟩ := List.length_eq_one.1 h
    refine ⟨a, ?_, ?_, ?_⟩
    · have : a ∈ l.filter p := by rw [ha]; simp
      exact List.mem_of_mem_filter this
    · have : a ∈ l.filter p := by rw [ha]; simp
      exact List.of_mem_filter this
    · intro b hb hpb
      have : b ∈ l.filter p := List.mem_filter.2 ⟨hb, hpb⟩
      rw [ha] at this
      simpa using this
  · rintro ⟨a, ha, hpa, huniq⟩
    have hmem : a ∈ l.filter p := List.mem_filter.2 ⟨ha, hpa⟩
    have hall : ∀ b ∈ l.filter p, b = a := by
      intro b hb
      exact huniq b (List.mem_of_mem_filter hb) (List.of_mem_filter hb)
    have hndf : (l.filter p).Nodup := hnd.filter p
    match hf : l.filter p with
    | [] => rw [hf] at hmem; simp at hmem
    | [x] => rfl
    | x :: y :: rest =>
      rw [hf] at hall hndf
      have hx := hall x (by simp)
      have hy := hall y (by simp)
      rw [List.nodup_cons] at hndf
      exact absurd (by rw [hx, hy] : x = y) (fun hxy => hndf.1 (by rw [hxy]; simp))

/-- Setting a `Cut` edge to `Cut(false)` does not change the Normal crossing
predicate (only the tab side differs). -/
theorem crossNormal_set_cut (sts : List EdgeStatus) (ie : Nat) (b : Bool)
    (hs : edgeStatus sts ie = .Cut b) :
    ∀ ie2, crossNormal (sts.set ie (.Cut false)) ie2 = crossNormal sts ie2 := by
  intro ie2
  by_cases h : ie = ie2
  · subst h
    by_cases hlt : ie < sts.length
    · rw [crossNormal, edgeStatus_set_self sts ie _ hlt, crossNormal, hs]
    · have : sts.set ie (.Cut false) = sts := List.set_eq_of_length_le (by omega)
      rw [this]
  · rw [crossNormal, edgeStatus_set_ne sts ie ie2 _ h, crossNormal]

/-- `Reach` only depends on the pointwise value of the crossing predicate. -/
theorem reach_congr (md : Model) (cross cross' : Nat → Bool)
    (h : ∀ ie, cross ie = cross' ie) (x y : Nat) :
    Reach md cross x y ↔ Reach md cross' x y := by
  constructor <;> intro hr <;>
    exact Reach.mono md _ _ (fun ie hie => by rw [← h ie] at *; exact hie) hr

end Craft

namespace Craft

/-- Decomposition of Normal-policy reachability when a `Joined` two-faced edge
is cut: a path in the pre-cut graph either survives the cut or splits at the
cut edge. -/
theorem reach_cut_decompose (md : Model) (sts : List EdgeStatus)
    (e fa fb : Nat) (hwf : WFModel md)
    (helt : e < sts.length) (hlen : sts.length = md.edges.length)
    (hst : edgeStatus sts e = .Joined)
    (ha : (md.edges.getD e defaultEdge).f0 = fa)
    (hb : (md.edges.getD e defaultEdge).f1 = some fb)
    (x y : Nat) (hx : x < md.faces.length) :
    Reach md (crossNormal sts) x y ↔
      Reach md (crossNormal (sts.set e (.Cut false))) x y ∨
      (Reach md (crossNormal (sts.set e (.Cut false))) x fa ∧
        Reach md (crossNormal (sts.set e (.Cut false))) fb y) ∨
      (Reach md (crossNormal (sts.set e (.Cut false))) x fb ∧
        Reach md (crossNormal (sts.set e (.Cut false))) fa y) := by
  exact reach_toggle_edge md (crossNormal (sts.set e (.Cut false))) (crossNormal sts)
    e fa fb (by omega) hwf ha hb
    (by rw [crossNormal, edgeStatus_set_self sts e _ helt])
    (by rw [crossNormal, hst])
    (fun ie hie => by
      rw [crossNormal, crossNormal, edgeStatus_set_ne sts e ie _ (fun h => hie h.symm)])
    x y hx

end Craft

namespace Craft

/-- Decomposition of Normal-policy reachability when a `Cut` two-faced edge is
joined: a path in the post-join graph either avoids the new edge or splits at
it. -/
theorem reach_join_decompose (md : Model) (sts : List EdgeStatus)
    (e fa fb : Nat) (hwf : WFModel md) (b0 : Bool)
    (helt : e < sts.length) (hlen : sts.length = md.edges.length)
    (hst : edgeStatus sts e = .Cut b0)
    (ha : (md.edges.getD e defaultEdge).f0 = fa)
    (hb : (md.edges.getD e defaultEdge).f1 = some fb)
    (x y : Nat) (hx : x < md.faces.length) :
    Reach md (crossNormal (sts.set e .Joined)) x y ↔
      Reach md (crossNormal sts) x y ∨
      (Reach md (crossNormal sts) x fa ∧ Reach md (crossNormal sts) fb y) ∨
      (Reach md (crossNormal sts) x fb ∧ Reach md (crossNormal sts) fa y) := by
  exact reach_toggle_edge md (crossNormal sts) (crossNormal (sts.set e .Joined))
    e fa fb (by omega) hwf ha hb
    (by rw [crossNormal, hst])
    (by rw [crossNormal, edgeStatus_set_self sts e _ helt])
    (fun ie hie => by
      rw [crossNormal, crossNormal, edgeStatus_set_ne sts e ie _ (fun h => hie h.symm)])
    x y hx

/-- Two faces of the same class have the same class. -/
theorem reach_class_eq (md : Model) (cross : Nat → Bool) (hwf : WFModel md)
    {x y : Nat} (hx : x < md.faces.length) (hxy : Reach md cross x y) :
    ∀ z, Reach md cross x z ↔ Reach md cross y z := by
  intro z
  constructor
  · intro hxz
    exact Relation.ReflTransGen.trans (reach_symm md cross hwf hx hxy) hxz
  · intro hyz
    exact Relation.ReflTransGen.trans hxy hyz

/-- `setIsland` (slot assignment) membership, given the assigned key is
present and keys are duplicate-free. -/
theorem mem_setIsland {R : Type} (l : List (Nat × Island R)) (k : Nat)
    (isl isl0 : Island R) (hmem : (k, isl0) ∈ l)
    (ki : Nat × Island R) :
    ki ∈ setIsland l k isl ↔ (ki = (k, isl) ∨ (ki ∈ l ∧ ki.1 ≠ k)) := by
  rw [setIsland]
  constructor
  · intro h
    rcases List.mem_map.1 h with ⟨ki0, hki0, himg⟩
    by_cases hk : ki0.1 = k
    · rw [if_pos hk] at himg
      exact Or.inl himg.symm
    · rw [if_neg hk] at himg
      exact Or.inr ⟨himg ▸ hki0, himg ▸ hk⟩
  · rintro (rfl | ⟨hmem2, hne⟩)
    · exact List.mem_map.2 ⟨(k, isl0), hmem, by simp⟩
    · exact List.mem_map.2 ⟨ki, hmem2, by rw [if_neg hne]⟩

/-- `setIsland` leaves the key list unchanged. -/
theorem setIsland_keys {R : Type} (l : List (Nat × Island R)) (k : Nat)
    (isl : Island R) : (setIsland l k isl).map Prod.fst = l.map Prod.fst := by
  rw [setIsland, List.map_map]
  apply List.map_congr_left
  intro ki _
  by_cases hk : ki.1 = k
  · simp [hk]
  · simp [hk]

/-- `removeIsland` membership. -/
theorem mem_removeIsland {R : Type} (l : List (Nat × Island R)) (k : Nat)
    (ki : Nat × Island R) :
    ki ∈ removeIsland l k ↔ ki ∈ l ∧ ki.1 ≠ k := by
  rw [removeIsland, List.mem_filter]
  simp

/-- `removeIsland` keys are a sublist of the original keys. -/
theorem removeIsland_keys_sublist {R : Type} (l : List (Nat × Island R)) (k : Nat) :
    List.Sublist ((removeIsland l k).map Prod.fst) (l.map Prod.fst) :=
  List.Sublist.map Prod.fst (List.filter_sublist l)

end Craft

namespace Craft

/-- An index whose status differs from the `getD` default is in range. -/
theorem edgeStatus_lt (sts : List EdgeStatus) (ie : Nat)
    (h : edgeStatus sts ie ≠ .Cut false) : ie < sts.length := by
  by_contra hc
  rw [edgeStatus, List.getD_eq_default] at h
  · exact h rfl
  · omega

/-- When exactly one position of a list satisfies a predicate, any two
satisfying members are equal as values. -/
theorem countP_one_unique {α : Type} (l : List α) (p : α → Bool)
    (h : l.countP p = 1) {a b : α} (ha : a ∈ l) (hb : b ∈ l)
    (hpa : p a = true) (hpb : p b = true) : a = b := by
  by_contra hne
  have hfa : a ∈ l.filter p := List.mem_filter.2 ⟨ha, hpa⟩
  have hfb : b ∈ l.filter p := List.mem_filter.2 ⟨hb, hpb⟩
  rw [List.countP_eq_length_filter] at h
  obtain ⟨x, hx⟩ := List.length_eq_one.1 h
  rw [hx] at hfa hfb
  simp only [List.mem_singleton] at hfa hfb
  exact hne (hfa.trans hfb.symm)

/-- The island roots, in slot order; the face-cover count depends only on
these. -/
def rootsOf {R : Type} (islands : List (Nat × Island R)) : List Nat :=
  islands.map (fun ki => ki.2.root)

theorem cover_countP {R : Type} (md : Model) (sts : List EdgeStatus)
    (islands : List (Nat × Island R)) (f : Nat) :
    (islands.filter (fun ki => containsFace md sts ki.2 f)).length =
      (rootsOf islands).countP
        (fun r => decide (f ∈ traverseFaces md (crossNormal sts) r)) := by
  rw [← List.countP_eq_length_filter, rootsOf, List.countP_map]
  apply List.countP_congr
  intro ki _
  rfl

/-- With duplicate-free keys, the entries under one key are unique. -/
theorem key_entry_unique {R : Type} (l : List (Nat × Island R))
    (hnd : (l.map Prod.fst).Nodup) {k : Nat} {a b : Island R}
    (ha : (k, a) ∈ l) (hb : (k, b) ∈ l) : a = b := by
  induction l with
  | nil => simp at ha
  | cons ki rest ih =>
    simp only [List.map_cons, List.nodup_cons] at hnd
    rcases List.mem_cons.1 ha with rfl | ha2
    · rcases List.mem_cons.1 hb with hb2 | hb2
      · injection hb2 with h1 h2
        exact h2.symm
      · exact absurd (List.mem_map.2 ⟨(k, b), hb2, rfl⟩) hnd.1
    · rcases List.mem_cons.1 hb with rfl | hb2
      · exact absurd (List.mem_map.2 ⟨(k, a), ha2, rfl⟩) hnd.1
      · exact ih hnd.2 ha2 hb2

/-- `removeIsland` plus the removed entry is a permutation of the original
slot-map (duplicate-free keys). -/
theorem removeIsland_perm {R : Type} (l : List (Nat × Island R)) (k : Nat)
    (isl0 : Island R) (hnd : (l.map Prod.fst).Nodup) (hmem : (k, isl0) ∈ l) :
    List.Perm (removeIsland l k ++ [(k, isl0)]) l := by
  have hsplit := List.filter_append_perm (fun ki => ki.1 ≠ k) l
  have heqk : l.filter (fun ki => !(decide (ki.1 ≠ k))) = [(k, isl0)] := by
    have hall : ∀ ki ∈ l.filter (fun ki => !(decide (ki.1 ≠ k))), ki = (k, isl0) := by
      intro ki hki
      have hm := List.mem_of_mem_filter hki
      have hp := List.of_mem_filter hki
      simp only [Bool.not_eq_eq_eq_not, Bool.not_true, decide_eq_false_iff_not,
        Decidable.not_not] at hp
      have hki2 : ki = (k, ki.2) := by rw [← hp]
      rw [hki2]
      have := key_entry_unique l hnd (by rw [← hki2]; exact hm) hmem
      rw [this]
    have hmemf : (k, isl0) ∈ l.filter (fun ki => !(decide (ki.1 ≠ k))) :=
      List.mem_filter.2 ⟨hmem, by simp⟩
    match hf : l.filter (fun ki => !(decide (ki.1 ≠ k))) with
    | [] => rw [hf] at hmemf; simp at hmemf
    | [x] =>
      rw [hf] at hall
      rw [hf, hall x (by simp)]
    | x :: y :: rest =>
      exfalso
      have hndf : (l.filter (fun ki => !(decide (ki.1 ≠ k)))).Nodup :=
        List.Nodup.filter _ (List.Nodup.of_map Prod.fst hnd)
      rw [hf] at hall hndf
      have hx := hall x (by simp)
      have hy := hall y (by simp)
      rw [List.nodup_cons] at hndf
      exact hndf.1 (by rw [hx.trans hy.symm]; simp)
  show List.Perm (l.filter (fun ki => ki.1 ≠ k) ++ [(k, isl0)]) l
  rw [← heqk]
  exact hsplit

end Craft

namespace Craft

theorem setIsland_id_of_not_mem {R : Type} (l : List (Nat × Island R)) (k : Nat)
    (isl : Island R) (h : k ∉ l.map Prod.fst) : setIsland l k isl = l := by
  rw [setIsland]
  have : ∀ ki ∈ l, (if ki.1 = k then (k, isl) else ki) = ki := by
    intro ki hki
    rw [if_neg]
    intro hk
    exact h (List.mem_map.2 ⟨ki, hki, hk⟩)
  calc l.map (fun ki => if ki.1 = k then (k, isl) else ki)
      = l.map id := List.map_congr_left (fun ki hki => this ki hki)
    _ = l := List.map_id l

/-- Slot assignment is, up to permutation, removal plus re-insertion. -/
theorem setIsland_perm {R : Type} (l : List (Nat × Island R)) (k : Nat)
    (isl isl0 : Island R) (hnd : (l.map Prod.fst).Nodup) (hmem : (k, isl0) ∈ l) :
    List.Perm (setIsland l k isl) (removeIsland l k ++ [(k, isl)]) := by
  induction l with
  | nil => simp at hmem
  | cons ki rest ih =>
    simp only [List.map_cons, List.nodup_cons] at hnd
    by_cases hk : ki.1 = k
    · have hping : ki = (k, ki.2) := by rw [← hk]
      have hknotin : k ∉ rest.map Prod.fst := by rw [← hk]; exact hnd.1
      have hset : setIsland (ki :: rest) k isl = (k, isl) :: rest := by
        rw [setIsland, List.map_cons, if_pos hk]
        have := setIsland_id_of_not_mem rest k isl hknotin
        rw [setIsland] at this
        rw [this]
      have hrem : removeIsland (ki :: rest) k = rest := by
        rw [removeIsland, List.filter_cons]
        rw [if_neg (by simp [hk])]
        have : ∀ ki2 ∈ rest, (decide (ki2.1 ≠ k)) = true := by
          intro ki2 hki2
          simp only [decide_eq_true_eq]
          intro hkk
          exact hknotin (List.mem_map.2 ⟨ki2, hki2, hkk⟩)
        exact List.filter_eq_self.2 this
      rw [hset, hrem]
      exact (List.perm_append_singleton (k, isl) rest).symm
    · have hmem2 : (k, isl0) ∈ rest := by
        rcases List.mem_cons.1 hmem with heq | h
        · exact absurd (by rw [← heq]) hk
        · exact h
      have hset : setIsland (ki :: rest) k isl = ki :: setIsland rest k isl := by
        rw [setIsland, List.map_cons, if_neg hk, setIsland]
      have hrem : removeIsland (ki :: rest) k = ki :: removeIsland rest k := by
        rw [removeIsland, List.filter_cons, if_pos (by simp [hk]), removeIsland]
      rw [hset, hrem, List.cons_append]
      exact List.Perm.cons ki (ih hnd.2 hmem2)

/-- Slot assignment with an island of the same root leaves the root list
unchanged. -/
theorem rootsOf_setIsland_same {R : Type} (l : List (Nat × Island R)) (k : Nat)
    (isl isl0 : Island R) (hnd : (l.map Prod.fst).Nodup) (hmem : (k, isl0) ∈ l)
    (hroot : isl.root = isl0.root) :
    rootsOf (setIsland l k isl) = rootsOf l := by
  rw [rootsOf, rootsOf, setIsland, List.map_map]
  apply List.map_congr_left
  intro ki hki
  by_cases hk : ki.1 = k
  · have hping : ki = (k, ki.2) := by rw [← hk]
    have : ki.2 = isl0 := key_entry_unique l hnd (by rw [← hping]; exact hki) hmem
    simp only [Function.comp_apply, if_pos hk]
    rw [hroot, ← this]
  · simp only [Function.comp_apply, if_neg hk]

theorem findCutData_acc_untouched {S : Type} (res : List (Nat × S)) (fa fb : Nat)
    (hfa : fa ∉ res.map Prod.fst) (hfb : fb ∉ res.map Prod.fst)
    (acc : Option (S × Nat × Nat)) :
    res.foldl
      (fun acc p =>
        if p.1 = fa then some (p.2, fb, fa)
        else if p.1 = fb then some (p.2, fa, fb)
        else acc) acc = acc := by
  induction res generalizing acc with
  | nil => rfl
  | cons p rest ih =>
    simp only [List.map_cons, List.mem_cons, not_or] at hfa hfb
    rw [List.foldl_cons, if_neg (fun h => hfa.1 h.symm), if_neg (fun h => hfb.1 h.symm)]
    exact ih hfa.2 hfb.2 acc

theorem findCutData_left {S : Type} (res : List (Nat × S)) (fa fb : Nat)
    (hfa : fa ∈ res.map Prod.fst) (hfb : fb ∉ res.map Prod.fst) :
    ∃ st, findCutData res fa fb = some (st, fb, fa) := by
  rw [findCutData]
  generalize none = acc
  induction res generalizing acc with
  | nil => simp at hfa
  | cons p rest ih =>
    simp only [List.map_cons, List.mem_cons, not_or] at hfa hfb
    by_cases hp : p.1 = fa
    · rw [List.foldl_cons, if_pos hp]
      by_cases hfa2 : fa ∈ rest.map Prod.fst
      · exact ih hfa2 hfb.2 _
      · exact ⟨p.2, findCutData_acc_untouched rest fa fb hfa2 hfb.2 _⟩
    · have hfa2 : fa ∈ rest.map Prod.fst := by
        rcases hfa with h | h
        · exact absurd h.symm hp
        · exact h
      rw [List.foldl_cons, if_neg hp, if_neg (fun h => hfb.1 h.symm)]
      exact ih hfa2 hfb.2 _

theorem findCutData_right {S : Type} (res : List (Nat × S)) (fa fb : Nat)
    (hfb : fb ∈ res.map Prod.fst) (hfa : fa ∉ res.map Prod.fst) :
    ∃ st, findCutData res fa fb = some (st, fa, fb) := by
  rw [findCutData]
  generalize none = acc
  induction res generalizing acc with
  | nil => simp at hfb
  | cons p rest ih =>
    simp only [List.map_cons, List.mem_cons, not_or] at hfa hfb
    by_cases hp : p.1 = fb
    · rw [List.foldl_cons, if_neg (fun h => hfa.1 h.symm), if_pos hp]
      by_cases hfb2 : fb ∈ rest.map Prod.fst
      · exact ih hfb2 hfa.2 _
      · exact ⟨p.2, findCutData_acc_untouched rest fa fb hfa.2 hfb2 _⟩
    · have hfb2 : fb ∈ rest.map Prod.fst := by
        rcases hfb with h | h
        · exact absurd h.symm hp
        · exact h
      rw [List.foldl_cons, if_neg (fun h => hfa.1 h.symm), if_neg hp]
      exact ih hfb2 hfa.2 _

end Craft

namespace Craft

theorem find?_exists {α : Type} (l : List α) (p : α → Bool)
    (h : ∃ x ∈ l, p x = true) :
    ∃ a, l.find? p = some a ∧ a ∈ l ∧ p a = true := by
  have h1 : (l.find? p).isSome := List.find?_isSome.2 h
  obtain ⟨a, ha⟩ := Option.isSome_iff_exists.1 h1
  exact ⟨a, ha, List.mem_of_find?_eq_some ha, List.find?_some ha⟩

theorem cover_exists {R : Type} (pc : Papercraft R) (hinv : Inv pc)
    (f : Nat) (hf : f < pc.model.faces.length) :
    ∃ ki ∈ pc.islands, containsFace pc.model pc.edges ki.2 f = true := by
  have h := hinv.cover f hf
  obtain ⟨a, ha⟩ := List.length_eq_one.1 h
  have : a ∈ pc.islands.filter (fun ki => containsFace pc.model pc.edges ki.2 f) := by
    rw [ha]; simp
  exact ⟨a, (List.mem_filter.1 this).1, (List.mem_filter.1 this).2⟩

theorem islandByFace_spec {R : Type} (pc : Papercraft R) (hinv : Inv pc)
    (f : Nat) (hf : f < pc.model.faces.length) :
    ∃ ki, islandByFace pc f = some ki ∧ ki ∈ pc.islands ∧
      containsFace pc.model pc.edges ki.2 f = true := by
  rw [islandByFace]
  exact find?_exists pc.islands _ (cover_exists pc hinv f hf)

/-- Inv's bridge field, in `Reach` form. -/
theorem Inv.bridge_reach {R : Type} {pc : Papercraft R} (hinv : Inv pc)
    (ie fa fb : Nat) (hst : edgeStatus pc.edges ie = .Joined)
    (ha : (pc.model.edges.getD ie defaultEdge).f0 = fa)
    (hb : (pc.model.edges.getD ie defaultEdge).f1 = some fb) :
    ¬ Reach pc.model (crossNormal (pc.edges.set ie (.Cut false))) fa fb := by
  have hlt : ie < pc.edges.length := edgeStatus_lt pc.edges ie (by rw [hst]; simp)
  have hltm : ie < pc.model.edges.length := by rw [← hinv.lenEq]; exact hlt
  have hfa : fa < pc.model.faces.length := by rw [← ha]; exact hinv.wf.f0Lt ie hltm
  have h := hinv.bridge ie hlt hst fb (by rw [hb]; simp)
  rw [ha] at h
  intro hr
  exact h ((mem_traverseFaces pc.model _ fa hinv.wf hfa fb).2 hr)

/-- Membership of roots of the islands list gives an in-range face. -/
theorem rootsOf_lt {R : Type} {pc : Papercraft R} (hinv : Inv pc)
    {r : Nat} (hr : r ∈ rootsOf pc.islands) : r < pc.model.faces.length := by
  rcases List.mem_map.1 hr with ⟨ki, hki, hkr⟩
  rw [← hkr]
  exact hinv.rootsLt ki hki

end Craft

namespace Craft

theorem cut_cover_count {R : Type} (pc : Papercraft R) (hinv : Inv pc)
    (ie fa fb rootI newRoot oldFace : Nat)
    (hst : edgeStatus pc.edges ie = .Joined)
    (ha : (pc.model.edges.getD ie defaultEdge).f0 = fa)
    (hb : (pc.model.edges.getD ie defaultEdge).f1 = some fb)
    (hrootIC : Reach pc.model (crossNormal pc.edges) rootI fa)
    (hrootImem : rootI ∈ rootsOf pc.islands)
    (hpair : (oldFace = fa ∧ newRoot = fb) ∨ (oldFace = fb ∧ newRoot = fa))
    (hRnOld : Reach pc.model (crossNormal (pc.edges.set ie (.Cut false))) rootI oldFace)
    (f : Nat) (hf : f < pc.model.faces.length) :
    (rootsOf pc.islands ++ [newRoot]).countP
      (fun r => decide (f ∈ traverseFaces pc.model
        (crossNormal (pc.edges.set ie (.Cut false))) r)) = 1 := by
  set md := pc.model with hmd
  set sts := pc.edges with hsts
  set sts' := pc.edges.set ie (.Cut false) with hsts'
  have hlt : ie < sts.length := edgeStatus_lt sts ie (by rw [hst]; simp)
  have hltm : ie < md.edges.length := by rw [← hinv.lenEq]; exact hlt
  have hfaN : fa < md.faces.length := by rw [← ha]; exact hinv.wf.f0Lt ie hltm
  have hfbN : fb < md.faces.length := hinv.wf.f1Lt ie hltm fb (by rw [hb]; simp)
  have hrootIN : rootI < md.faces.length := rootsOf_lt hinv hrootImem
  have hnewN : newRoot < md.faces.length := by
    rcases hpair with ⟨_, rfl⟩ | ⟨_, rfl⟩
    · exact hfbN
    · exact hfaN
  have hmono : ∀ x y, Reach md (crossNormal sts') x y → Reach md (crossNormal sts) x y := by
    intro x y
    apply Reach.mono
    intro ie3 h3
    by_cases hie3 : ie3 = ie
    · subst hie3
      rw [crossNormal, edgeStatus_set_self sts ie3 _ hlt] at h3
      simp at h3
    · rw [crossNormal, edgeStatus_set_ne sts ie ie3 _ (fun h => hie3 h.symm)] at h3
      exact h3
  have F1 : ∀ x y, x < md.faces.length →
      (Reach md (crossNormal sts) x y ↔
        Reach md (crossNormal sts') x y ∨
        (Reach md (crossNormal sts') x fa ∧ Reach md (crossNormal sts') fb y) ∨
        (Reach md (crossNormal sts') x fb ∧ Reach md (crossNormal sts') fa y)) :=
    fun x y hx => reach_cut_decompose md sts ie fa fb hinv.wf hlt hinv.lenEq hst ha hb x y hx
  have F2 : ¬ Reach md (crossNormal sts') fa fb := hinv.bridge_reach ie fa fb hst ha hb
  have F4 : Reach md (crossNormal sts) fa fb := by
    refine Relation.ReflTransGen.single ⟨ie, ?_, ?_, ?_⟩
    · have := hinv.wf.f0Mem ie hltm
      rw [ha] at this
      exact this
    · rw [crossNormal, hst]
    · rw [Edge.faceList, hb]
      simp
  have hRnNew : ¬ Reach md (crossNormal sts') rootI newRoot := by
    intro h
    have hofn : Reach md (crossNormal sts') oldFace newRoot :=
      Relation.ReflTransGen.trans (reach_symm md _ hinv.wf hrootIN hRnOld) h
    rcases hpair with ⟨rfl, rfl⟩ | ⟨rfl, rfl⟩
    · exact F2 hofn
    · exact F2 (reach_symm md _ hinv.wf hfbN hofn)
  -- the counting predicates, with their reachability readings
  have hpo : ∀ r, r < md.faces.length →
      ((decide (f ∈ traverseFaces md (crossNormal sts) r)) = true ↔
        Reach md (crossNormal sts) r f) := by
    intro r hr
    rw [decide_eq_true_eq]
    exact mem_traverseFaces md (crossNormal sts) r hinv.wf hr f
  have hpn : ∀ r, r < md.faces.length →
      ((decide (f ∈ traverseFaces md (crossNormal sts') r)) = true ↔
        Reach md (crossNormal sts') r f) := by
    intro r hr
    rw [decide_eq_true_eq]
    exact mem_traverseFaces md (crossNormal sts') r hinv.wf hr f
  rw [List.countP_append]
  have hcovRo : (rootsOf pc.islands).countP
      (fun r => decide (f ∈ traverseFaces md (crossNormal sts) r)) = 1 := by
    have h := hinv.cover f hf
    rw [cover_countP md sts pc.islands f] at h
    exact h
  have hsingle : ∀ p : Nat → Bool, [newRoot].countP p = if p newRoot then 1 else 0 := by
    intro p
    by_cases hp : p newRoot = true
    · simp [List.countP_cons, hp]
    · simp only [Bool.not_eq_true] at hp
      simp [List.countP_cons, hp]
  by_cases hC : Reach md (crossNormal sts) fa f
  · -- f lies in the split class
    have hRoRootIf : Reach md (crossNormal sts) rootI f :=
      Relation.ReflTransGen.trans hrootIC hC
    have huniq : ∀ r ∈ rootsOf pc.islands,
        Reach md (crossNormal sts) r f → r = rootI := by
      intro r hr hrf
      exact countP_one_unique _ _ hcovRo hr hrootImem
        ((hpo r (rootsOf_lt hinv hr)).2 hrf) ((hpo rootI hrootIN).2 hRoRootIf)
    by_cases hn : Reach md (crossNormal sts') newRoot f
    · -- the new island covers f
      have hzero : (rootsOf pc.islands).countP
          (fun r => decide (f ∈ traverseFaces md (crossNormal sts') r)) = 0 := by
        rw [List.countP_eq_zero]
        intro r hr
        rw [Bool.not_eq_true]
        rw [← Bool.not_eq_true]
        intro hmem
        have hrf := (hpn r (rootsOf_lt hinv hr)).1 hmem
        have hreq : r = rootI := huniq r hr (hmono r f hrf)
        rw [hreq] at hrf
        exact hRnNew (Relation.ReflTransGen.trans hrf
          (reach_symm md _ hinv.wf hnewN hn))
      rw [hzero, hsingle, if_pos ((hpn newRoot hnewN).2 hn)]
    · -- the old island keeps covering f
      have hstep : Reach md (crossNormal sts') rootI f := by
        rcases (F1 rootI f hrootIN).1 hRoRootIf with h | ⟨h1, h2⟩ | ⟨h1, h2⟩
        · exact h
        · rcases hpair with ⟨hof, hnr⟩ | ⟨hof, hnr⟩
          · exact absurd (hnr ▸ h2) hn
          · exact absurd (hnr ▸ h1) hRnNew
        · rcases hpair with ⟨hof, hnr⟩ | ⟨hof, hnr⟩
          · exact absurd (hnr ▸ h1) hRnNew
          · exact absurd (hnr ▸ h2) hn
      have heq : (rootsOf pc.islands).countP
          (fun r => decide (f ∈ traverseFaces md (crossNormal sts') r)) = 1 := by
        rw [← hcovRo]
        apply List.countP_congr
        intro r hr
        have hrN := rootsOf_lt hinv hr
        rw [decide_eq_true_eq, decide_eq_true_eq,
            mem_traverseFaces md (crossNormal sts') r hinv.wf hrN f,
            mem_traverseFaces md (crossNormal sts) r hinv.wf hrN f]
        by_cases hro : Reach md (crossNormal sts) r f
        · have hreq : r = rootI := huniq r hr hro
          subst hreq
          exact iff_of_true hstep hro
        · have hnn : ¬ Reach md (crossNormal sts') r f := fun h => hro (hmono r f h)
          exact iff_of_false hnn hro
      have hnot : ¬ (decide (f ∈ traverseFaces md (crossNormal sts') newRoot)) = true := by
        rw [hpn newRoot hnewN]
        exact hn
      rw [heq, hsingle, if_neg hnot]
  · -- f lies outside the split class: nothing changes
    have heq : (rootsOf pc.islands).countP
        (fun r => decide (f ∈ traverseFaces md (crossNormal sts') r)) = 1 := by
      rw [← hcovRo]
      apply List.countP_congr
      intro r hr
      have hrN := rootsOf_lt hinv hr
      rw [decide_eq_true_eq, decide_eq_true_eq,
          mem_traverseFaces md (crossNormal sts') r hinv.wf hrN f,
          mem_traverseFaces md (crossNormal sts) r hinv.wf hrN f]
      constructor
      · exact hmono r f
      · intro hro
        rcases (F1 r f hrN).1 hro with h | ⟨h1, h2⟩ | ⟨h1, h2⟩
        · exact h
        · exact absurd (Relation.ReflTransGen.trans F4 (hmono fb f h2)) hC
        · exact absurd (hmono fa f h2) hC
    have hnew0 : ¬ Reach md (crossNormal sts') newRoot f := by
      intro h
      have hro := hmono newRoot f h
      rcases hpair with ⟨_, hnr⟩ | ⟨_, hnr⟩
      · exact hC (Relation.ReflTransGen.trans F4 (hnr ▸ hro))
      · exact hC (hnr ▸ hro)
    have hnot : ¬ (decide (f ∈ traverseFaces md (crossNormal sts') newRoot)) = true := by
      rw [hpn newRoot hnewN]
      exact hnew0
    rw [heq, hsingle, if_neg hnot]

end Craft

namespace Craft

/-- Preservation of the state invariant by the generic post-cut state: statuses
with the edge set to `Cut(false)`, the old islands with unchanged keys and
roots, plus one fresh island rooted at the unreached endpoint of the cut
edge. -/
theorem cut_state_inv {R : Type} (pc : Papercraft R) (hinv : Inv pc)
    (ie fa fb rootI newRoot oldFace : Nat)
    (hst : edgeStatus pc.edges ie = .Joined)
    (ha : (pc.model.edges.getD ie defaultEdge).f0 = fa)
    (hb : (pc.model.edges.getD ie defaultEdge).f1 = some fb)
    (hrootIC : Reach pc.model (crossNormal pc.edges) rootI fa)
    (hrootImem : rootI ∈ rootsOf pc.islands)
    (hpair : (oldFace = fa ∧ newRoot = fb) ∨ (oldFace = fb ∧ newRoot = fa))
    (hRnOld : Reach pc.model (crossNormal (pc.edges.set ie (.Cut false))) rootI oldFace)
    (base : List (Nat × Island R)) (newIsl : Island R)
    (hkeys : base.map Prod.fst = pc.islands.map Prod.fst)
    (hroots : rootsOf base = rootsOf pc.islands)
    (hnroot : newIsl.root = newRoot) :
    Inv { pc with
      edges := pc.edges.set ie (.Cut false),
      islands := base ++ [(pc.nextKey, newIsl)],
      nextKey := pc.nextKey + 1 } := by
  have hlt : ie < pc.edges.length := edgeStatus_lt pc.edges ie (by rw [hst]; simp)
  have hltm : ie < pc.model.edges.length := by rw [← hinv.lenEq]; exact hlt
  have hfaN : fa < pc.model.faces.length := by rw [← ha]; exact hinv.wf.f0Lt ie hltm
  have hfbN : fb < pc.model.faces.length :=
    hinv.wf.f1Lt ie hltm fb (by rw [hb]; simp)
  have hnewN : newRoot < pc.model.faces.length := by
    rcases hpair with ⟨_, rfl⟩ | ⟨_, rfl⟩
    · exact hfbN
    · exact hfaN
  refine ⟨hinv.wf, ?_, ?_, ?_, ?_, ?_, ?_⟩
  · simp only [List.length_set]
    exact hinv.lenEq
  · simp only [List.map_append, List.map_cons, List.map_nil]
    rw [hkeys]
    refine List.Nodup.append hinv.keysNodup (by simp) ?_
    intro k hk hk2
    simp only [List.mem_singleton] at hk2
    rw [hk2] at hk
    exact absurd (hinv.keysLt _ hk) (by omega)
  · intro k hk
    simp only [List.map_append, List.map_cons, List.map_nil, List.mem_append,
      List.mem_singleton] at hk
    rcases hk with hk | hk
    · rw [hkeys] at hk
      have := hinv.keysLt k hk
      show k < pc.nextKey + 1
      omega
    · show k < pc.nextKey + 1
      omega
  · intro ki hki
    simp only [List.mem_append, List.mem_singleton] at hki
    rcases hki with hki | hki
    · have : ki.2.root ∈ rootsOf base := List.mem_map.2 ⟨ki, hki, rfl⟩
      rw [hroots] at this
      exact rootsOf_lt hinv this
    · rw [hki]
      simp only
      rw [hnroot]
      exact hnewN
  · intro f hf
    rw [cover_countP]
    have : rootsOf (base ++ [(pc.nextKey, newIsl)]) =
        rootsOf pc.islands ++ [newRoot] := by
      rw [rootsOf, List.map_append, ← rootsOf, ← rootsOf, hroots]
      simp [rootsOf, hnroot]
    rw [this]
    exact cut_cover_count pc hinv ie fa fb rootI newRoot oldFace hst ha hb
      hrootIC hrootImem hpair hRnOld f hf
  · intro ie2 hlt2 hst2 fb2 hfb2
    simp only [List.length_set] at hlt2
    have hne : ie2 ≠ ie := by
      intro h
      rw [h, edgeStatus_set_self pc.edges ie _ hlt] at hst2
      exact absurd hst2 (by simp)
    rw [edgeStatus_set_ne pc.edges ie ie2 _ (fun h => hne h.symm)] at hst2
    have hold := hinv.bridge ie2 hlt2 hst2 fb2 hfb2
    set fa2 := (pc.model.edges.getD ie2 defaultEdge).f0 with hfa2
    have hltm2 : ie2 < pc.model.edges.length := by rw [← hinv.lenEq]; exact hlt2
    have hfa2N : fa2 < pc.model.faces.length := hinv.wf.f0Lt ie2 hltm2
    intro hmem
    apply hold
    rw [mem_traverseFaces pc.model _ fa2 hinv.wf hfa2N fb2] at hmem ⊢
    refine Reach.mono pc.model _ _ ?_ hmem
    intro ie3 h3
    by_cases h32 : ie3 = ie2
    · exfalso
      rw [crossNormal, h32,
        edgeStatus_set_self (pc.edges.set ie (.Cut false)) ie2 _
          (by simpa using hlt2)] at h3
      simp at h3
    · rw [crossNormal, edgeStatus_set_ne _ ie2 ie3 _ (fun h => h32 h.symm)] at h3
      by_cases h3e : ie3 = ie
      · exfalso
        rw [h3e, edgeStatus_set_self pc.edges ie _ hlt] at h3
        simp at h3
      · rw [edgeStatus_set_ne pc.edges ie ie3 _ (fun h => h3e h.symm)] at h3
        rw [crossNormal, edgeStatus_set_ne _ ie2 ie3 _ (fun h => h32 h.symm)]
        exact h3

end Craft

namespace Craft

/-- Full specification of a successful `edge_cut` on a `Joined` two-faced
edge: the call succeeds, the edge becomes `Cut(false)`, a fresh island rooted
at one endpoint of the edge is appended under a fresh key, the old islands
keep their keys and roots, and the state invariant is preserved. -/
theorem edgeCut_spec {R M : Type} (G : Geom R M) (pc : Papercraft R)
    (hinv : Inv pc) (ie fb : Nat) (offset : Option ℚ)
    (hst : edgeStatus pc.edges ie = .Joined)
    (hb : (pc.model.edges.getD ie defaultEdge).f1 = some fb) :
    ∃ (pc' : Papercraft R) (base : List (Nat × Island R)) (newIsl : Island R),
      edgeCut G pc ie offset = some pc' ∧ Inv pc' ∧
      pc'.model = pc.model ∧ pc'.options = pc.options ∧
      pc'.edges = pc.edges.set ie (.Cut false) ∧
      pc'.islands = base ++ [(pc.nextKey, newIsl)] ∧
      pc'.nextKey = pc.nextKey + 1 ∧
      base.map Prod.fst = pc.islands.map Prod.fst ∧
      rootsOf base = rootsOf pc.islands ∧
      (newIsl.root = (pc.model.edges.getD ie defaultEdge).f0 ∨ newIsl.root = fb) := by
  obtain ⟨fa, ha⟩ : ∃ fa, (pc.model.edges.getD ie defaultEdge).f0 = fa := ⟨_, rfl⟩
  have hlt : ie < pc.edges.length := edgeStatus_lt pc.edges ie (by rw [hst]; simp)
  have hltm : ie < pc.model.edges.length := by rw [← hinv.lenEq]; exact hlt
  have hfaN : fa < pc.model.faces.length := by rw [← ha]; exact hinv.wf.f0Lt ie hltm
  obtain ⟨⟨iIsland, island⟩, hfind, hmem, hcont⟩ := islandByFace_spec pc hinv fa hfaN
  have hrootN : island.root < pc.model.faces.length := hinv.rootsLt _ hmem
  have hrootmem : island.root ∈ rootsOf pc.islands :=
    List.mem_map.2 ⟨(iIsland, island), hmem, rfl⟩
  have hreachOld : Reach pc.model (crossNormal pc.edges) island.root fa :=
    (containsFace_iff pc.model pc.edges island fa hinv.wf hrootN).1 hcont
  have hF2 : ¬ Reach pc.model (crossNormal (pc.edges.set ie (.Cut false))) fa fb :=
    hinv.bridge_reach ie fa fb hst ha hb
  have hside : Reach pc.model (crossNormal (pc.edges.set ie (.Cut false))) island.root fa ∨
      Reach pc.model (crossNormal (pc.edges.set ie (.Cut false))) island.root fb := by
    rcases (reach_cut_decompose pc.model pc.edges ie fa fb hinv.wf hlt hinv.lenEq
        hst ha hb island.root fa hrootN).1 hreachOld with h | ⟨h1, _⟩ | ⟨h1, _⟩
    · exact Or.inl h
    · exact Or.inl h1
    · exact Or.inr h1
  have hspec := traverseFacesEx_spec pc.model
    ⟨crossNormal (pc.edges.set ie (.Cut false)),
      fun st ie2 f nf =>
        G.mMul st (G.scaleMxTranslation pc.options.scale (G.edgeMxU ie2 f nf))⟩
    island.root (G.islandMx island.rot island.loc) hinv.wf hrootN
  rcases hside with hA | hB
  · -- face `a` stays with the old island; the new root is `b`
    have hnotB : ¬ Reach pc.model (crossNormal (pc.edges.set ie (.Cut false)))
        island.root fb := by
      intro h
      exact hF2 (Reach.trans' pc.model _
        (reach_symm pc.model _ hinv.wf hrootN hA) h)
    obtain ⟨st0, hdata⟩ := findCutData_left
      (traverseFacesEx pc.model
        ⟨crossNormal (pc.edges.set ie (.Cut false)),
          fun st ie2 f nf =>
            G.mMul st (G.scaleMxTranslation pc.options.scale (G.edgeMxU ie2 f nf))⟩
        island.root (G.islandMx island.rot island.loc))
      fa fb ((hspec.2 fa).2 hA) (fun h => hnotB ((hspec.2 fb).1 h))
    have hInv := fun (base : List (Nat × Island R)) (newIsl : Island R)
        (hkeys : base.map Prod.fst = pc.islands.map Prod.fst)
        (hroots : rootsOf base = rootsOf pc.islands)
        (hnroot : newIsl.root = fb) =>
      cut_state_inv pc hinv ie fa fb island.root fb fa hst ha hb hreachOld hrootmem
        (Or.inl ⟨rfl, rfl⟩) hA base newIsl hkeys hroots hnroot
    rcases offset with _ | off
    · simp only [edgeCut, hst, ha, hb, hfind, hdata]
      refine ⟨_, pc.islands, _, rfl, ?_, rfl, rfl, rfl, rfl, rfl, rfl, rfl, Or.inr rfl⟩
      exact hInv pc.islands _ rfl rfl rfl
    · simp only [edgeCut, hst, ha, hb, hfind, hdata]
      split
      · refine ⟨_, _, _, rfl, ?_, rfl, rfl, rfl, rfl, rfl,
          setIsland_keys pc.islands iIsland _,
          rootsOf_setIsland_same pc.islands iIsland _ island hinv.keysNodup hmem rfl,
          Or.inr rfl⟩
        exact hInv _ _ (setIsland_keys pc.islands iIsland _)
          (rootsOf_setIsland_same pc.islands iIsland _ island hinv.keysNodup hmem rfl) rfl
      · refine ⟨_, pc.islands, _, rfl, ?_, rfl, rfl, rfl, rfl, rfl, rfl, rfl, Or.inr rfl⟩
        exact hInv pc.islands _ rfl rfl rfl
  · -- face `b` stays with the old island; the new root is `a`
    have hnotA : ¬ Reach pc.model (crossNormal (pc.edges.set ie (.Cut false)))
        island.root fa := by
      intro h
      exact hF2 (Reach.trans' pc.model _
        (reach_symm pc.model _ hinv.wf hrootN h) hB)
    obtain ⟨st0, hdata⟩ := findCutData_right
      (traverseFacesEx pc.model
        ⟨crossNormal (pc.edges.set ie (.Cut false)),
          fun st ie2 f nf =>
            G.mMul st (G.scaleMxTranslation pc.options.scale (G.edgeMxU ie2 f nf))⟩
        island.root (G.islandMx island.rot island.loc))
      fa fb ((hspec.2 fb).2 hB) (fun h => hnotA ((hspec.2 fa).1 h))
    have hInv := fun (base : List (Nat × Island R)) (newIsl : Island R)
        (hkeys : base.map Prod.fst = pc.islands.map Prod.fst)
        (hroots : rootsOf base = rootsOf pc.islands)
        (hnroot : newIsl.root = fa) =>
      cut_state_inv pc hinv ie fa fb island.root fa fb hst ha hb hreachOld hrootmem
        (Or.inr ⟨rfl, rfl⟩) hB base newIsl hkeys hroots hnroot
    rcases offset with _ | off
    · simp only [edgeCut, hst, ha, hb, hfind, hdata]
      refine ⟨_, pc.islands, _, rfl, ?_, rfl, rfl, rfl, rfl, rfl, rfl, rfl, Or.inl rfl⟩
      exact hInv pc.islands _ rfl rfl rfl
    · simp only [edgeCut, hst, ha, hb, hfind, hdata]
      split
      · refine ⟨_, _, _, rfl, ?_, rfl, rfl, rfl, rfl, rfl,
          setIsland_keys pc.islands iIsland _,
          rootsOf_setIsland_same pc.islands iIsland _ island hinv.keysNodup hmem rfl,
          Or.inl rfl⟩
        exact hInv _ _ (setIsland_keys pc.islands iIsland _)
          (rootsOf_setIsland_same pc.islands iIsland _ island hinv.keysNodup hmem rfl) rfl
      · refine ⟨_, pc.islands, _, rfl, ?_, rfl, rfl, rfl, rfl, rfl, rfl, rfl, Or.inl rfl⟩
        exact hInv pc.islands _ rfl rfl rfl

end Craft

namespace Craft

/-- Counting a disjunction of mutually exclusive predicates adds the counts. -/
theorem countP_or_disjoint {α : Type} (l : List α) (p q : α → Bool)
    (h : ∀ x ∈ l, ¬(p x = true ∧ q x = true)) :
    l.countP (fun x => p x || q x) = l.countP p + l.countP q := by
  induction l with
  | nil => simp
  | cons a rest ih =>
    have hrest := ih (fun x hx => h x (List.mem_cons_of_mem a hx))
    have hnot := h a (List.mem_cons_self a rest)
    rw [List.countP_cons, List.countP_cons, List.countP_cons, hrest]
    cases hp : p a
    · cases hq : q a
      · simp [hp, hq]
      · simp [hp, hq]
        omega
    · cases hq : q a
      · simp [hp, hq]
        omega
      · exact absurd ⟨hp, hq⟩ hnot

/-- The cover count after joining a `Cut` two-faced edge whose endpoints lie
in different islands: removing from the root list one root that covered either
endpoint leaves every face covered exactly once in the joined graph. -/
theorem join_cover_count {R : Type} (pc : Papercraft R) (hinv : Inv pc)
    (ie fa fb : Nat) (b0 : Bool)
    (hst : edgeStatus pc.edges ie = .Cut b0)
    (hlt : ie < pc.edges.length)
    (ha : (pc.model.edges.getD ie defaultEdge).f0 = fa)
    (hb : (pc.model.edges.getD ie defaultEdge).f1 = some fb)
    (hsep : ¬ Reach pc.model (crossNormal pc.edges) fa fb)
    (rs : List Nat) (rR : Nat)
    (hrR : Reach pc.model (crossNormal pc.edges) rR fa ∨
      Reach pc.model (crossNormal pc.edges) rR fb)
    (hperm : (rs ++ [rR]).Perm (rootsOf pc.islands))
    (f : Nat) (hf : f < pc.model.faces.length) :
    rs.countP (fun r => decide (f ∈ traverseFaces pc.model
      (crossNormal (pc.edges.set ie .Joined)) r)) = 1 := by
  set md := pc.model with hmd
  set sts := pc.edges with hsts
  set sts2 := pc.edges.set ie .Joined with hsts2
  have hltm : ie < md.edges.length := by rw [← hinv.lenEq]; exact hlt
  have hfaN : fa < md.faces.length := by rw [← ha]; exact hinv.wf.f0Lt ie hltm
  have hfbN : fb < md.faces.length := hinv.wf.f1Lt ie hltm fb (by rw [hb]; simp)
  have hmono : ∀ x y, Reach md (crossNormal sts) x y → Reach md (crossNormal sts2) x y := by
    intro x y
    apply Reach.mono
    intro ie3 h3
    by_cases hie3 : ie3 = ie
    · subst hie3
      rw [crossNormal, edgeStatus_set_self sts ie3 _ hlt]
    · rw [crossNormal, edgeStatus_set_ne sts ie ie3 _ (fun h => hie3 h.symm)]
      exact h3
  have F1 : ∀ x y, x < md.faces.length →
      (Reach md (crossNormal sts2) x y ↔
        Reach md (crossNormal sts) x y ∨
        (Reach md (crossNormal sts) x fa ∧ Reach md (crossNormal sts) fb y) ∨
        (Reach md (crossNormal sts) x fb ∧ Reach md (crossNormal sts) fa y)) :=
    fun x y hx => reach_join_decompose md sts ie fa fb hinv.wf b0 hlt hinv.lenEq
      hst ha hb x y hx
  have hmemN : ∀ r ∈ rs ++ [rR], r < md.faces.length := by
    intro r hr
    exact rootsOf_lt hinv (hperm.subset hr)
  have hrsN : ∀ r ∈ rs, r < md.faces.length :=
    fun r hr => hmemN r (List.mem_append_left _ hr)
  have hrRN : rR < md.faces.length := hmemN rR (List.mem_append_right _ (by simp))
  have hcov : ∀ g, g < md.faces.length →
      (rs ++ [rR]).countP (fun r => decide (g ∈ traverseFaces md (crossNormal sts) r)) = 1 := by
    intro g hg
    have h := hinv.cover g hg
    rw [cover_countP md sts pc.islands g] at h
    rw [List.Perm.countP_eq _ hperm]
    exact h
  by_cases hCf : Reach md (crossNormal sts) fa f ∨ Reach md (crossNormal sts) fb f
  · -- f lies in the merged class: exactly the roots that covered either
    -- endpoint now cover f, and exactly one such root remains
    have hiff : ∀ r, r < md.faces.length →
        (Reach md (crossNormal sts2) r f ↔
          (Reach md (crossNormal sts) r fa ∨ Reach md (crossNormal sts) r fb)) := by
      intro r hr
      constructor
      · intro h2
        rcases (F1 r f hr).1 h2 with h | ⟨h1, _⟩ | ⟨h1, _⟩
        · rcases hCf with hc | hc
          · exact Or.inl (Reach.trans' md _ h (reach_symm md _ hinv.wf hfaN hc))
          · exact Or.inr (Reach.trans' md _ h (reach_symm md _ hinv.wf hfbN hc))
        · exact Or.inl h1
        · exact Or.inr h1
      · intro h0
        rcases h0 with h0 | h0
        · rcases hCf with hc | hc
          · exact hmono r f (Reach.trans' md _ h0 hc)
          · exact (F1 r f hr).2 (Or.inr (Or.inl ⟨h0, hc⟩))
        · rcases hCf with hc | hc
          · exact (F1 r f hr).2 (Or.inr (Or.inr ⟨h0, hc⟩))
          · exact hmono r f (Reach.trans' md _ h0 hc)
    have hdisj : ∀ r ∈ rs ++ [rR],
        ¬((decide (fa ∈ traverseFaces md (crossNormal sts) r)) = true ∧
          (decide (fb ∈ traverseFaces md (crossNormal sts) r)) = true) := by
      intro r hr hand
      have hrN := hmemN r hr
      have h1 := (mem_traverseFaces md (crossNormal sts) r hinv.wf hrN fa).1
        (of_decide_eq_true hand.1)
      have h2 := (mem_traverseFaces md (crossNormal sts) r hinv.wf hrN fb).1
        (of_decide_eq_true hand.2)
      exact hsep (Reach.trans' md _ (reach_symm md _ hinv.wf hrN h1) h2)
    have hor2 : (rs ++ [rR]).countP
        (fun r => decide (fa ∈ traverseFaces md (crossNormal sts) r) ||
          decide (fb ∈ traverseFaces md (crossNormal sts) r)) = 2 := by
      rw [countP_or_disjoint _ _ _ hdisj, hcov fa hfaN, hcov fb hfbN]
    have hrR1 : ((decide (fa ∈ traverseFaces md (crossNormal sts) rR)) ||
        (decide (fb ∈ traverseFaces md (crossNormal sts) rR))) = true := by
      rcases hrR with h | h
      · rw [Bool.or_eq_true, decide_eq_true_eq,
          mem_traverseFaces md (crossNormal sts) rR hinv.wf hrRN fa]
        exact Or.inl h
      · rw [Bool.or_eq_true]
        refine Or.inr ?_
        rw [decide_eq_true_eq, mem_traverseFaces md (crossNormal sts) rR hinv.wf hrRN fb]
        exact h
    have hrsOr : rs.countP
        (fun r => decide (fa ∈ traverseFaces md (crossNormal sts) r) ||
          decide (fb ∈ traverseFaces md (crossNormal sts) r)) = 1 := by
      rw [List.countP_append] at hor2
      have hone : [rR].countP
          (fun r => decide (fa ∈ traverseFaces md (crossNormal sts) r) ||
            decide (fb ∈ traverseFaces md (crossNormal sts) r)) = 1 := by
        simp [List.countP_cons, hrR1]
      rw [hone] at hor2
      omega
    rw [← hrsOr]
    apply List.countP_congr
    intro r hr
    have hrN := hrsN r hr
    rw [decide_eq_true_eq,
      mem_traverseFaces md (crossNormal sts2) r hinv.wf hrN f,
      Bool.or_eq_true, decide_eq_true_eq, decide_eq_true_eq,
      mem_traverseFaces md (crossNormal sts) r hinv.wf hrN fa,
      mem_traverseFaces md (crossNormal sts) r hinv.wf hrN fb]
    exact hiff r hrN
  · -- f lies outside the merged class: coverage is unchanged, and the
    -- removed root did not cover f
    rw [not_or] at hCf
    have hiff : ∀ r, r < md.faces.length →
        (Reach md (crossNormal sts2) r f ↔ Reach md (crossNormal sts) r f) := by
      intro r hr
      constructor
      · intro h2
        rcases (F1 r f hr).1 h2 with h | ⟨_, h2⟩ | ⟨_, h2⟩
        · exact h
        · exact absurd h2 hCf.2
        · exact absurd h2 hCf.1
      · exact hmono r f
    have hrR0 : ¬ Reach md (crossNormal sts) rR f := by
      intro h
      rcases hrR with hside | hside
      · exact hCf.1 (Reach.trans' md _ (reach_symm md _ hinv.wf hrRN hside) h)
      · exact hCf.2 (Reach.trans' md _ (reach_symm md _ hinv.wf hrRN hside) h)
    have hrs1 : rs.countP (fun r => decide (f ∈ traverseFaces md (crossNormal sts) r)) = 1 := by
      have h1 := hcov f hf
      rw [List.countP_append] at h1
      have hzero : [rR].countP
          (fun r => decide (f ∈ traverseFaces md (crossNormal sts) r)) = 0 := by
        have : (decide (f ∈ traverseFaces md (crossNormal sts) rR)) = false := by
          rw [← Bool.not_eq_true, decide_eq_true_eq,
            mem_traverseFaces md (crossNormal sts) rR hinv.wf hrRN f]
          exact hrR0
        simp [List.countP_cons, this]
      rw [hzero] at h1
      omega
    rw [← hrs1]
    apply List.countP_congr
    intro r hr
    have hrN := hrsN r hr
    rw [decide_eq_true_eq, decide_eq_true_eq,
      mem_traverseFaces md (crossNormal sts2) r hinv.wf hrN f,
      mem_traverseFaces md (crossNormal sts) r hinv.wf hrN f]
    exact hiff r hrN

end Craft

namespace Craft

/-- Preservation of the state invariant by the generic post-join state:
statuses with the edge set to `Joined`, and an island list whose keys come
from the old ones and whose roots are the old roots minus one root that
covered an endpoint of the joined edge. -/
theorem join_state_inv {R : Type} (pc : Papercraft R) (hinv : Inv pc)
    (ie fa fb : Nat) (b0 : Bool)
    (hst : edgeStatus pc.edges ie = .Cut b0)
    (hlt : ie < pc.edges.length)
    (ha : (pc.model.edges.getD ie defaultEdge).f0 = fa)
    (hb : (pc.model.edges.getD ie defaultEdge).f1 = some fb)
    (hsep : ¬ Reach pc.model (crossNormal pc.edges) fa fb)
    (islands2 : List (Nat × Island R)) (rR : Nat)
    (hkeys : List.Sublist (islands2.map Prod.fst) (pc.islands.map Prod.fst))
    (hroots : ∀ r ∈ rootsOf islands2, r ∈ rootsOf pc.islands)
    (hrR : Reach pc.model (crossNormal pc.edges) rR fa ∨
      Reach pc.model (crossNormal pc.edges) rR fb)
    (hperm : (rootsOf islands2 ++ [rR]).Perm (rootsOf pc.islands)) :
    Inv { pc with islands := islands2, edges := pc.edges.set ie .Joined } := by
  have hltm : ie < pc.model.edges.length := by rw [← hinv.lenEq]; exact hlt
  have hfaN : fa < pc.model.faces.length := by rw [← ha]; exact hinv.wf.f0Lt ie hltm
  have hfbN : fb < pc.model.faces.length := hinv.wf.f1Lt ie hltm fb (by rw [hb]; simp)
  refine ⟨hinv.wf, ?_, ?_, ?_, ?_, ?_, ?_⟩
  · simp only [List.length_set]
    exact hinv.lenEq
  · exact List.Nodup.sublist hkeys hinv.keysNodup
  · intro k hk
    exact hinv.keysLt k (hkeys.subset hk)
  · intro ki hki
    have : ki.2.root ∈ rootsOf islands2 := List.mem_map.2 ⟨ki, hki, rfl⟩
    exact rootsOf_lt hinv (hroots _ this)
  · intro f hf
    rw [cover_countP]
    exact join_cover_count pc hinv ie fa fb b0 hst hlt ha hb hsep
      (rootsOf islands2) rR hrR hperm f hf
  · intro ie2 hlt2 hst2 fb2 hfb2
    simp only [List.length_set] at hlt2
    obtain ⟨fa2, ha2⟩ : ∃ fa2, (pc.model.edges.getD ie2 defaultEdge).f0 = fa2 := ⟨_, rfl⟩
    have hltm2 : ie2 < pc.model.edges.length := by rw [← hinv.lenEq]; exact hlt2
    have hfa2N : fa2 < pc.model.faces.length := by
      rw [← ha2]; exact hinv.wf.f0Lt ie2 hltm2
    rw [ha2]
    by_cases hee : ie2 = ie
    · -- the freshly joined edge: its endpoints were in different islands
      subst hee
      rw [edgeStatus_set_self pc.edges ie2 _ hlt] at hst2
      rw [hb] at hfb2
      simp only [Option.toList_some, List.mem_singleton] at hfb2
      subst hfb2
      rw [List.set_set]
      intro hmem
      rw [mem_traverseFaces pc.model _ fa2 hinv.wf hfa2N fb2] at hmem
      rw [reach_congr pc.model _ (crossNormal pc.edges)
        (crossNormal_set_cut pc.edges ie2 b0 hst) fa2 fb2] at hmem
      rw [ha] at ha2
      exact hsep (ha2 ▸ hmem)
    · -- an old Joined edge: it stays a bridge because the two endpoints of
      -- the joined edge were in different islands
      rw [edgeStatus_set_ne pc.edges ie ie2 _ (fun h => hee h.symm)] at hst2
      have hold := hinv.bridge ie2 hlt2 hst2 fb2 hfb2
      rw [ha2] at hold
      have hfb2N : fb2 < pc.model.faces.length :=
        hinv.wf.f1Lt ie2 hltm2 fb2 hfb2
      have hcomm : (pc.edges.set ie .Joined).set ie2 (.Cut false) =
          (pc.edges.set ie2 (.Cut false)).set ie .Joined :=
        List.set_comm _ _ pc.edges (fun h => hee h.symm)
      rw [hcomm]
      intro hmem
      rw [mem_traverseFaces pc.model _ fa2 hinv.wf hfa2N fb2] at hmem
      rw [mem_traverseFaces pc.model
        (crossNormal (pc.edges.set ie2 (.Cut false))) fa2 hinv.wf hfa2N fb2] at hold
      have hstbase : edgeStatus (pc.edges.set ie2 (.Cut false)) ie = .Cut b0 := by
        rw [edgeStatus_set_ne pc.edges ie2 ie _ (fun h => hee h)]
        exact hst
      have hmonoBase : ∀ x y,
          Reach pc.model (crossNormal (pc.edges.set ie2 (.Cut false))) x y →
          Reach pc.model (crossNormal pc.edges) x y := by
        intro x y
        apply Reach.mono
        intro ie3 h3
        by_cases h32 : ie3 = ie2
        · subst h32
          rw [crossNormal, edgeStatus_set_self pc.edges ie3 _ hlt2] at h3
          simp at h3
        · rw [crossNormal, edgeStatus_set_ne pc.edges ie2 ie3 _ (fun h => h32 h.symm)] at h3
          rw [crossNormal]
          exact h3
      have hstep : Adj pc.model (crossNormal pc.edges) fa2 fb2 := by
        refine ⟨ie2, ?_, ?_, ?_⟩
        · have := hinv.wf.f0Mem ie2 hltm2
          rw [ha2] at this
          exact this
        · rw [crossNormal, hst2]
        · rw [Edge.faceList]
          exact List.mem_cons_of_mem _ hfb2
      rcases (reach_join_decompose pc.model (pc.edges.set ie2 (.Cut false)) ie fa fb
          hinv.wf b0 (by simpa using hlt) (by simpa using hinv.lenEq) hstbase ha hb
          fa2 fb2 hfa2N).1 hmem with h | ⟨h1, h2⟩ | ⟨h1, h2⟩
      · exact hold h
      · -- fa2 ~ fa and fb ~ fb2 would connect fa to fb through the old edge
        have c1 : Reach pc.model (crossNormal pc.edges) fa fa2 :=
          reach_symm pc.model _ hinv.wf hfa2N (hmonoBase _ _ h1)
        have c2 : Reach pc.model (crossNormal pc.edges) fb2 fb :=
          reach_symm pc.model _ hinv.wf hfbN (hmonoBase _ _ h2)
        exact hsep (Reach.trans' pc.model _
          (Reach.trans' pc.model _ c1 (Relation.ReflTransGen.single hstep)) c2)
      · have c1 : Reach pc.model (crossNormal pc.edges) fa fb2 := hmonoBase _ _ h2
        have c2 : Reach pc.model (crossNormal pc.edges) fb2 fa2 :=
          Relation.ReflTransGen.single (adj_symm pc.model _ hinv.wf hfa2N hstep)
        have c3 : Reach pc.model (crossNormal pc.edges) fa2 fb := hmonoBase _ _ h1
        exact hsep (Reach.trans' pc.model _ (Reach.trans' pc.model _ c1 c2) c3)

end Craft

namespace Craft

/-- Full specification of a successful `edge_join` on a `Cut` two-faced edge
whose endpoints lie in different islands: the call succeeds with exactly one
rename entry, the edge becomes `Joined`, and the state invariant is
preserved. -/
theorem edgeJoin_spec {R : Type} (pc : Papercraft R) (hinv : Inv pc)
    (ie fa fb : Nat) (b0 : Bool) (pf : Option Nat)
    (hst : edgeStatus pc.edges ie = .Cut b0)
    (ha : (pc.model.edges.getD ie defaultEdge).f0 = fa)
    (hb : (pc.model.edges.getD ie defaultEdge).f1 = some fb)
    (hsep : ¬ Reach pc.model (crossNormal pc.edges) fa fb) :
    ∃ (pc'' : Papercraft R) (iB : Nat) (jr : JoinResult R),
      edgeJoin pc ie pf = some (pc'', [(iB, jr)]) ∧ Inv pc'' ∧
      pc''.model = pc.model ∧ pc''.options = pc.options ∧
      pc''.edges = pc.edges.set ie .Joined ∧
      pc''.nextKey = pc.nextKey ∧ jr.iEdge = ie ∧
      jr.prevRoot < pc.model.faces.length := by
  have hltm : ie < pc.model.edges.length := by
    by_contra hc
    rw [List.getD_eq_default _ _ (by omega)] at hb
    simp [defaultEdge] at hb
  have hlt : ie < pc.edges.length := by rw [hinv.lenEq]; exact hltm
  have hfaN : fa < pc.model.faces.length := by rw [← ha]; exact hinv.wf.f0Lt ie hltm
  have hfbN : fb < pc.model.faces.length := hinv.wf.f1Lt ie hltm fb (by rw [hb]; simp)
  obtain ⟨⟨iB, islB⟩, hfindB, hmemB, hcontB⟩ := islandByFace_spec pc hinv fb hfbN
  have hrootBN : islB.root < pc.model.faces.length := hinv.rootsLt _ hmemB
  have hreachB : Reach pc.model (crossNormal pc.edges) islB.root fb :=
    (containsFace_iff pc.model pc.edges islB fb hinv.wf hrootBN).1 hcontB
  have hcontB' : ¬ (containsFace pc.model pc.edges islB fa = true) := by
    rw [containsFace_iff pc.model pc.edges islB fa hinv.wf hrootBN]
    intro hr
    exact hsep (Reach.trans' pc.model _
      (reach_symm pc.model _ hinv.wf hrootBN hr) hreachB)
  have hnodup1 : ((removeIsland pc.islands iB).map Prod.fst).Nodup :=
    List.Nodup.sublist (removeIsland_keys_sublist pc.islands iB) hinv.keysNodup
  obtain ⟨⟨iA0, islA0⟩, hmemA0, hcontA0⟩ := cover_exists pc hinv fa hfaN
  have hmemA0' : (iA0, islA0) ∈ removeIsland pc.islands iB := by
    rw [mem_removeIsland]
    refine ⟨hmemA0, ?_⟩
    intro hk
    have : islA0 = islB := key_entry_unique pc.islands hinv.keysNodup
      (by rw [← hk]; exact hmemA0) hmemB
    rw [this] at hcontA0
    exact hcontB' hcontA0
  obtain ⟨⟨iA, islA⟩, hfindA, hmemA, hcontA⟩ := find?_exists (removeIsland pc.islands iB)
    (fun ki => containsFace pc.model pc.edges ki.2 fa) ⟨(iA0, islA0), hmemA0', hcontA0⟩
  have hfindA' : islandByFace
      { pc with islands := removeIsland pc.islands iB } fa = some (iA, islA) := hfindA
  have hmemA2 : (iA, islA) ∈ pc.islands := (mem_removeIsland _ _ _).1 hmemA |>.1
  have hrootAN : islA.root < pc.model.faces.length := hinv.rootsLt _ hmemA2
  have hreachA : Reach pc.model (crossNormal pc.edges) islA.root fa :=
    (containsFace_iff pc.model pc.edges islA fa hinv.wf hrootAN).1 hcontA
  have p0 : ((removeIsland pc.islands iB ++ [(iB, islB)]).Perm pc.islands) :=
    removeIsland_perm pc.islands iB islB hinv.keysNodup hmemB
  have proots0 : ((rootsOf (removeIsland pc.islands iB) ++ [islB.root]).Perm
      (rootsOf pc.islands)) := by
    have h := p0.map (fun ki => ki.2.root)
    simp only [List.map_append, List.map_cons, List.map_nil] at h
    exact h
  have hroots1 : ∀ r ∈ rootsOf (removeIsland pc.islands iB), r ∈ rootsOf pc.islands := by
    intro r hr
    exact proots0.subset (List.mem_append_left _ hr)
  by_cases hswap : compareIslands { pc with islands := removeIsland pc.islands iB }
      islA islB pf = true
  · -- the surviving slot is overwritten with the removed island's values
    have ps : (setIsland (removeIsland pc.islands iB) iA islB).Perm
        (removeIsland (removeIsland pc.islands iB) iA ++ [(iA, islB)]) :=
      setIsland_perm (removeIsland pc.islands iB) iA islB islA hnodup1 hmemA
    have pr : ((removeIsland (removeIsland pc.islands iB) iA ++ [(iA, islA)]).Perm
        (removeIsland pc.islands iB)) :=
      removeIsland_perm (removeIsland pc.islands iB) iA islA hnodup1 hmemA
    have q1 : (rootsOf (setIsland (removeIsland pc.islands iB) iA islB)).Perm
        (rootsOf (removeIsland (removeIsland pc.islands iB) iA) ++ [islB.root]) := by
      have h := ps.map (fun ki => ki.2.root)
      simp only [List.map_append, List.map_cons, List.map_nil] at h
      exact h
    have q2 : ((rootsOf (removeIsland (removeIsland pc.islands iB) iA) ++ [islA.root]).Perm
        (rootsOf (removeIsland pc.islands iB))) := by
      have h := pr.map (fun ki => ki.2.root)
      simp only [List.map_append, List.map_cons, List.map_nil] at h
      exact h
    have hperm : ((rootsOf (setIsland (removeIsland pc.islands iB) iA islB) ++
        [islA.root]).Perm (rootsOf pc.islands)) := by
      refine ((q1.append_right [islA.root]).trans ?_).trans proots0
      refine List.Perm.trans ?_ (q2.append_right [islB.root])
      rw [List.append_assoc, List.append_assoc]
      exact List.Perm.append_left _ (List.Perm.swap islA.root islB.root [])
    have hInv : Inv { pc with
        islands := setIsland (removeIsland pc.islands iB) iA islB,
        edges := pc.edges.set ie .Joined } := by
      refine join_state_inv pc hinv ie fa fb b0 hst hlt ha hb hsep _ islA.root
        ?_ ?_ (Or.inl hreachA) hperm
      · rw [setIsland_keys]
        exact removeIsland_keys_sublist pc.islands iB
      · intro r hr
        rcases List.mem_map.1 hr with ⟨ki, hki, hkr⟩
        rcases (mem_setIsland _ iA islB islA hmemA ki).1 hki with rfl | ⟨hki2, _⟩
        · rw [← hkr]
          exact List.mem_map.2 ⟨(iB, islB), hmemB, rfl⟩
        · rw [← hkr]
          exact hroots1 _ (List.mem_map.2 ⟨ki, hki2, rfl⟩)
    simp only [edgeJoin, hst, hb, ha, hfindB, hfindA']
    rw [if_neg hcontB']
    simp only [if_pos hswap]
    exact ⟨_, iB, _, rfl, hInv, rfl, rfl, rfl, rfl, rfl, hrootAN⟩
  · -- the surviving slot keeps its values; the removed island is gone
    have hInv : Inv { pc with
        islands := removeIsland pc.islands iB,
        edges := pc.edges.set ie .Joined } := by
      refine join_state_inv pc hinv ie fa fb b0 hst hlt ha hb hsep _ islB.root
        (removeIsland_keys_sublist pc.islands iB) hroots1 (Or.inr hreachB) proots0
    simp only [edgeJoin, hst, hb, ha, hfindB, hfindA']
    rw [if_neg hcontB']
    simp only [if_neg hswap]
    exact ⟨_, iB, _, rfl, hInv, rfl, rfl, rfl, rfl, rfl, hrootBN⟩

end Craft

namespace Craft

/-- `edge_cut` always succeeds on an invariant-satisfying document and
preserves the invariant (the non-`Joined` and rim branches are no-ops). -/
theorem edgeCut_inv {R M : Type} (G : Geom R M) (pc : Papercraft R)
    (hinv : Inv pc) (ie : Nat) (offset : Option ℚ) :
    ∃ pc', edgeCut G pc ie offset = some pc' ∧ Inv pc' := by
  match hst : edgeStatus pc.edges ie with
  | .Joined =>
    match hb : (pc.model.edges.getD ie defaultEdge).f1 with
    | some fb =>
      obtain ⟨pc', base, newIsl, heq, hInv, _⟩ := edgeCut_spec G pc hinv ie fb offset hst hb
      exact ⟨pc', heq, hInv⟩
    | none =>
      refine ⟨pc, ?_, hinv⟩
      simp only [edgeCut, hst, hb]
  | .Cut b =>
    refine ⟨pc, ?_, hinv⟩
    simp only [edgeCut, hst]
  | .Hidden =>
    refine ⟨pc, ?_, hinv⟩
    simp only [edgeCut, hst]

/-- `edge_join` always succeeds on an invariant-satisfying document and
preserves the invariant (the non-`Cut`, rim and same-island branches are
no-ops). -/
theorem edgeJoin_inv {R : Type} (pc : Papercraft R) (hinv : Inv pc)
    (ie : Nat) (pf : Option Nat) :
    ∃ pc'' rn, edgeJoin pc ie pf = some (pc'', rn) ∧ Inv pc'' := by
  match hst : edgeStatus pc.edges ie with
  | .Cut b0 =>
    match hb : (pc.model.edges.getD ie defaultEdge).f1 with
    | some fb =>
      have hltm : ie < pc.model.edges.length := by
        by_contra hc
        rw [List.getD_eq_default _ _ (by omega)] at hb
        simp [defaultEdge] at hb
      have hfaN : (pc.model.edges.getD ie defaultEdge).f0 < pc.model.faces.length :=
        hinv.wf.f0Lt ie hltm
      have hfbN : fb < pc.model.faces.length := hinv.wf.f1Lt ie hltm fb (by rw [hb]; simp)
      obtain ⟨⟨iB, islB⟩, hfindB, hmemB, hcontB⟩ := islandByFace_spec pc hinv fb hfbN
      have hrootBN : islB.root < pc.model.faces.length := hinv.rootsLt _ hmemB
      have hreachB : Reach pc.model (crossNormal pc.edges) islB.root fb :=
        (containsFace_iff pc.model pc.edges islB fb hinv.wf hrootBN).1 hcontB
      by_cases hc : containsFace pc.model pc.edges islB
          ((pc.model.edges.getD ie defaultEdge).f0) = true
      · refine ⟨pc, [], ?_, hinv⟩
        simp only [edgeJoin, hst, hb, hfindB]
        rw [if_pos hc]
      · have hsep : ¬ Reach pc.model (crossNormal pc.edges)
            ((pc.model.edges.getD ie defaultEdge).f0) fb := by
          intro hr
          apply hc
          rw [containsFace_iff pc.model pc.edges islB _ hinv.wf hrootBN]
          exact Reach.trans' pc.model _ hreachB (reach_symm pc.model _ hinv.wf hfaN hr)
        obtain ⟨pc'', iB2, jr, heq, hInv, _⟩ :=
          edgeJoin_spec pc hinv ie _ fb b0 pf hst rfl hb hsep
        exact ⟨pc'', [(iB2, jr)], heq, hInv⟩
    | none =>
      refine ⟨pc, [], ?_, hinv⟩
      simp only [edgeJoin, hst, hb]
  | .Joined =>
    refine ⟨pc, [], ?_, hinv⟩
    simp only [edgeJoin, hst]
  | .Hidden =>
    refine ⟨pc, [], ?_, hinv⟩
    simp only [edgeJoin, hst]

end Craft

namespace Craft

/-- The cover field of the invariant, in exactly-one form. -/
theorem partition_of_inv {R : Type} (pc : Papercraft R) (hinv : Inv pc) :
    ∀ f, f < pc.model.faces.length →
      ∃! ki, ki ∈ pc.islands ∧ containsFace pc.model pc.edges ki.2 f = true := by
  intro f hf
  have hnd : pc.islands.Nodup := List.Nodup.of_map Prod.fst hinv.keysNodup
  obtain ⟨a, ha, hpa, huniq⟩ := (filter_length_one_iff pc.islands hnd
    (fun ki => containsFace pc.model pc.edges ki.2 f)).1 (hinv.cover f hf)
  exact ⟨a, ⟨ha, hpa⟩, fun b hb => huniq b hb.1 hb.2⟩

/-- The Normal crossing rule, spelled out per status. -/
theorem crossNormal_iff (sts : List EdgeStatus) (ie : Nat) :
    crossNormal sts ie = true ↔
      edgeStatus sts ie = .Joined ∨ edgeStatus sts ie = .Hidden := by
  match h : edgeStatus sts ie with
  | .Joined => rw [crossNormal, h]; simp
  | .Hidden => rw [crossNormal, h]; simp
  | .Cut b => rw [crossNormal, h]; simp

end Craft

/-- C2: on every document satisfying the state invariant, every face of the
model belongs to exactly one island; the Normal traversal used for island
membership crosses an edge exactly when it is `Joined` or `Hidden` (never
`Cut`); and both `edge_cut` and `edge_join` (for every edge, offset and
priority face) succeed and preserve the invariant, hence the partition. -/
theorem c2_island_partition_invariant {R M : Type} (G : Craft.Geom R M)
    (pc : Craft.Papercraft R) (hinv : Craft.Inv pc) :
    (∀ f, f < pc.model.faces.length →
      ∃! ki, ki ∈ pc.islands ∧ Craft.containsFace pc.model pc.edges ki.2 f = true) ∧
    (∀ sts ie, (Craft.crossNormal sts ie = true ↔
      Craft.edgeStatus sts ie = .Joined ∨ Craft.edgeStatus sts ie = .Hidden)) ∧
    (∀ ie offset, ∃ pc', Craft.edgeCut G pc ie offset = some pc' ∧ Craft.Inv pc' ∧
      ∀ f, f < pc'.model.faces.length →
        ∃! ki, ki ∈ pc'.islands ∧
          Craft.containsFace pc'.model pc'.edges ki.2 f = true) ∧
    (∀ ie pf, ∃ pc'' rn, Craft.edgeJoin pc ie pf = some (pc'', rn) ∧ Craft.Inv pc'' ∧
      ∀ f, f < pc''.model.faces.length →
        ∃! ki, ki ∈ pc''.islands ∧
          Craft.containsFace pc''.model pc''.edges ki.2 f = true) := by
  refine ⟨Craft.partition_of_inv pc hinv, Craft.crossNormal_iff, ?_, ?_⟩
  · intro ie offset
    obtain ⟨pc', heq, hInv⟩ := Craft.edgeCut_inv G pc hinv ie offset
    exact ⟨pc', heq, hInv, Craft.partition_of_inv pc' hInv⟩
  · intro ie pf
    obtain ⟨pc'', rn, heq, hInv⟩ := Craft.edgeJoin_inv pc hinv ie pf
    exact ⟨pc'', rn, heq, hInv, Craft.partition_of_inv pc'' hInv⟩

/-- A concrete two-face document with the shared edge `Joined` (one island),
satisfying the state invariant; used to witness the invariant theorems. -/
def twoFacePcJoined : Craft.Papercraft Unit where
  model := twoFaceModel
  options := Craft.defaultOptions
  edges := [.Joined, .Hidden, .Hidden, .Hidden, .Hidden]
  islands := [(0, ⟨0, (), (0, 0)⟩)]
  nextKey := 1

theorem twoFacePcJoined_inv : Craft.Inv twoFacePcJoined :=
  ⟨⟨by decide, by decide, by decide, by decide, by decide, by decide⟩,
    by decide, by decide, by decide, by decide, by decide, by decide⟩

/-- C2 witness: the theorem applied to a concrete one-island document. -/
theorem c2_island_partition_invariant_witness :
    Craft.Inv twoFacePcJoined ∧
    ((∀ f, f < twoFacePcJoined.model.faces.length →
      ∃! ki, ki ∈ twoFacePcJoined.islands ∧
        Craft.containsFace twoFacePcJoined.model twoFacePcJoined.edges ki.2 f = true) ∧
    (∀ sts ie, (Craft.crossNormal sts ie = true ↔
      Craft.edgeStatus sts ie = .Joined ∨ Craft.edgeStatus sts ie = .Hidden)) ∧
    (∀ ie offset, ∃ pc', Craft.edgeCut unitGeom twoFacePcJoined ie offset = some pc' ∧
      Craft.Inv pc' ∧
      ∀ f, f < pc'.model.faces.length →
        ∃! ki, ki ∈ pc'.islands ∧
          Craft.containsFace pc'.model pc'.edges ki.2 f = true) ∧
    (∀ ie pf, ∃ pc'' rn, Craft.edgeJoin twoFacePcJoined ie pf = some (pc'', rn) ∧
      Craft.Inv pc'' ∧
      ∀ f, f < pc''.model.faces.length →
        ∃! ki, ki ∈ pc''.islands ∧
          Craft.containsFace pc''.model pc''.edges ki.2 f = true)) :=
  ⟨twoFacePcJoined_inv,
    c2_island_partition_invariant unitGeom twoFacePcJoined twoFacePcJoined_inv⟩

namespace Craft

/-- Two roots of the same traversal class have visit lists of equal length. -/
theorem class_length_eq (md : Model) (cross : Nat → Bool) (hwf : WFModel md)
    (r1 r2 : Nat) (h1 : r1 < md.faces.length) (h2 : r2 < md.faces.length)
    (hr : Reach md cross r1 r2) :
    (traverseFaces md cross r1).length = (traverseFaces md cross r2).length := by
  have hperm : (traverseFaces md cross r1).Perm (traverseFaces md cross r2) := by
    rw [List.perm_ext_iff_of_nodup (traverseFaces_nodup md cross r1 hwf h1)
      (traverseFaces_nodup md cross r2 hwf h2)]
    intro a
    rw [mem_traverseFaces md cross r1 hwf h1 a, mem_traverseFaces md cross r2 hwf h2 a]
    exact reach_class_eq md cross hwf h1 hr a
  exact hperm.length_eq

/-- Cutting a `Joined` bridge edge splits its class: the old class of face `a`
has exactly as many faces as the two post-cut classes of `a` and `b`
together. -/
theorem cut_class_split {R : Type} (pc : Papercraft R) (hinv : Inv pc)
    (ie fa fb : Nat)
    (hst : edgeStatus pc.edges ie = .Joined)
    (ha : (pc.model.edges.getD ie defaultEdge).f0 = fa)
    (hb : (pc.model.edges.getD ie defaultEdge).f1 = some fb) :
    (traverseFaces pc.model (crossNormal pc.edges) fa).length =
      (traverseFaces pc.model (crossNormal (pc.edges.set ie (.Cut false))) fa).length +
      (traverseFaces pc.model (crossNormal (pc.edges.set ie (.Cut false))) fb).length := by
  have hlt : ie < pc.edges.length := edgeStatus_lt pc.edges ie (by rw [hst]; simp)
  have hltm : ie < pc.model.edges.length := by rw [← hinv.lenEq]; exact hlt
  have hfaN : fa < pc.model.faces.length := by rw [← ha]; exact hinv.wf.f0Lt ie hltm
  have hfbN : fb < pc.model.faces.length := hinv.wf.f1Lt ie hltm fb (by rw [hb]; simp)
  have hF2 : ¬ Reach pc.model (crossNormal (pc.edges.set ie (.Cut false))) fa fb :=
    hinv.bridge_reach ie fa fb hst ha hb
  have hperm : (traverseFaces pc.model (crossNormal pc.edges) fa).Perm
      (traverseFaces pc.model (crossNormal (pc.edges.set ie (.Cut false))) fa ++
        traverseFaces pc.model (crossNormal (pc.edges.set ie (.Cut false))) fb) := by
    rw [List.perm_ext_iff_of_nodup (traverseFaces_nodup _ _ fa hinv.wf hfaN) ?nd]
    case nd =>
      rw [List.nodup_append]
      refine ⟨traverseFaces_nodup _ _ fa hinv.wf hfaN,
        traverseFaces_nodup _ _ fb hinv.wf hfbN, ?_⟩
      intro x hx hx2
      rw [mem_traverseFaces _ _ fa hinv.wf hfaN x] at hx
      rw [mem_traverseFaces _ _ fb hinv.wf hfbN x] at hx2
      have hxN := reach_lt pc.model _ hinv.wf hfaN hx
      exact hF2 (Reach.trans' pc.model _ hx (reach_symm pc.model _ hinv.wf hfbN hx2))
    intro x
    rw [List.mem_append,
      mem_traverseFaces _ _ fa hinv.wf hfaN x,
      mem_traverseFaces _ _ fa hinv.wf hfaN x,
      mem_traverseFaces _ _ fb hinv.wf hfbN x]
    rw [reach_cut_decompose pc.model pc.edges ie fa fb hinv.wf hlt hinv.lenEq
      hst ha hb fa x hfaN]
    constructor
    · rintro (h | ⟨_, h2⟩ | ⟨h1, _⟩)
      · exact Or.inl h
      · exact Or.inr h2
      · exact absurd h1 hF2
    · rintro (h | h)
      · exact Or.inl h
      · exact Or.inr (Or.inl ⟨Relation.ReflTransGen.refl, h⟩)
  rw [hperm.length_eq, List.length_append]

/-- Re-setting a slot of the status array to its current value is a no-op. -/
theorem set_status_id (sts : List EdgeStatus) (ie : Nat) (s : EdgeStatus)
    (h : edgeStatus sts ie = s) (hlt : ie < sts.length) : sts.set ie s = sts := by
  apply List.ext_getElem?
  intro n
  by_cases hn : ie = n
  · subst hn
    rw [List.getElem?_set_self hlt]
    rw [edgeStatus, List.getD_eq_getElem _ _ hlt] at h
    rw [List.getElem?_eq_getElem hlt, h]
  · rw [List.getElem?_set_ne hn]

end Craft

/-- C4: cutting an internal (two-faced) `Joined` edge and then joining it back
with the priority face set to the cut's new island root restores the original
island membership count: the island containing the edge's face `a` before the
cut has exactly as many faces as the two post-cut islands of `a` and `b`
together, and as the island containing `a` after the join. -/
theorem c4_cut_then_join_counts {R M : Type} (G : Craft.Geom R M)
    (pc : Craft.Papercraft R) (hinv : Craft.Inv pc) (ie fb : Nat) (offset : Option ℚ)
    (hst : Craft.edgeStatus pc.edges ie = .Joined)
    (hb : (pc.model.edges.getD ie Craft.defaultEdge).f1 = some fb)
    (ki0 : Nat × Craft.Island R)
    (hki0 : Craft.islandByFace pc
      ((pc.model.edges.getD ie Craft.defaultEdge).f0) = some ki0) :
    ∃ pc' base newIsl,
      Craft.edgeCut G pc ie offset = some pc' ∧
      pc'.islands = base ++ [(pc.nextKey, newIsl)] ∧
      (∃ kiA kiB,
        Craft.islandByFace pc' ((pc.model.edges.getD ie Craft.defaultEdge).f0) = some kiA ∧
        Craft.islandByFace pc' fb = some kiB ∧
        Craft.islandFaceCount pc'.model pc'.edges kiA.2 +
          Craft.islandFaceCount pc'.model pc'.edges kiB.2 =
          Craft.islandFaceCount pc.model pc.edges ki0.2) ∧
      (∃ pc'' rn kiJ,
        Craft.edgeJoin pc' ie (some newIsl.root) = some (pc'', rn) ∧
        Craft.islandByFace pc'' ((pc.model.edges.getD ie Craft.defaultEdge).f0) = some kiJ ∧
        Craft.islandFaceCount pc''.model pc''.edges kiJ.2 =
          Craft.islandFaceCount pc.model pc.edges ki0.2) := by
  obtain ⟨fa, ha⟩ : ∃ fa, (pc.model.edges.getD ie Craft.defaultEdge).f0 = fa := ⟨_, rfl⟩
  rw [ha] at hki0 ⊢
  have hlt : ie < pc.edges.length := Craft.edgeStatus_lt pc.edges ie (by rw [hst]; simp)
  have hltm : ie < pc.model.edges.length := by rw [← hinv.lenEq]; exact hlt
  have hfaN : fa < pc.model.faces.length := by rw [← ha]; exact hinv.wf.f0Lt ie hltm
  have hfbN : fb < pc.model.faces.length := hinv.wf.f1Lt ie hltm fb (by rw [hb]; simp)
  have hki0' : pc.islands.find?
      (fun ki => Craft.containsFace pc.model pc.edges ki.2 fa) = some ki0 := hki0
  have hmem0 : ki0 ∈ pc.islands := List.mem_of_find?_eq_some hki0'
  have hcont0 : Craft.containsFace pc.model pc.edges ki0.2 fa = true := by
    have h := List.find?_some hki0'
    exact h
  have hr0N : ki0.2.root < pc.model.faces.length := hinv.rootsLt _ hmem0
  have hR0 : Craft.Reach pc.model (Craft.crossNormal pc.edges) ki0.2.root fa :=
    (Craft.containsFace_iff _ _ _ fa hinv.wf hr0N).1 hcont0
  have hcnt0 : Craft.islandFaceCount pc.model pc.edges ki0.2 =
      (Craft.traverseFaces pc.model (Craft.crossNormal pc.edges) fa).length := by
    simp only [Craft.islandFaceCount]
    rw [Craft.class_length_eq pc.model (Craft.crossNormal pc.edges) hinv.wf
      ki0.2.root fa hr0N hfaN hR0]
  obtain ⟨pc', base, newIsl, heq, hInv', hmodel', hopts', hedges', hislands', hnext',
    hkeys', hroots', hnewroot⟩ := Craft.edgeCut_spec G pc hinv ie fb offset hst hb
  refine ⟨pc', base, newIsl, heq, hislands', ?_, ?_⟩
  · have hfaN' : fa < pc'.model.faces.length := by rw [hmodel']; exact hfaN
    have hfbN' : fb < pc'.model.faces.length := by rw [hmodel']; exact hfbN
    obtain ⟨kiA, hfindA, hmemA, hcontA⟩ := Craft.islandByFace_spec pc' hInv' fa hfaN'
    obtain ⟨kiB, hfindB, hmemB, hcontB⟩ := Craft.islandByFace_spec pc' hInv' fb hfbN'
    refine ⟨kiA, kiB, hfindA, hfindB, ?_⟩
    have hrAN : kiA.2.root < pc'.model.faces.length := hInv'.rootsLt _ hmemA
    have hrBN : kiB.2.root < pc'.model.faces.length := hInv'.rootsLt _ hmemB
    have hRA : Craft.Reach pc'.model (Craft.crossNormal pc'.edges) kiA.2.root fa :=
      (Craft.containsFace_iff _ _ _ fa hInv'.wf hrAN).1 hcontA
    have hRB : Craft.Reach pc'.model (Craft.crossNormal pc'.edges) kiB.2.root fb :=
      (Craft.containsFace_iff _ _ _ fb hInv'.wf hrBN).1 hcontB
    have hcntA : Craft.islandFaceCount pc'.model pc'.edges kiA.2 =
        (Craft.traverseFaces pc.model
          (Craft.crossNormal (pc.edges.set ie (.Cut false))) fa).length := by
      simp only [Craft.islandFaceCount]
      rw [Craft.class_length_eq pc'.model (Craft.crossNormal pc'.edges) hInv'.wf
        kiA.2.root fa hrAN hfaN' hRA, hmodel', hedges']
    have hcntB : Craft.islandFaceCount pc'.model pc'.edges kiB.2 =
        (Craft.traverseFaces pc.model
          (Craft.crossNormal (pc.edges.set ie (.Cut false))) fb).length := by
      simp only [Craft.islandFaceCount]
      rw [Craft.class_length_eq pc'.model (Craft.crossNormal pc'.edges) hInv'.wf
        kiB.2.root fb hrBN hfbN' hRB, hmodel', hedges']
    rw [hcntA, hcntB, hcnt0, Craft.cut_class_split pc hinv ie fa fb hst ha hb]
  · have hst' : Craft.edgeStatus pc'.edges ie = .Cut false := by
      rw [hedges']
      exact Craft.edgeStatus_set_self pc.edges ie _ hlt
    have ha' : (pc'.model.edges.getD ie Craft.defaultEdge).f0 = fa := by
      rw [hmodel']; exact ha
    have hb' : (pc'.model.edges.getD ie Craft.defaultEdge).f1 = some fb := by
      rw [hmodel']; exact hb
    have hsep' : ¬ Craft.Reach pc'.model (Craft.crossNormal pc'.edges) fa fb := by
      rw [hmodel', hedges']
      exact hinv.bridge_reach ie fa fb hst ha hb
    obtain ⟨pc'', iB2, jr, heq2, hInv'', hmodel'', hopts'', hedges'', hnext'', hjr, hprevN⟩ :=
      Craft.edgeJoin_spec pc' hInv' ie fa fb false (some newIsl.root) hst' ha' hb' hsep'
    have hedgesBack : pc''.edges = pc.edges := by
      rw [hedges'', hedges', List.set_set]
      exact Craft.set_status_id pc.edges ie _ hst hlt
    have hmodelBack : pc''.model = pc.model := by rw [hmodel'', hmodel']
    have hfaN'' : fa < pc''.model.faces.length := by rw [hmodelBack]; exact hfaN
    obtain ⟨kiJ, hfindJ, hmemJ, hcontJ⟩ := Craft.islandByFace_spec pc'' hInv'' fa hfaN''
    refine ⟨pc'', [(iB2, jr)], kiJ, heq2, hfindJ, ?_⟩
    have hrJN : kiJ.2.root < pc''.model.faces.length := hInv''.rootsLt _ hmemJ
    have hRJ : Craft.Reach pc''.model (Craft.crossNormal pc''.edges) kiJ.2.root fa :=
      (Craft.containsFace_iff _ _ _ fa hInv''.wf hrJN).1 hcontJ
    have hcntJ : Craft.islandFaceCount pc''.model pc''.edges kiJ.2 =
        (Craft.traverseFaces pc.model (Craft.crossNormal pc.edges) fa).length := by
      simp only [Craft.islandFaceCount]
      rw [Craft.class_length_eq pc''.model (Craft.crossNormal pc''.edges) hInv''.wf
        kiJ.2.root fa hrJN hfaN'' hRJ, hmodelBack, hedgesBack]
    rw [hcntJ, hcnt0]

/-- C4 witness: the theorem applied to the concrete one-island two-face
document, cutting and re-joining its shared edge. -/
theorem c4_cut_then_join_counts_witness :
    (Craft.edgeStatus twoFacePcJoined.edges 0 = .Joined ∧
      (twoFacePcJoined.model.edges.getD 0 Craft.defaultEdge).f1 = some 1 ∧
      Craft.islandByFace twoFacePcJoined
        ((twoFacePcJoined.model.edges.getD 0 Craft.defaultEdge).f0) =
        some (0, ⟨0, (), (0, 0)⟩)) ∧
    (∃ pc' base newIsl,
      Craft.edgeCut unitGeom twoFacePcJoined 0 none = some pc' ∧
      pc'.islands = base ++ [(twoFacePcJoined.nextKey, newIsl)] ∧
      (∃ kiA kiB,
        Craft.islandByFace pc'
          ((twoFacePcJoined.model.edges.getD 0 Craft.defaultEdge).f0) = some kiA ∧
        Craft.islandByFace pc' 1 = some kiB ∧
        Craft.islandFaceCount pc'.model pc'.edges kiA.2 +
          Craft.islandFaceCount pc'.model pc'.edges kiB.2 =
          Craft.islandFaceCount twoFacePcJoined.model twoFacePcJoined.edges
            (0, (⟨0, (), (0, 0)⟩ : Craft.Island Unit)).2) ∧
      (∃ pc'' rn kiJ,
        Craft.edgeJoin pc' 0 (some newIsl.root) = some (pc'', rn) ∧
        Craft.islandByFace pc''
          ((twoFacePcJoined.model.edges.getD 0 Craft.defaultEdge).f0) = some kiJ ∧
        Craft.islandFaceCount pc''.model pc''.edges kiJ.2 =
          Craft.islandFaceCount twoFacePcJoined.model twoFacePcJoined.edges
            (0, (⟨0, (), (0, 0)⟩ : Craft.Island Unit)).2)) :=
  ⟨⟨by decide, by decide, by decide⟩,
    c4_cut_then_join_counts unitGeom twoFacePcJoined twoFacePcJoined_inv 0 1 none
      (by decide) (by decide) (0, ⟨0, (), (0, 0)⟩) (by decide)⟩

namespace Craft

/-- ui.rs `UndoAction`.  The repository's ui.rs revision stores a `TabSide`
payload in `TabToggle` and undoes it with an `EdgeToggleTabAction::Set` call,
but the craft.rs revision in this tree has neither type: its
`edge_toggle_tab` takes only the edge and flips the stored tab side, so the
edge index alone suffices to undo a toggle and `TabToggle` carries only the
edge. -/
inductive UndoAction (R : Type) where
  | IslandMove (iRoot : Nat) (prevRot : R) (prevLoc : Vec2)
  | TabToggle (iEdge : Nat)
  | EdgeCut (iEdge : Nat)
  | EdgeJoin (joinResult : JoinResult R)
  | DocConfig (options : PaperOptions) (islandPos : List (Nat × (R × Vec2)))
  | Modified
deriving DecidableEq

/-- ui.rs `UndoResult`. -/
inductive UndoResult where
  | False
  | Model
  | ModelAndOptions
deriving DecidableEq, Repr

/-- The mutable ui state that the undo machinery touches: the document, the
undo stack (push and pop at the tail, like a `Vec`), the modified flag, and
whether an island is currently grabbed (`grabbed_island.is_some()`). -/
structure Context (R : Type) where
  papercraft : Papercraft R
  undoStack : List (List (UndoAction R))
  modified : Bool
  grabbedIsland : Bool
deriving DecidableEq

/-- ui.rs `PapercraftContext::push_undo_action`: nothing for an empty pack;
otherwise append `Modified` to the pack and set the flag when the document
was unmodified, then push. -/
def pushUndoAction {R : Type} (ctx : Context R) (action : List (UndoAction R)) :
    Context R :=
  if action.isEmpty then ctx
  else if ctx.modified then { ctx with undoStack := ctx.undoStack ++ [action] }
  else { ctx with undoStack := ctx.undoStack ++ [action ++ [.Modified]],
                  modified := true }

/-- The `DocConfig` undo loop: reset each island, looked up by its recorded
root face, to its recorded rotation and location (`island_by_face` panics,
modelled by `none`, when a root is not found). -/
def resetIslandPositions {R : Type} (pc : Papercraft R) :
    List (Nat × (R × Vec2)) → Option (Papercraft R)
  | [] => some pc
  | rv :: rest =>
    match islandByFace pc rv.1 with
    | none => none
    | some (k, isl) =>
      resetIslandPositions
        { pc with islands :=
            (setIsland pc.islands k (isl.resetTransformation rv.1 rv.2.1 rv.2.2)) }
        rest

/-- One arm of the `for action in action_pack.into_iter().rev()` loop of
ui.rs `undo_action`, threading the document, the modified flag and the
result kind. -/
def undoStep {R M : Type} (G : Geom R M) :
    Papercraft R × Bool × UndoResult → UndoAction R →
    Option (Papercraft R × Bool × UndoResult)
  | (pc, m, res), .IslandMove iRoot prevRot prevLoc =>
    match islandByRoot pc iRoot with
    | none => some (pc, m, res)
    | some (k, isl) =>
      some ({ pc with islands :=
        (setIsland pc.islands k (isl.resetTransformation iRoot prevRot prevLoc)) },
        m, res)
  | (pc, m, res), .TabToggle iEdge => some (edgeToggleTab pc iEdge, m, res)
  | (pc, m, res), .EdgeCut iEdge =>
    match edgeJoin pc iEdge none with
    | none => none
    | some (pc2, _) => some (pc2, m, res)
  | (pc, m, res), .EdgeJoin jr =>
    match edgeCut G pc jr.iEdge none with
    | none => none
    | some pc2 =>
      match islandByFace pc2 jr.prevRoot with
      | none => none
      | some (k, isl) =>
        some ({ pc2 with islands :=
          (setIsland pc2.islands k
            (isl.resetTransformation jr.prevRoot jr.prevRot jr.prevLoc)) },
          m, res)
  | (pc, m, _), .DocConfig opts ipos =>
    match resetIslandPositions (setOptionsPc pc opts).1 ipos with
    | none => none
    | some pc2 => some (pc2, m, .ModelAndOptions)
  | (pc, _, res), .Modified => some (pc, false, res)

/-- ui.rs `PapercraftContext::undo_action`: refuse while an island is
grabbed; otherwise pop the top pack and run its actions in reverse. -/
def undoAction {R M : Type} (G : Geom R M) (ctx : Context R) :
    Option (Context R × UndoResult) :=
  if ctx.grabbedIsland then some (ctx, .False)
  else
    match ctx.undoStack.getLast? with
    | none => some (ctx, .False)
    | some pack =>
      match pack.reverse.foldlM (undoStep G)
          (ctx.papercraft, ctx.modified, UndoResult.Model) with
      | none => none
      | some (pc2, m2, res) =>
        some ({ ctx with papercraft := pc2, undoStack := ctx.undoStack.dropLast, modified := m2 }, res)

/-- ui.rs `PapercraftContext::edge_toggle_cut` composed with the
`push_undo_action` its callers perform: a `Hidden` edge does nothing; a
`Joined` edge is cut with twice the tab width as offset, pushing `EdgeCut`; a
`Cut` edge is joined with the given priority face, pushing one `EdgeJoin` per
rename (nothing when the join was a no-op). -/
def edgeToggleCutOp {R M : Type} (G : Geom R M) (ctx : Context R) (ie : Nat)
    (priorityFace : Option Nat) : Option (Context R) :=
  match edgeStatus ctx.papercraft.edges ie with
  | .Hidden => some ctx
  | .Joined =>
    match edgeCut G ctx.papercraft ie (some (ctx.papercraft.options.tab_width * 2)) with
    | none => none
    | some pc' => some (pushUndoAction { ctx with papercraft := pc' } [.EdgeCut ie])
  | .Cut _ =>
    match edgeJoin ctx.papercraft ie priorityFace with
    | none => none
    | some (pc', renames) =>
      if renames.isEmpty then some { ctx with papercraft := pc' }
      else some (pushUndoAction { ctx with papercraft := pc' }
        (renames.map (fun r => UndoAction.EdgeJoin r.2)))

/-- ui.rs island move: `paper_button1_click_event` records the grabbed
island's `IslandMove` entry (with its pre-move rotation and location) and the
first `paper_button1_grab_event` pushes that pack and translates the island;
condensed here into one operation on a single island looked up by key. -/
def moveIslandOp {R : Type} (ctx : Context R) (k : Nat) (d : Vec2) : Context R :=
  match ctx.papercraft.islands.find? (fun ki => ki.1 = k) with
  | none => ctx
  | some (_, isl) =>
    pushUndoAction
      { ctx with papercraft :=
          ({ ctx.papercraft with islands :=
            (setIsland ctx.papercraft.islands k (isl.translate d)) }) }
      [.IslandMove isl.root isl.rot isl.loc]

/-- The tab-toggle operation: craft.rs `edge_toggle_tab` (which flips the
stored side of a two-faced `Cut` edge) plus the ui's undo push; rim and
non-`Cut` edges do nothing and push nothing. -/
def tabToggleOp {R : Type} (ctx : Context R) (ie : Nat) : Context R :=
  match (ctx.papercraft.model.edges.getD ie defaultEdge).f1 with
  | none => ctx
  | some _ =>
    match edgeStatus ctx.papercraft.edges ie with
    | .Cut _ =>
      pushUndoAction { ctx with papercraft := edgeToggleTab ctx.papercraft ie }
        [.TabToggle ie]
    | _ => ctx

/-- ui.rs `PapercraftContext::set_papercraft_options`: snapshot every
island's root, rotation and location, apply craft.rs `set_options`, and push
a `DocConfig` pack holding the previous options and the snapshot. -/
def setPapercraftOptions {R : Type} (ctx : Context R) (o : PaperOptions) :
    Context R :=
  pushUndoAction
    { ctx with papercraft := (setOptionsPc ctx.papercraft o).1 }
    [.DocConfig (setOptionsPc ctx.papercraft o).2
      (ctx.papercraft.islands.map (fun ki => (ki.2.root, (ki.2.rot, ki.2.loc))))]

end Craft

namespace Craft

/-- `find?` returns the element when every satisfying member equals it. -/
theorem find?_first {α : Type} (l : List α) (p : α → Bool) (x : α)
    (hx : x ∈ l) (hpx : p x = true)
    (huniq : ∀ y ∈ l, p y = true → y = x) :
    l.find? p = some x := by
  obtain ⟨a, ha, hmem, hpa⟩ := find?_exists l p ⟨x, hx, hpx⟩
  rw [ha, huniq a hmem hpa]

/-- Two slot assignments to the same key keep only the second. -/
theorem setIsland_setIsland {R : Type} (l : List (Nat × Island R)) (k : Nat)
    (a b : Island R) : setIsland (setIsland l k a) k b = setIsland l k b := by
  rw [setIsland, setIsland, setIsland, List.map_map]
  apply List.map_congr_left
  intro ki _
  by_cases hk : ki.1 = k
  · simp [hk]
  · simp [hk]

/-- Assigning a slot the value it already holds is a no-op. -/
theorem setIsland_self {R : Type} (l : List (Nat × Island R)) (k : Nat)
    (isl : Island R) (hnd : (l.map Prod.fst).Nodup) (hmem : (k, isl) ∈ l) :
    setIsland l k isl = l := by
  rw [setIsland]
  have : ∀ ki ∈ l, (if ki.1 = k then (k, isl) else ki) = ki := by
    intro ki hki
    by_cases hk : ki.1 = k
    · rw [if_pos hk]
      have hki2 : ki = (k, ki.2) := by rw [← hk]
      have : ki.2 = isl := key_entry_unique l hnd (by rw [← hki2]; exact hki) hmem
      rw [hki2, this]
    · rw [if_neg hk]
  calc l.map (fun ki => if ki.1 = k then (k, isl) else ki)
      = l.map id := List.map_congr_left (fun ki hki => this ki hki)
    _ = l := List.map_id l

/-- Under the invariant, at most one island entry contains a given face. -/
theorem cover_unique {R : Type} (pc : Papercraft R) (hinv : Inv pc)
    (r : Nat) (hr : r < pc.model.faces.length)
    {y z : Nat × Island R} (hy : y ∈ pc.islands)
    (hpy : containsFace pc.model pc.edges y.2 r = true)
    (hz : z ∈ pc.islands)
    (hpz : containsFace pc.model pc.edges z.2 r = true) : y = z := by
  have h : pc.islands.countP (fun ki => containsFace pc.model pc.edges ki.2 r) = 1 := by
    rw [List.countP_eq_length_filter]
    exact hinv.cover r hr
  exact countP_one_unique _ _ h hy hz hpy hpz

/-- Island containment only looks at the island's root. -/
theorem containsFace_congr_root {R : Type} (md : Model) (sts : List EdgeStatus)
    (isl isl' : Island R) (h : isl.root = isl'.root) (f : Nat) :
    containsFace md sts isl f = containsFace md sts isl' f := by
  simp only [containsFace, h]

/-- Slot assignment in a list split around the assigned key. -/
theorem setIsland_append_middle {R : Type} (A : List (Nat × Island R))
    (c : Nat × Island R) (rest : List (Nat × Island R)) (k : Nat) (v : Island R)
    (hA : ∀ x ∈ A, x.1 ≠ k) (hrest : ∀ x ∈ rest, x.1 ≠ k) (hc : c.1 = k) :
    setIsland (A ++ c :: rest) k v = A ++ (k, v) :: rest := by
  rw [setIsland, List.map_append, List.map_cons, if_pos hc]
  congr 1
  · conv_rhs => rw [← List.map_id A]
    apply List.map_congr_left
    intro x hx
    rw [if_neg (hA x hx)]
    rfl
  · congr 1
    conv_rhs => rw [← List.map_id rest]
    apply List.map_congr_left
    intro x hx
    rw [if_neg (hrest x hx)]
    rfl

end Craft

namespace Craft

/-- The `DocConfig` reset loop restores the original island list: starting
from islands that differ from the original only in rotation and location
(keys and roots intact), resetting every island to its snapshot values
rebuilds the original document. -/
theorem resetIslandPositions_restore {R : Type} (pc0 : Papercraft R)
    (hinv : Inv pc0) (h : (Nat × Island R) → (Nat × Island R))
    (hkey : ∀ ki, (h ki).1 = ki.1) (hroot : ∀ ki, (h ki).2.root = ki.2.root)
    (A B : List (Nat × Island R)) (hsplit : pc0.islands = A ++ B) :
    resetIslandPositions { pc0 with islands := A ++ B.map h }
      (B.map (fun ki => (ki.2.root, (ki.2.rot, ki.2.loc)))) = some pc0 := by
  induction B generalizing A with
  | nil =>
    rw [List.append_nil] at hsplit
    rw [List.map_nil, List.map_nil, List.append_nil, resetIslandPositions, ← hsplit]
  | cons b Bt ih =>
    have hmem_b : b ∈ pc0.islands := by
      rw [hsplit]
      exact List.mem_append_right A (List.mem_cons_self b Bt)
    have hrootN : b.2.root < pc0.model.faces.length := hinv.rootsLt b hmem_b
    have hbc : containsFace pc0.model pc0.edges b.2 b.2.root = true :=
      containsFace_self pc0.model pc0.edges b.2 hinv.wf hrootN
    have hknodup := hinv.keysNodup
    rw [hsplit, List.map_append, List.map_cons, List.nodup_append] at hknodup
    obtain ⟨ndA, ndC, disj⟩ := hknodup
    have hkeyA : ∀ x ∈ A, x.1 ≠ b.1 := by
      intro x hx heq
      exact disj (List.mem_map.2 ⟨x, hx, rfl⟩) (by rw [← heq]; exact List.mem_cons_self _ _)
    have hkeyBt : ∀ x ∈ Bt, x.1 ≠ b.1 := by
      intro x hx heq
      rw [List.nodup_cons] at ndC
      exact ndC.1 (by rw [← heq]; exact List.mem_map.2 ⟨x, hx, rfl⟩)
    simp only [List.map_cons]
    rw [resetIslandPositions]
    have hfind : islandByFace { pc0 with islands := A ++ h b :: Bt.map h }
        b.2.root = some ((h b).1, (h b).2) := by
      show (A ++ h b :: Bt.map h).find?
        (fun ki => containsFace pc0.model pc0.edges ki.2 b.2.root) =
        some ((h b).1, (h b).2)
      apply find?_first
      · exact List.mem_append_right A (List.mem_cons_self _ _)
      · rw [containsFace_congr_root pc0.model pc0.edges (h b).2 b.2 (hroot b)]
        exact hbc
      · intro y hy hpy
        rcases List.mem_append.1 hy with hyA | hyC
        · exfalso
          have hyI : y ∈ pc0.islands := by
            rw [hsplit]
            exact List.mem_append_left _ hyA
          have : y = b := cover_unique pc0 hinv b.2.root hrootN hyI hpy hmem_b hbc
          exact (hkeyA y hyA) (by rw [this])
        · rcases List.mem_cons.1 hyC with rfl | hyBt
          · rfl
          · exfalso
            rcases List.mem_map.1 hyBt with ⟨z, hz, rfl⟩
            have hzI : z ∈ pc0.islands := by
              rw [hsplit]
              exact List.mem_append_right _ (List.mem_cons_of_mem _ hz)
            have hpz : containsFace pc0.model pc0.edges z.2 b.2.root = true := by
              rw [← containsFace_congr_root pc0.model pc0.edges (h z).2 z.2 (hroot z)]
              exact hpy
            have : z = b := cover_unique pc0 hinv b.2.root hrootN hzI hpz hmem_b hbc
            exact (hkeyBt z hz) (by rw [this])
    rw [hfind]
    show resetIslandPositions
      { pc0 with islands :=
        (setIsland (A ++ h b :: Bt.map h) (h b).1
          ((h b).2.resetTransformation b.2.root b.2.rot b.2.loc)) }
      (Bt.map (fun ki => (ki.2.root, (ki.2.rot, ki.2.loc)))) = some pc0
    have hset : setIsland (A ++ h b :: Bt.map h) (h b).1
        ((h b).2.resetTransformation b.2.root b.2.rot b.2.loc) =
        A ++ b :: Bt.map h := by
      rw [setIsland_append_middle A (h b) (Bt.map h) (h b).1 _
        (fun x hx => by rw [hkey b]; exact hkeyA x hx)
        (fun x hx => by
          rcases List.mem_map.1 hx with ⟨z, hz, rfl⟩
          rw [hkey b, hkey z]
          exact hkeyBt z hz)
        rfl]
      have hpair : ((h b).1,
          (h b).2.resetTransformation b.2.root b.2.rot b.2.loc) = b := by
        rw [hkey b]
        rfl
      rw [hpair]
    rw [hset]
    have hsplit2 : pc0.islands = (A ++ [b]) ++ Bt := by
      rw [hsplit, List.append_assoc, List.singleton_append]
    have := ih (A ++ [b]) hsplit2
    rw [List.append_assoc, List.singleton_append] at this
    exact this

end Craft

namespace Craft

/-- Resetting one island's anchor to another face of its own class (with any
rotation and location) preserves the state invariant. -/
theorem reset_island_inv {R : Type} (pc : Papercraft R) (hinv : Inv pc)
    (k : Nat) (isl : Island R) (hmem : (k, isl) ∈ pc.islands)
    (r : Nat) (hrN : r < pc.model.faces.length)
    (hclass : Reach pc.model (crossNormal pc.edges) isl.root r)
    (rot : R) (loc : Vec2) :
    Inv { pc with islands :=
      (setIsland pc.islands k (isl.resetTransformation r rot loc)) } := by
  have hrootN : isl.root < pc.model.faces.length := hinv.rootsLt _ hmem
  refine ⟨hinv.wf, hinv.lenEq, ?_, ?_, ?_, ?_, hinv.bridge⟩
  · rw [setIsland_keys]
    exact hinv.keysNodup
  · intro kk hk
    rw [setIsland_keys] at hk
    exact hinv.keysLt kk hk
  · intro ki hki
    rcases (mem_setIsland pc.islands k _ isl hmem ki).1 hki with rfl | ⟨hki2, _⟩
    · exact hrN
    · exact hinv.rootsLt ki hki2
  · intro f hf
    rw [cover_countP]
    have hperm1 : (rootsOf (setIsland pc.islands k (isl.resetTransformation r rot loc))).Perm
        (rootsOf (removeIsland pc.islands k) ++ [r]) := by
      have hp := (setIsland_perm pc.islands k (isl.resetTransformation r rot loc)
        isl hinv.keysNodup hmem).map (fun ki => ki.2.root)
      simp only [List.map_append, List.map_cons, List.map_nil] at hp
      exact hp
    have hperm2 : ((rootsOf (removeIsland pc.islands k) ++ [isl.root]).Perm
        (rootsOf pc.islands)) := by
      have hp := (removeIsland_perm pc.islands k isl hinv.keysNodup hmem).map
        (fun ki => ki.2.root)
      simp only [List.map_append, List.map_cons, List.map_nil] at hp
      exact hp
    have hcov := hinv.cover f hf
    rw [cover_countP] at hcov
    rw [← List.Perm.countP_eq _ hperm2, List.countP_append] at hcov
    rw [List.Perm.countP_eq _ hperm1, List.countP_append]
    have hiff : (decide (f ∈ traverseFaces pc.model (crossNormal pc.edges) r)) =
        (decide (f ∈ traverseFaces pc.model (crossNormal pc.edges) isl.root)) := by
      have e1 := mem_traverseFaces pc.model (crossNormal pc.edges) r hinv.wf hrN f
      have e2 := mem_traverseFaces pc.model (crossNormal pc.edges) isl.root
        hinv.wf hrootN f
      have hiff2 := (reach_class_eq pc.model (crossNormal pc.edges) hinv.wf
        hrootN hclass f).symm
      exact decide_eq_decide.2 (e1.trans (hiff2.trans e2.symm))
    have hsingle : ∀ x : Nat, [x].countP
        (fun rr => decide (f ∈ traverseFaces pc.model (crossNormal pc.edges) rr)) =
        if decide (f ∈ traverseFaces pc.model (crossNormal pc.edges) x) then 1 else 0 := by
      intro x
      simp [List.countP_cons]
    rw [hsingle] at hcov ⊢
    rw [hiff]
    exact hcov

end Craft

namespace Craft

/-- Running `undo_action` on an ungrabbed context whose stack ends in `pack`
pops the pack and folds its reversed actions. -/
theorem undoAction_run {R M : Type} (G : Geom R M) (pc1 : Papercraft R) (m : Bool)
    (st : List (List (UndoAction R))) (pack : List (UndoAction R))
    (pc2 : Papercraft R) (m2 : Bool) (res : UndoResult)
    (hfold : pack.reverse.foldlM (undoStep G) (pc1, m, UndoResult.Model) =
      some (pc2, m2, res)) :
    undoAction G ⟨pc1, st ++ [pack], m, false⟩ = some (⟨pc2, st, m2, false⟩, res) := by
  simp only [undoAction, Bool.false_eq_true, if_false, List.getLast?_concat,
    List.dropLast_concat, hfold]

/-- Undoing just after a push: the pack's reversed actions run (with the
`Modified` bookkeeping folded away) and the stack and flag return to their
pre-push values. -/
theorem undo_of_push {R M : Type} (G : Geom R M) (ctx : Context R)
    (action : List (UndoAction R)) (hne : action ≠ [])
    (pc1 pc2 : Papercraft R) (res : UndoResult)
    (hfold : ∀ m : Bool,
      action.reverse.foldlM (undoStep G) (pc1, m, UndoResult.Model) =
        some (pc2, m, res))
    (hgrab : ctx.grabbedIsland = false) :
    undoAction G (pushUndoAction { ctx with papercraft := pc1 } action) =
      some ({ ctx with papercraft := pc2 }, res) := by
  have hact : action.isEmpty = false := by
    cases action with
    | nil => exact absurd rfl hne
    | cons a l => rfl
  by_cases hm : ctx.modified = true
  · have hpush : pushUndoAction { ctx with papercraft := pc1 } action =
        ⟨pc1, ctx.undoStack ++ [action], ctx.modified, ctx.grabbedIsland⟩ := by
      rw [pushUndoAction, if_neg (by rw [hact]; simp), if_pos hm]
    rw [hpush, hgrab, hm]
    have := undoAction_run G pc1 true ctx.undoStack action pc2 true res (hfold true)
    rw [this]
  · have hm' : ctx.modified = false := by
      rw [← Bool.not_eq_true]
      exact hm
    have hpush : pushUndoAction { ctx with papercraft := pc1 } action =
        ⟨pc1, ctx.undoStack ++ [action ++ [.Modified]], true, ctx.grabbedIsland⟩ := by
      rw [pushUndoAction, if_neg (by rw [hact]; simp), if_neg hm]
    rw [hpush, hgrab]
    have hfold2 : (action ++ [UndoAction.Modified]).reverse.foldlM (undoStep G)
        (pc1, true, UndoResult.Model) = some (pc2, false, res) := by
      rw [List.reverse_concat, List.foldlM_cons]
      show (undoStep G (pc1, true, UndoResult.Model) .Modified) >>= _ = _
      rw [show undoStep G (pc1, true, UndoResult.Model) .Modified =
        some (pc1, false, UndoResult.Model) from rfl]
      show action.reverse.foldlM (undoStep G) (pc1, false, UndoResult.Model) = _
      exact hfold false
    have := undoAction_run G pc1 true ctx.undoStack (action ++ [.Modified])
      pc2 false res hfold2
    rw [this, hm']

end Craft

namespace Craft

/-- Any entry of an invariant-satisfying document whose island has a given
root is the unique entry containing that root. -/
theorem root_entry_unique {R : Type} (pc : Papercraft R) (hinv : Inv pc)
    {k : Nat} {isl : Island R} (hmem : (k, isl) ∈ pc.islands)
    {y : Nat × Island R} (hy : y ∈ pc.islands) (hr : y.2.root = isl.root) :
    y = (k, isl) := by
  have hrootN : isl.root < pc.model.faces.length := hinv.rootsLt _ hmem
  have hyc : containsFace pc.model pc.edges y.2 isl.root = true := by
    rw [containsFace_congr_root pc.model pc.edges y.2 ⟨isl.root, y.2.rot, y.2.loc⟩ hr]
    exact containsFace_self pc.model pc.edges _ hinv.wf hrootN
  have hkc : containsFace pc.model pc.edges isl isl.root = true :=
    containsFace_self pc.model pc.edges isl hinv.wf hrootN
  exact cover_unique pc hinv isl.root hrootN hy hyc hmem hkc

/-- The single-step undo fold of an `IslandMove` pack restores the moved
island exactly. -/
theorem move_fold {R M : Type} (G : Geom R M) (pc : Papercraft R) (hinv : Inv pc)
    (k : Nat) (isl : Island R) (hmem : (k, isl) ∈ pc.islands) (d : Vec2) (m : Bool) :
    ([UndoAction.IslandMove isl.root isl.rot isl.loc] : List (UndoAction R)).reverse.foldlM
      (undoStep G)
      ({ pc with islands := (setIsland pc.islands k (isl.translate d)) }, m,
        UndoResult.Model) = some (pc, m, UndoResult.Model) := by
  have hfindR : islandByRoot
      { pc with islands := (setIsland pc.islands k (isl.translate d)) } isl.root =
      some (k, isl.translate d) := by
    show (setIsland pc.islands k (isl.translate d)).find?
      (fun ki => ki.2.root = isl.root) = some (k, isl.translate d)
    apply find?_first
    · exact (mem_setIsland pc.islands k _ isl hmem _).2 (Or.inl rfl)
    · simp [Island.translate]
    · intro y hy hpy
      have hyr : y.2.root = isl.root := by simpa using hpy
      rcases (mem_setIsland pc.islands k _ isl hmem y).1 hy with rfl | ⟨hy2, hyk⟩
      · rfl
      · exact absurd (congrArg Prod.fst (root_entry_unique pc hinv hmem hy2 hyr)) hyk
  have hstep : undoStep G
      ({ pc with islands := (setIsland pc.islands k (isl.translate d)) }, m,
        UndoResult.Model) (.IslandMove isl.root isl.rot isl.loc) =
      some (pc, m, UndoResult.Model) := by
    simp only [undoStep]
    rw [hfindR]
    show some ({ pc with islands :=
      (setIsland (setIsland pc.islands k (isl.translate d)) k
        ((isl.translate d).resetTransformation isl.root isl.rot isl.loc)) }, m,
      UndoResult.Model) = some (pc, m, UndoResult.Model)
    rw [show (isl.translate d).resetTransformation isl.root isl.rot isl.loc = isl from rfl]
    rw [setIsland_setIsland, setIsland_self pc.islands k isl hinv.keysNodup hmem]
  rw [show ([UndoAction.IslandMove isl.root isl.rot isl.loc] : List (UndoAction R)).reverse =
    [UndoAction.IslandMove isl.root isl.rot isl.loc] from rfl]
  rw [List.foldlM_cons, hstep]
  rfl

/-- Moving an island and undoing restores the whole context. -/
theorem move_undo_eq {R M : Type} (G : Geom R M) (ctx : Context R)
    (hinv : Inv ctx.papercraft) (hgrab : ctx.grabbedIsland = false)
    (k : Nat) (isl : Island R) (hmem : (k, isl) ∈ ctx.papercraft.islands)
    (d : Vec2) :
    undoAction G (moveIslandOp ctx k d) = some (ctx, .Model) := by
  have hfindK : ctx.papercraft.islands.find? (fun ki => ki.1 = k) = some (k, isl) := by
    apply find?_first
    · exact hmem
    · simp
    · intro y hy hpy
      have hk : y.1 = k := by simpa using hpy
      have h2 : y.2 = isl := key_entry_unique ctx.papercraft.islands hinv.keysNodup
        (by rw [show y = (y.1, y.2) from rfl, hk] at hy; exact hy) hmem
      calc y = (y.1, y.2) := rfl
        _ = (k, isl) := by rw [hk, h2]
  rw [moveIslandOp, hfindK]
  exact undo_of_push G ctx [.IslandMove isl.root isl.rot isl.loc] (by simp)
    { ctx.papercraft with islands :=
      (setIsland ctx.papercraft.islands k (isl.translate d)) } ctx.papercraft
    UndoResult.Model (fun m => move_fold G ctx.papercraft hinv k isl hmem d m) hgrab

end Craft

namespace Craft

theorem forall₂_map_self {R : Type} (f : (Nat × Island R) → (Nat × Island R))
    (hk : ∀ x, (f x).1 = x.1) (hr : ∀ x, (f x).2.root = x.2.root) :
    ∀ l : List (Nat × Island R),
      List.Forall₂ (fun x y => x.1 = y.1 ∧ x.2.root = y.2.root) l (l.map f)
  | [] => List.Forall₂.nil
  | x :: l => List.Forall₂.cons ⟨(hk x).symm, (hr x).symm⟩ (forall₂_map_self f hk hr l)

theorem forall₂_rel_trans {R : Type} {a b c : List (Nat × Island R)}
    (h1 : List.Forall₂ (fun x y => x.1 = y.1 ∧ x.2.root = y.2.root) a b)
    (h2 : List.Forall₂ (fun x y => x.1 = y.1 ∧ x.2.root = y.2.root) b c) :
    List.Forall₂ (fun x y => x.1 = y.1 ∧ x.2.root = y.2.root) a c := by
  induction h1 generalizing c with
  | nil =>
    cases h2
    exact .nil
  | @cons x y l₁ l₂ hxy htail ih =>
    cases h2 with
    | cons hyz htail2 => exact .cons ⟨hxy.1.trans hyz.1, hxy.2.trans hyz.2⟩ (ih htail2)

theorem forall₂_mem_right {R : Type} {B C : List (Nat × Island R)}
    (h : List.Forall₂ (fun x y => x.1 = y.1 ∧ x.2.root = y.2.root) B C)
    {y : Nat × Island R} (hy : y ∈ C) :
    ∃ x ∈ B, x.1 = y.1 ∧ x.2.root = y.2.root := by
  induction h with
  | nil => simp at hy
  | @cons b c Bt Ct hbc htail ih =>
    rcases List.mem_cons.1 hy with rfl | hy2
    · exact ⟨b, List.mem_cons_self _ _, hbc⟩
    · obtain ⟨x, hx, hrel⟩ := ih hy2
      exact ⟨x, List.mem_cons_of_mem _ hx, hrel⟩

/-- The `DocConfig` reset loop restores the original island list: the current
islands agree with the original tail entrywise on keys and roots, and
resetting each to its snapshot values rebuilds the original document. -/
theorem resetIslandPositions_restore2 {R : Type} (pc0 : Papercraft R)
    (hinv : Inv pc0) (A B C : List (Nat × Island R))
    (hsplit : pc0.islands = A ++ B)
    (hrel : List.Forall₂ (fun x y => x.1 = y.1 ∧ x.2.root = y.2.root) B C) :
    resetIslandPositions { pc0 with islands := A ++ C }
      (B.map (fun ki => (ki.2.root, (ki.2.rot, ki.2.loc)))) = some pc0 := by
  induction hrel generalizing A with
  | nil =>
    rw [List.append_nil] at hsplit
    rw [List.map_nil, List.append_nil, resetIslandPositions, ← hsplit]
  | @cons b c Bt Ct hab htail ih =>
    have hmem_b : b ∈ pc0.islands := by
      rw [hsplit]
      exact List.mem_append_right A (List.mem_cons_self b Bt)
    have hrootN : b.2.root < pc0.model.faces.length := hinv.rootsLt b hmem_b
    have hbc : containsFace pc0.model pc0.edges b.2 b.2.root = true :=
      containsFace_self pc0.model pc0.edges b.2 hinv.wf hrootN
    have hknodup := hinv.keysNodup
    rw [hsplit, List.map_append, List.map_cons, List.nodup_append] at hknodup
    obtain ⟨ndA, ndC, disj⟩ := hknodup
    have hkeyA : ∀ x ∈ A, x.1 ≠ b.1 := by
      intro x hx heq
      exact disj (List.mem_map.2 ⟨x, hx, rfl⟩)
        (by rw [← heq]; exact List.mem_cons_self _ _)
    have hkeyBt : ∀ x ∈ Bt, x.1 ≠ b.1 := by
      intro x hx heq
      rw [List.nodup_cons] at ndC
      exact ndC.1 (by rw [← heq]; exact List.mem_map.2 ⟨x, hx, rfl⟩)
    simp only [List.map_cons]
    rw [resetIslandPositions]
    have hfind : islandByFace { pc0 with islands := A ++ c :: Ct }
        b.2.root = some (c.1, c.2) := by
      show (A ++ c :: Ct).find?
        (fun ki => containsFace pc0.model pc0.edges ki.2 b.2.root) = some (c.1, c.2)
      apply find?_first
      · exact List.mem_append_right A (List.mem_cons_self _ _)
      · rw [containsFace_congr_root pc0.model pc0.edges c.2 b.2 hab.2.symm]
        exact hbc
      · intro y hy hpy
        rcases List.mem_append.1 hy with hyA | hyC
        · exfalso
          have hyI : y ∈ pc0.islands := by
            rw [hsplit]
            exact List.mem_append_left _ hyA
          have : y = b := cover_unique pc0 hinv b.2.root hrootN hyI hpy hmem_b hbc
          exact (hkeyA y hyA) (by rw [this])
        · rcases List.mem_cons.1 hyC with rfl | hyCt
          · rfl
          · exfalso
            obtain ⟨z, hz, hrelzy⟩ := forall₂_mem_right htail hyCt
            have hpz : containsFace pc0.model pc0.edges z.2 b.2.root = true := by
              rw [containsFace_congr_root pc0.model pc0.edges z.2 y.2 hrelzy.2]
              exact hpy
            have hzI : z ∈ pc0.islands := by
              rw [hsplit]
              exact List.mem_append_right _ (List.mem_cons_of_mem _ hz)
            have : z = b := cover_unique pc0 hinv b.2.root hrootN hzI hpz hmem_b hbc
            exact (hkeyBt z hz) (by rw [this])
    rw [hfind]
    show resetIslandPositions
      { pc0 with islands :=
        (setIsland (A ++ c :: Ct) c.1
          (c.2.resetTransformation b.2.root b.2.rot b.2.loc)) }
      (Bt.map (fun ki => (ki.2.root, (ki.2.rot, ki.2.loc)))) = some pc0
    have hset : setIsland (A ++ c :: Ct) c.1
        (c.2.resetTransformation b.2.root b.2.rot b.2.loc) = A ++ b :: Ct := by
      rw [setIsland_append_middle A c Ct c.1 _
        (fun x hx => by rw [← hab.1]; exact hkeyA x hx)
        (fun x hx => by
          obtain ⟨z, hz, hrelzx⟩ := forall₂_mem_right htail hx
          rw [← hrelzx.1, ← hab.1]
          exact hkeyBt z hz)
        rfl]
      have hpair : ((c.1 : Nat),
          c.2.resetTransformation b.2.root b.2.rot b.2.loc) = b := by
        rw [← hab.1]
        rfl
      rw [hpair]
    rw [hset]
    have hsplit2 : pc0.islands = (A ++ [b]) ++ Bt := by
      rw [hsplit, List.append_assoc, List.singleton_append]
    have := ih (A ++ [b]) hsplit2
    rw [List.append_assoc, List.singleton_append] at this
    exact this

end Craft

namespace Craft

/-- The single-step undo fold of a `TabToggle` pack flips the tab side back. -/
theorem tab_fold {R M : Type} (G : Geom R M) (pc : Papercraft R)
    (ie fb : Nat) (b : Bool)
    (hf1 : (pc.model.edges.getD ie defaultEdge).f1 = some fb)
    (hst : edgeStatus pc.edges ie = .Cut b)
    (hlt : ie < pc.edges.length) (m : Bool) :
    ([UndoAction.TabToggle ie] : List (UndoAction R)).reverse.foldlM (undoStep G)
      (edgeToggleTab pc ie, m, UndoResult.Model) = some (pc, m, UndoResult.Model) := by
  have h1 : edgeToggleTab pc ie = { pc with edges := pc.edges.set ie (.Cut (!b)) } := by
    rw [edgeToggleTab, hf1, hst]
  have h2 : edgeToggleTab { pc with edges := pc.edges.set ie (.Cut (!b)) } ie = pc := by
    simp only [edgeToggleTab, hf1, edgeStatus_set_self pc.edges ie (.Cut (!b)) hlt]
    rw [Bool.not_not, List.set_set, set_status_id pc.edges ie _ hst hlt]
  rw [show ([UndoAction.TabToggle ie] : List (UndoAction R)).reverse =
    [UndoAction.TabToggle ie] from rfl]
  rw [List.foldlM_cons]
  rw [show undoStep G (edgeToggleTab pc ie, m, UndoResult.Model)
    (UndoAction.TabToggle ie) =
    some (edgeToggleTab (edgeToggleTab pc ie) ie, m, UndoResult.Model) from rfl]
  rw [h1, h2]
  rfl

/-- Toggling a tab and undoing restores the whole context. -/
theorem tab_undo_eq {R M : Type} (G : Geom R M) (ctx : Context R)
    (hinv : Inv ctx.papercraft) (hgrab : ctx.grabbedIsland = false)
    (ie fb : Nat) (b : Bool)
    (hf1 : (ctx.papercraft.model.edges.getD ie defaultEdge).f1 = some fb)
    (hst : edgeStatus ctx.papercraft.edges ie = .Cut b) :
    undoAction G (tabToggleOp ctx ie) = some (ctx, .Model) := by
  have hltm : ie < ctx.papercraft.model.edges.length := by
    by_contra hc
    rw [List.getD_eq_default _ _ (by omega)] at hf1
    simp [defaultEdge] at hf1
  have hlt : ie < ctx.papercraft.edges.length := by rw [hinv.lenEq]; exact hltm
  rw [tabToggleOp, hf1, hst]
  exact undo_of_push G ctx [.TabToggle ie] (by simp)
    (edgeToggleTab ctx.papercraft ie) ctx.papercraft UndoResult.Model
    (fun m => tab_fold G ctx.papercraft ie fb b hf1 hst hlt m) hgrab

/-- The single-step undo fold of a `DocConfig` pack restores the previous
options and every island's transform. -/
theorem options_fold {R M : Type} (G : Geom R M) (pc : Papercraft R)
    (hinv : Inv pc) (o : PaperOptions) (m : Bool) :
    ([UndoAction.DocConfig (setOptionsPc pc o).2
      (pc.islands.map (fun ki => (ki.2.root, (ki.2.rot, ki.2.loc))))] :
      List (UndoAction R)).reverse.foldlM (undoStep G)
      ((setOptionsPc pc o).1, m, UndoResult.Model) =
      some (pc, m, UndoResult.ModelAndOptions) := by
  have hrel1 : List.Forall₂ (fun x y => x.1 = y.1 ∧ x.2.root = y.2.root)
      pc.islands (setOptionsPc pc o).1.islands :=
    forall₂_map_self (setOptionsMapIsland pc.options o)
      (fun x => rfl) (fun x => rfl) pc.islands
  have hrel2 : List.Forall₂ (fun x y => x.1 = y.1 ∧ x.2.root = y.2.root)
      (setOptionsPc pc o).1.islands
      (setOptionsPc (setOptionsPc pc o).1 (setOptionsPc pc o).2).1.islands :=
    forall₂_map_self
      (setOptionsMapIsland (setOptionsPc pc o).1.options (setOptionsPc pc o).2)
      (fun x => rfl) (fun x => rfl) (setOptionsPc pc o).1.islands
  have hreset : resetIslandPositions
      (setOptionsPc (setOptionsPc pc o).1 (setOptionsPc pc o).2).1
      (pc.islands.map (fun ki => (ki.2.root, (ki.2.rot, ki.2.loc)))) = some pc := by
    have h := resetIslandPositions_restore2 pc hinv [] pc.islands
      ((setOptionsPc (setOptionsPc pc o).1 (setOptionsPc pc o).2).1.islands) rfl
      (forall₂_rel_trans hrel1 hrel2)
    exact h
  have hstep : undoStep G ((setOptionsPc pc o).1, m, UndoResult.Model)
      (.DocConfig (setOptionsPc pc o).2
        (pc.islands.map (fun ki => (ki.2.root, (ki.2.rot, ki.2.loc))))) =
      some (pc, m, UndoResult.ModelAndOptions) := by
    simp only [undoStep]
    rw [hreset]
  rw [show ([UndoAction.DocConfig (setOptionsPc pc o).2
      (pc.islands.map (fun ki => (ki.2.root, (ki.2.rot, ki.2.loc))))] :
      List (UndoAction R)).reverse =
    [UndoAction.DocConfig (setOptionsPc pc o).2
      (pc.islands.map (fun ki => (ki.2.root, (ki.2.rot, ki.2.loc))))] from rfl]
  rw [List.foldlM_cons, hstep]
  rfl

/-- Changing the document options and undoing restores the whole context. -/
theorem options_undo_eq {R M : Type} (G : Geom R M) (ctx : Context R)
    (hinv : Inv ctx.papercraft) (hgrab : ctx.grabbedIsland = false)
    (o : PaperOptions) :
    undoAction G (setPapercraftOptions ctx o) = some (ctx, .ModelAndOptions) := by
  rw [setPapercraftOptions]
  exact undo_of_push G ctx
    [.DocConfig (setOptionsPc ctx.papercraft o).2
      (ctx.papercraft.islands.map (fun ki => (ki.2.root, (ki.2.rot, ki.2.loc))))]
    (by simp) (setOptionsPc ctx.papercraft o).1 ctx.papercraft
    UndoResult.ModelAndOptions
    (fun m => options_fold G ctx.papercraft hinv o m) hgrab

end Craft

namespace Craft

/-- Cutting a `Joined` two-faced edge through the ui and undoing restores the
edge statuses, the options and the invariant (island placements are out of
scope: the cut nudges them and the merging join keeps the winner's frame). -/
theorem cut_undo_eq {R M : Type} (G : Geom R M) (ctx : Context R)
    (hinv : Inv ctx.papercraft) (hgrab : ctx.grabbedIsland = false)
    (ie fb : Nat) (pf : Option Nat)
    (hst : edgeStatus ctx.papercraft.edges ie = .Joined)
    (hb : (ctx.papercraft.model.edges.getD ie defaultEdge).f1 = some fb) :
    ∃ ctxJ pc2,
      edgeToggleCutOp G ctx ie pf = some ctxJ ∧
      undoAction G ctxJ = some ({ ctx with papercraft := pc2 }, .Model) ∧
      pc2.model = ctx.papercraft.model ∧
      pc2.edges = ctx.papercraft.edges ∧
      pc2.options = ctx.papercraft.options ∧
      Inv pc2 := by
  obtain ⟨fa, ha⟩ : ∃ fa, (ctx.papercraft.model.edges.getD ie defaultEdge).f0 = fa :=
    ⟨_, rfl⟩
  have hlt : ie < ctx.papercraft.edges.length :=
    edgeStatus_lt _ ie (by rw [hst]; simp)
  obtain ⟨pc', base, newIsl, heq, hInv', hmodel', hopts', hedges', hislands', hnext',
    hkeys', hroots', hnewroot⟩ :=
    edgeCut_spec G ctx.papercraft hinv ie fb
      (some (ctx.papercraft.options.tab_width * 2)) hst hb
  have hop : edgeToggleCutOp G ctx ie pf =
      some (pushUndoAction { ctx with papercraft := pc' } [.EdgeCut ie]) := by
    rw [edgeToggleCutOp, hst, heq]
  have hst' : edgeStatus pc'.edges ie = .Cut false := by
    rw [hedges']
    exact edgeStatus_set_self _ _ _ hlt
  have ha' : (pc'.model.edges.getD ie defaultEdge).f0 = fa := by
    rw [hmodel']
    exact ha
  have hb' : (pc'.model.edges.getD ie defaultEdge).f1 = some fb := by
    rw [hmodel']
    exact hb
  have hsep' : ¬ Reach pc'.model (crossNormal pc'.edges) fa fb := by
    rw [hmodel', hedges']
    exact hinv.bridge_reach ie fa fb hst ha hb
  obtain ⟨pc'', iB2, jr, heqJ, hInv'', hmodelJ, hoptsJ, hedgesJ, hnextJ, hjrE, hprevN⟩ :=
    edgeJoin_spec pc' hInv' ie fa fb false none hst' ha' hb' hsep'
  have hfold : ∀ m, ([UndoAction.EdgeCut ie] : List (UndoAction R)).reverse.foldlM
      (undoStep G) (pc', m, UndoResult.Model) = some (pc'', m, UndoResult.Model) := by
    intro m
    rw [show ([UndoAction.EdgeCut ie] : List (UndoAction R)).reverse =
      [UndoAction.EdgeCut ie] from rfl, List.foldlM_cons]
    have hstep : undoStep G (pc', m, UndoResult.Model) (.EdgeCut ie) =
        some (pc'', m, UndoResult.Model) := by
      simp only [undoStep]
      rw [heqJ]
    rw [hstep]
    rfl
  refine ⟨pushUndoAction { ctx with papercraft := pc' } [.EdgeCut ie], pc'', hop,
    undo_of_push G ctx [.EdgeCut ie] (by simp) pc' pc'' UndoResult.Model hfold hgrab,
    ?_, ?_, ?_, hInv''⟩
  · rw [hmodelJ, hmodel']
  · rw [hedgesJ, hedges', List.set_set]
    exact set_status_id ctx.papercraft.edges ie _ hst hlt
  · rw [hoptsJ, hopts']

end Craft

namespace Craft

/-- Joining a `Cut` two-faced edge (endpoints in different islands) through
the ui and undoing restores the edge statuses except for the tab side (the
re-cut edge comes back as `Cut(false)`), restores the options, and preserves
the invariant; the undone island is reset to the recorded previous
root/rotation/location. -/
theorem join_undo_eq {R M : Type} (G : Geom R M) (ctx : Context R)
    (hinv : Inv ctx.papercraft) (hgrab : ctx.grabbedIsland = false)
    (ie fa fb : Nat) (b : Bool) (pf : Option Nat)
    (hst : edgeStatus ctx.papercraft.edges ie = .Cut b)
    (ha : (ctx.papercraft.model.edges.getD ie defaultEdge).f0 = fa)
    (hb : (ctx.papercraft.model.edges.getD ie defaultEdge).f1 = some fb)
    (hsep : ¬ Reach ctx.papercraft.model (crossNormal ctx.papercraft.edges) fa fb) :
    ∃ ctxJ pc2,
      edgeToggleCutOp G ctx ie pf = some ctxJ ∧
      undoAction G ctxJ = some ({ ctx with papercraft := pc2 }, .Model) ∧
      pc2.model = ctx.papercraft.model ∧
      pc2.edges = ctx.papercraft.edges.set ie (.Cut false) ∧
      pc2.options = ctx.papercraft.options ∧
      Inv pc2 := by
  have hltm : ie < ctx.papercraft.model.edges.length := by
    by_contra hc
    rw [List.getD_eq_default _ _ (by omega)] at hb
    simp [defaultEdge] at hb
  have hlt : ie < ctx.papercraft.edges.length := by
    rw [hinv.lenEq]
    exact hltm
  obtain ⟨pc', iB, jr, heqJ, hInv', hmodel', hopts', hedges', hnext', hjrE, hprevN⟩ :=
    edgeJoin_spec ctx.papercraft hinv ie fa fb b pf hst ha hb hsep
  have hop : edgeToggleCutOp G ctx ie pf =
      some (pushUndoAction { ctx with papercraft := pc' } [.EdgeJoin jr]) := by
    rw [edgeToggleCutOp, hst, heqJ]
    rfl
  have hstJ : edgeStatus pc'.edges ie = .Joined := by
    rw [hedges']
    exact edgeStatus_set_self _ _ _ hlt
  have hbJ : (pc'.model.edges.getD ie defaultEdge).f1 = some fb := by
    rw [hmodel']
    exact hb
  obtain ⟨pcC, baseC, newIslC, heqC, hInvC, hmodelC, hoptsC, hedgesC, hislandsC,
    hnextC, hkeysC, hrootsC, hrootC⟩ := edgeCut_spec G pc' hInv' ie fb none hstJ hbJ
  have hprevNC : jr.prevRoot < pcC.model.faces.length := by
    rw [hmodelC, hmodel']
    exact hprevN
  obtain ⟨⟨kC, islC⟩, hfindC, hmemC, hcontC⟩ :=
    islandByFace_spec pcC hInvC jr.prevRoot hprevNC
  have hrootCN : islC.root < pcC.model.faces.length := hInvC.rootsLt _ hmemC
  have hreachC : Reach pcC.model (crossNormal pcC.edges) islC.root jr.prevRoot :=
    (containsFace_iff pcC.model pcC.edges islC jr.prevRoot hInvC.wf hrootCN).1 hcontC
  have hInvF : Inv { pcC with islands :=
      (setIsland pcC.islands kC
        (islC.resetTransformation jr.prevRoot jr.prevRot jr.prevLoc)) } :=
    reset_island_inv pcC hInvC kC islC hmemC jr.prevRoot hprevNC hreachC
      jr.prevRot jr.prevLoc
  have hfold : ∀ m, ([UndoAction.EdgeJoin jr] : List (UndoAction R)).reverse.foldlM
      (undoStep G) (pc', m, UndoResult.Model) =
      some ({ pcC with islands :=
        (setIsland pcC.islands kC
          (islC.resetTransformation jr.prevRoot jr.prevRot jr.prevLoc)) },
        m, UndoResult.Model) := by
    intro m
    rw [show ([UndoAction.EdgeJoin jr] : List (UndoAction R)).reverse =
      [UndoAction.EdgeJoin jr] from rfl, List.foldlM_cons]
    have hstep : undoStep G (pc', m, UndoResult.Model) (.EdgeJoin jr) =
        some ({ pcC with islands :=
          (setIsland pcC.islands kC
            (islC.resetTransformation jr.prevRoot jr.prevRot jr.prevLoc)) },
          m, UndoResult.Model) := by
      simp only [undoStep, hjrE, heqC, hfindC]
    rw [hstep]
    rfl
  refine ⟨pushUndoAction { ctx with papercraft := pc' } [.EdgeJoin jr],
    { pcC with islands :=
      (setIsland pcC.islands kC
        (islC.resetTransformation jr.prevRoot jr.prevRot jr.prevLoc)) }, hop,
    undo_of_push G ctx [.EdgeJoin jr] (by simp) pc' _ UndoResult.Model hfold hgrab,
    ?_, ?_, ?_, hInvF⟩
  · show pcC.model = ctx.papercraft.model
    rw [hmodelC, hmodel']
  · show pcC.edges = ctx.papercraft.edges.set ie (.Cut false)
    rw [hedgesC, hedges', List.set_set]
  · show pcC.options = ctx.papercraft.options
    rw [hoptsC, hopts']

end Craft

/-- C3: amended undo behaviour.  `undo_action` refuses while an island is
grabbed.  An island move, a tab toggle or an options change followed by one
undo restores the whole context (document, undo stack and modified flag)
exactly.  A cut followed by one undo restores the edge-status array, the
options and the invariant, but not in general the island placements (the cut
nudges both sides apart and the merging join keeps the winner's frame).  A
join followed by one undo restores the options and the invariant, and
restores the statuses only up to the stored tab side: the re-cut edge comes
back as `Cut(false)` whatever it was before. -/
theorem c3_single_op_undo {R M : Type} (G : Craft.Geom R M)
    (ctx : Craft.Context R) (hinv : Craft.Inv ctx.papercraft)
    (hgrab : ctx.grabbedIsland = false) :
    (∀ ctx2 : Craft.Context R, ctx2.grabbedIsland = true →
      Craft.undoAction G ctx2 = some (ctx2, .False)) ∧
    (∀ k isl d, (k, isl) ∈ ctx.papercraft.islands →
      Craft.undoAction G (Craft.moveIslandOp ctx k d) = some (ctx, .Model)) ∧
    (∀ ie fb b,
      (ctx.papercraft.model.edges.getD ie Craft.defaultEdge).f1 = some fb →
      Craft.edgeStatus ctx.papercraft.edges ie = .Cut b →
      Craft.undoAction G (Craft.tabToggleOp ctx ie) = some (ctx, .Model)) ∧
    (∀ o, Craft.undoAction G (Craft.setPapercraftOptions ctx o) =
      some (ctx, .ModelAndOptions)) ∧
    (∀ ie fb pf, Craft.edgeStatus ctx.papercraft.edges ie = .Joined →
      (ctx.papercraft.model.edges.getD ie Craft.defaultEdge).f1 = some fb →
      ∃ ctxJ pc2, Craft.edgeToggleCutOp G ctx ie pf = some ctxJ ∧
        Craft.undoAction G ctxJ = some ({ ctx with papercraft := pc2 }, .Model) ∧
        pc2.model = ctx.papercraft.model ∧
        pc2.edges = ctx.papercraft.edges ∧
        pc2.options = ctx.papercraft.options ∧ Craft.Inv pc2) ∧
    (∀ ie fa fb b pf, Craft.edgeStatus ctx.papercraft.edges ie = .Cut b →
      (ctx.papercraft.model.edges.getD ie Craft.defaultEdge).f0 = fa →
      (ctx.papercraft.model.edges.getD ie Craft.defaultEdge).f1 = some fb →
      ¬ Craft.Reach ctx.papercraft.model
        (Craft.crossNormal ctx.papercraft.edges) fa fb →
      ∃ ctxJ pc2, Craft.edgeToggleCutOp G ctx ie pf = some ctxJ ∧
        Craft.undoAction G ctxJ = some ({ ctx with papercraft := pc2 }, .Model) ∧
        pc2.model = ctx.papercraft.model ∧
        pc2.edges = ctx.papercraft.edges.set ie (.Cut false) ∧
        pc2.options = ctx.papercraft.options ∧ Craft.Inv pc2) := by
  refine ⟨?_, ?_, ?_, ?_, ?_, ?_⟩
  · intro ctx2 h2
    rw [Craft.undoAction, if_pos h2]
  · intro k isl d hmem
    exact Craft.move_undo_eq G ctx hinv hgrab k isl hmem d
  · intro ie fb b hf1 hst
    exact Craft.tab_undo_eq G ctx hinv hgrab ie fb b hf1 hst
  · intro o
    exact Craft.options_undo_eq G ctx hinv hgrab o
  · intro ie fb pf hst hb
    exact Craft.cut_undo_eq G ctx hinv hgrab ie fb pf hst hb
  · intro ie fa fb b pf hst ha hb hsep
    exact Craft.join_undo_eq G ctx hinv hgrab ie fa fb b pf hst ha hb hsep

/-- A two-island document whose shared edge is `Cut(true)` (tab side on the
second face), inside an unmodified-flag-true ui context. -/
def c3Ctx : Craft.Context Unit where
  papercraft :=
    { model := twoFaceModel
      options := Craft.defaultOptions
      edges := [.Cut true, .Hidden, .Hidden, .Hidden, .Hidden]
      islands := [(0, ⟨0, (), (0, 0)⟩), (1, ⟨1, (), (3, 0)⟩)]
      nextKey := 2 }
  undoStack := []
  modified := true
  grabbedIsland := false

/-- C3 counterexample to the claim as stated: joining the `Cut(true)` edge
through the ui and undoing once yields `Cut(false)` — the per-edge status
array is not restored bit-for-bit (the stored tab side is lost). -/
theorem c3_undo_not_exact_counterexample :
    ((Craft.edgeToggleCutOp unitGeom c3Ctx 0 none).bind
      (fun ctxJ => (Craft.undoAction unitGeom ctxJ).map
        (fun p => p.1.papercraft.edges))) =
      some [.Cut false, .Hidden, .Hidden, .Hidden, .Hidden] ∧
    c3Ctx.papercraft.edges = [.Cut true, .Hidden, .Hidden, .Hidden, .Hidden] :=
  ⟨by decide, by decide⟩

/-- A clean ui context around `twoFacePcJoined`, used as the C3 witness
input. -/
def c3CtxW : Craft.Context Unit where
  papercraft := twoFacePcJoined
  undoStack := []
  modified := false
  grabbedIsland := false

theorem c3_single_op_undo_witness :
    Craft.Inv c3CtxW.papercraft ∧ c3CtxW.grabbedIsland = false ∧
    ((∀ ctx2 : Craft.Context Unit, ctx2.grabbedIsland = true →
      Craft.undoAction unitGeom ctx2 = some (ctx2, .False)) ∧
    (∀ k isl d, (k, isl) ∈ c3CtxW.papercraft.islands →
      Craft.undoAction unitGeom (Craft.moveIslandOp c3CtxW k d) =
        some (c3CtxW, .Model)) ∧
    (∀ ie fb b,
      (c3CtxW.papercraft.model.edges.getD ie Craft.defaultEdge).f1 = some fb →
      Craft.edgeStatus c3CtxW.papercraft.edges ie = .Cut b →
      Craft.undoAction unitGeom (Craft.tabToggleOp c3CtxW ie) =
        some (c3CtxW, .Model)) ∧
    (∀ o, Craft.undoAction unitGeom (Craft.setPapercraftOptions c3CtxW o) =
      some (c3CtxW, .ModelAndOptions)) ∧
    (∀ ie fb pf, Craft.edgeStatus c3CtxW.papercraft.edges ie = .Joined →
      (c3CtxW.papercraft.model.edges.getD ie Craft.defaultEdge).f1 = some fb →
      ∃ ctxJ pc2, Craft.edgeToggleCutOp unitGeom c3CtxW ie pf = some ctxJ ∧
        Craft.undoAction unitGeom ctxJ =
          some ({ c3CtxW with papercraft := pc2 }, .Model) ∧
        pc2.model = c3CtxW.papercraft.model ∧
        pc2.edges = c3CtxW.papercraft.edges ∧
        pc2.options = c3CtxW.papercraft.options ∧ Craft.Inv pc2) ∧
    (∀ ie fa fb b pf, Craft.edgeStatus c3CtxW.papercraft.edges ie = .Cut b →
      (c3CtxW.papercraft.model.edges.getD ie Craft.defaultEdge).f0 = fa →
      (c3CtxW.papercraft.model.edges.getD ie Craft.defaultEdge).f1 = some fb →
      ¬ Craft.Reach c3CtxW.papercraft.model
        (Craft.crossNormal c3CtxW.papercraft.edges) fa fb →
      ∃ ctxJ pc2, Craft.edgeToggleCutOp unitGeom c3CtxW ie pf = some ctxJ ∧
        Craft.undoAction unitGeom ctxJ =
          some ({ c3CtxW with papercraft := pc2 }, .Model) ∧
        pc2.model = c3CtxW.papercraft.model ∧
        pc2.edges = c3CtxW.papercraft.edges.set ie (.Cut false) ∧
        pc2.options = c3CtxW.papercraft.options ∧ Craft.Inv pc2)) :=
  ⟨twoFacePcJoined_inv, rfl,
    c3_single_op_undo unitGeom c3CtxW twoFacePcJoined_inv rfl⟩

namespace Craft

/-- A bounding box `(min, max)` as produced by
`island_bounding_box_angle` (already inflated by the tab width on every
side). -/
abbrev BBox : Type := Vec2 × Vec2

/-- Width `bb.1.x - bb.0.x` of a bounding box. -/
def bbW (bb : BBox) : ℚ := bb.2.1 - bb.1.1

/-- Height `bb.1.y - bb.0.y` of a bounding box. -/
def bbH (bb : BBox) : ℚ := bb.2.2 - bb.1.2

/-- One entry of `pack_islands`' `positions` map, enriched with the page
counter and the raw row cursor at insertion time: the code stores the
absolute location `zero + (pos_x - bb.0.x, pos_y - bb.0.y)` where
`zero = page_position(page) + page_margin`; from `page`, `posX`, `posY` and
`bb` that location is recoverable, so this record carries the same
information in page-relative form. -/
structure Placement where
  key : Nat
  page : Nat
  posX : ℚ
  posY : ℚ
  bb : BBox
deriving DecidableEq, Repr

/-- The mutable locals of the `pack_islands` placement loop. -/
structure PackState where
  rowHeight : ℚ
  posX : ℚ
  posY : ℚ
  numInRow : Nat
  page : Nat
  placements : List Placement
deriving DecidableEq, Repr

def packInit : PackState := ⟨0, 0, 0, 0, 0, []⟩

/-- One iteration of the `for (i_island, angle, bbox) in ordered_islands`
loop of craft.rs `pack_islands` (lines 692–710): row wrap when the island
does not fit horizontally and the row is non-empty, page advance when the
wrapped row cursor exceeds the printable height, then placement at the
current cursor.  `pageSize` is the printable area (page size minus the four
margins), exactly the code's `page_size` local. -/
def packStep (pageSize : Vec2) (s : PackState) (item : Nat × BBox) : PackState :=
  let w := bbW item.2
  let h := bbH item.2
  let s1 :=
    if s.posX + w > pageSize.1 ∧ 0 < s.numInRow then
      if s.posY + s.rowHeight > pageSize.2 then
        { s with posX := 0, posY := 0, rowHeight := 0, numInRow := 0,
                 page := s.page + 1 }
      else
        { s with posX := 0, posY := (s.posY + s.rowHeight), rowHeight := 0,
                 numInRow := 0 }
    else s
  { s1 with
    posX := (s1.posX + w),
    rowHeight := (max s1.rowHeight h),
    numInRow := s1.numInRow + 1,
    placements := (s1.placements ++ [⟨item.1, s1.page, s1.posX, s1.posY, item.2⟩]) }

/-- The sort key of `ordered_islands.sort_by_key`: `-(w * h) as i64`,
area-descending (stable sort). -/
def packSortKey (item : Nat × BBox) : ℤ := -(qtrunc (bbW item.2 * bbH item.2))

/-- craft.rs `Papercraft::pack_islands` (lines 661–719), abstracted over the
per-island best bounding boxes `items` (the `(i_island, bbox)` data of
`ordered_islands`; the rotation angle is passed through unchanged by the
loop and is omitted): sort by decreasing truncated area, then run the
greedy row-placement loop. -/
def packIslands (pageSize : Vec2) (items : List (Nat × BBox)) : PackState :=
  (items.mergeSort (fun a b => decide (packSortKey a ≤ packSortKey b))).foldl
    (packStep pageSize) packInit

end Craft

namespace Craft

/-- Containment of a placement in the printable width: inside the page
horizontally, or flush at the left margin (the only escape, used when the
island alone is wider than the page). -/
def packOk (pageSize : Vec2) (p : Placement) : Prop :=
  0 ≤ p.posX ∧ 0 ≤ p.posY ∧ (p.posX + bbW p.bb ≤ pageSize.1 ∨ p.posX = 0)

theorem packStep_inv (pageSize : Vec2) (s : PackState) (item : Nat × BBox)
    (hw : 0 ≤ bbW item.2) (hh : 0 ≤ bbH item.2)
    (h0 : 0 ≤ s.posX) (h1 : 0 ≤ s.posY) (h2 : 0 ≤ s.rowHeight)
    (h3 : s.numInRow = 0 → s.posX = 0)
    (h4 : ∀ p ∈ s.placements, packOk pageSize p) :
    0 ≤ (packStep pageSize s item).posX ∧
    0 ≤ (packStep pageSize s item).posY ∧
    0 ≤ (packStep pageSize s item).rowHeight ∧
    ((packStep pageSize s item).numInRow = 0 →
      (packStep pageSize s item).posX = 0) ∧
    ∀ p ∈ (packStep pageSize s item).placements, packOk pageSize p := by
  by_cases hc : s.posX + bbW item.2 > pageSize.1 ∧ 0 < s.numInRow
  · by_cases hpg : s.posY + s.rowHeight > pageSize.2
    · simp only [packStep, if_pos hc, if_pos hpg]
      refine ⟨by linarith, le_refl 0, le_max_of_le_right hh, fun h => by omega, ?_⟩
      intro p hp
      rcases List.mem_append.1 hp with hold | hnew
      · exact h4 p hold
      · rcases List.mem_singleton.1 hnew with rfl
        exact ⟨le_refl 0, le_refl 0, Or.inr rfl⟩
    · simp only [packStep, if_pos hc, if_neg hpg]
      refine ⟨by linarith, by linarith, le_max_of_le_right hh, fun h => by omega, ?_⟩
      intro p hp
      rcases List.mem_append.1 hp with hold | hnew
      · exact h4 p hold
      · rcases List.mem_singleton.1 hnew with rfl
        exact ⟨le_refl 0, by dsimp only; linarith, Or.inr rfl⟩
  · simp only [packStep, if_neg hc]
    refine ⟨by linarith, h1, le_max_of_le_left h2, fun h => by omega, ?_⟩
    intro p hp
    rcases List.mem_append.1 hp with hold | hnew
    · exact h4 p hold
    · rcases List.mem_singleton.1 hnew with rfl
      refine ⟨h0, h1, ?_⟩
      rcases not_and_or.1 hc with hle | hnum
      · exact Or.inl (by dsimp only; linarith [not_lt.1 hle])
      · exact Or.inr (h3 (by omega))

theorem pack_fold_inv (pageSize : Vec2) (l : List (Nat × BBox))
    (hl : ∀ it ∈ l, 0 ≤ bbW it.2 ∧ 0 ≤ bbH it.2) (s : PackState)
    (h0 : 0 ≤ s.posX) (h1 : 0 ≤ s.posY) (h2 : 0 ≤ s.rowHeight)
    (h3 : s.numInRow = 0 → s.posX = 0)
    (h4 : ∀ p ∈ s.placements, packOk pageSize p) :
    ∀ p ∈ (l.foldl (packStep pageSize) s).placements, packOk pageSize p := by
  induction l generalizing s with
  | nil => simpa using h4
  | cons it l ih =>
    obtain ⟨hw, hh⟩ := hl it (List.mem_cons_self it l)
    obtain ⟨g0, g1, g2, g3, g4⟩ := packStep_inv pageSize s it hw hh h0 h1 h2 h3 h4
    exact ih (fun x hx => hl x (List.mem_cons_of_mem it hx))
      (packStep pageSize s it) g0 g1 g2 g3 g4

end Craft

/-- C7 (amended): after `pack_islands`, every placement keeps its inflated
best-angle bounding box inside the printable width — `0 ≤ pos_x`,
`0 ≤ pos_y` and `pos_x + width ≤ printable width` unless the island sits
flush at the left margin (`pos_x = 0`, the case of an island wider than one
page).  Vertical containment does NOT hold in general (see the
counterexample): a row may start inside the page and overflow its bottom
edge even when every island individually fits one page. -/
theorem c7_pack_islands_containment (pageSize : Craft.Vec2)
    (items : List (Nat × Craft.BBox))
    (hbb : ∀ it ∈ items, 0 ≤ Craft.bbW it.2 ∧ 0 ≤ Craft.bbH it.2) :
    ∀ p ∈ (Craft.packIslands pageSize items).placements,
      Craft.packOk pageSize p := by
  refine Craft.pack_fold_inv pageSize _ ?_ Craft.packInit (le_refl 0) (le_refl 0)
    (le_refl 0) (fun _ => rfl) ?_
  · intro it hit
    exact hbb it (List.mem_mergeSort.1 hit)
  · intro p hp
    exact absurd hp (List.not_mem_nil p)

/-- Two equal 100×150 inflated boxes, each individually smaller than an
A4-like 190×277 printable page. -/
def c7Items : List (Nat × Craft.BBox) :=
  [(0, ((0, 0), (100, 150))), (1, ((0, 0), (100, 150)))]

/-- C7 counterexample to the claim as stated: packing the two boxes of
`c7Items` into a 190×277 printable page puts the second at row cursor
`pos_y = 150` on page 0, so its box spans `150..300` vertically and sticks
out of the 277-high printable area, although each box alone fits a page
(100 ≤ 190 and 150 ≤ 277). -/
theorem c7_pack_vertical_overflow :
    (Craft.packIslands (190, 277) c7Items).placements =
      [⟨0, 0, 0, 0, ((0, 0), (100, 150))⟩,
       ⟨1, 0, 0, 150, ((0, 0), (100, 150))⟩] ∧
    (150 : ℚ) + Craft.bbH ((0, 0), (100, 150)) > 277 ∧
    Craft.bbW ((0, 0), (100, 150)) ≤ 190 ∧
    Craft.bbH ((0, 0), (100, 150)) ≤ 277 := by
  have hsort : c7Items.mergeSort
      (fun a b => decide (Craft.packSortKey a ≤ Craft.packSortKey b)) =
      c7Items := by
    refine List.mergeSort_of_sorted ?_
    refine List.pairwise_cons.2 ⟨?_, List.pairwise_singleton _ _⟩
    intro b hb
    rcases List.mem_singleton.1 hb with rfl
    exact decide_eq_true (le_refl _)
  refine ⟨?_, by norm_num [Craft.bbH], by norm_num [Craft.bbW],
    by norm_num [Craft.bbH]⟩
  rw [Craft.packIslands, hsort]
  norm_num [c7Items, Craft.packInit, Craft.packStep, Craft.bbW, Craft.bbH]

theorem c7_pack_islands_containment_witness :
    (∀ it ∈ c7Items, 0 ≤ Craft.bbW it.2 ∧ 0 ≤ Craft.bbH it.2) ∧
    (∀ p ∈ (Craft.packIslands (190, 277) c7Items).placements,
      Craft.packOk (190, 277) p) :=
  ⟨by simp [c7Items, Craft.bbW, Craft.bbH],
    c7_pack_islands_containment (190, 277) c7Items
      (by simp [c7Items, Craft.bbW, Craft.bbH])⟩
